import Mathlib

/-!
# SPI memory drivers (`task_1/MemoryDriver.cpp`)

A shallow embedding of the two drivers `EEPROM_25LC040A` and `NOR_W25Q128`.

* The abstract class `ISpiDriver` becomes a record of three state-passing
  operations over an arbitrary transport state `σ`.
* Bytes, addresses and lengths are natural numbers; every narrowing cast of
  the source (`static_cast<uint8_t>`, the assignment to a `uint16_t` or
  `uint32_t` local, `size_t` addition) is an explicit `% 2^w`.
* The unbounded `do … while (true)` polling loops take a poll budget
  (`fuel`).  A call that is still polling when the budget is used up yields
  `Run.spin` together with the transport state reached so far; a call that
  returns yields `Run.done`.
* A pointer argument is `Option (Nat → Nat)`: `none` is `nullptr`, and
  `some f` is a buffer whose byte at offset `i` is `f i`.
-/

namespace MemoryDriver

/-! ## Transport interface -/

/-- The interface `ISpiDriver`: chip select, one-byte exchange, delay. -/
structure ISpiDriver (σ : Type) where
  chipSelect : Bool → σ → σ
  transfer : Nat → σ → Nat × σ
  delayUs : Nat → σ → σ

/-- Outcome of a driver call that contains a polling loop. -/
inductive Run (σ : Type) where
  | done : σ → Run σ
  | spin : σ → Run σ

/-- The transport state carried by an outcome. -/
def Run.state {σ : Type} : Run σ → σ
  | Run.done s => s
  | Run.spin s => s

/-- Whether the call returned. -/
def Run.finished {σ : Type} : Run σ → Bool
  | Run.done _ => true
  | Run.spin _ => false

/-- Store `v` at offset `a` of a byte map. -/
def poke (m : Nat → Nat) (a v : Nat) : Nat → Nat :=
  fun x => if x = a then v else m x

/-- Width of `size_t` on the target (LP64). -/
def SIZE_BITS : Nat := 64

/-! ## EEPROM_25LC040A -/

namespace EEPROM_25LC040A

def getSize : Nat := 512
def CMD_READ : Nat := 0x03
def CMD_WRITE : Nat := 0x02
def CMD_WREN : Nat := 0x06
def CMD_RDSR : Nat := 0x05
/-- The local constant `PAGE_SIZE` of `writeArray`. -/
def PAGE_SIZE : Nat := 16

variable {σ : Type}

/-- `EEPROM_25LC040A::writeEnable`. -/
def writeEnable (spi : ISpiDriver σ) (s : σ) : σ :=
  let s := spi.chipSelect true s
  let s := (spi.transfer CMD_WREN s).2
  let s := spi.chipSelect false s
  spi.delayUs 1 s

/-- `EEPROM_25LC040A::waitForWriteComlete`, with a budget of `fuel` polls. -/
def waitForWriteComlete (spi : ISpiDriver σ) : Nat → σ → Run σ
  | 0, s => Run.spin s
  | fuel + 1, s =>
    let s := spi.chipSelect true s
    let s := (spi.transfer CMD_RDSR s).2
    let r := spi.transfer 0x00 s
    let s := spi.chipSelect false r.2
    if r.1 &&& 0x01 = 0 then Run.done s
    else waitForWriteComlete spi fuel (spi.delayUs 100 s)

/-- `EEPROM_25LC040A::readByte`. -/
def readByte (spi : ISpiDriver σ) (address : Nat) (s : σ) : Nat × σ :=
  if address ≥ getSize then (0xFF, s)
  else
    let s := spi.chipSelect true s
    let s := (spi.transfer CMD_READ s).2
    let s := (spi.transfer ((address >>> 8) % 256) s).2
    let s := (spi.transfer ((address &&& 0xFF) % 256) s).2
    let r := spi.transfer 0x00 s
    (r.1, spi.chipSelect false r.2)

/-- `EEPROM_25LC040A::writeByte`. -/
def writeByte (spi : ISpiDriver σ) (fuel address data : Nat) (s : σ) : Run σ :=
  if address ≥ getSize then Run.done s
  else
    let s := writeEnable spi s
    let s := spi.chipSelect true s
    let s := (spi.transfer CMD_WRITE s).2
    let s := (spi.transfer ((address >>> 8) % 256) s).2
    let s := (spi.transfer ((address &&& 0xFF) % 256) s).2
    let s := (spi.transfer data s).2
    let s := spi.chipSelect false s
    waitForWriteComlete spi fuel s

/-- The loop `for (i = 0; i < length; i++) buffer[i] = spi->transfer(0x00)`:
`n` iterations remain, the next index is `i`. -/
def recvBytes (spi : ISpiDriver σ) : Nat → Nat → (Nat → Nat) → σ → (Nat → Nat) × σ
  | 0, _, buf, s => (buf, s)
  | n + 1, i, buf, s =>
    let r := spi.transfer 0x00 s
    recvBytes spi n (i + 1) (poke buf i r.1) r.2

/-- `EEPROM_25LC040A::readArray`; the result holds the buffer contents after
the call (`none` for a null buffer). -/
def readArray (spi : ISpiDriver σ) (address : Nat) (buffer : Option (Nat → Nat))
    (length : Nat) (s : σ) : Option (Nat → Nat) × σ :=
  match buffer with
  | none => (none, s)
  | some buf =>
    if (address + length) % 2 ^ SIZE_BITS > getSize then (some buf, s)
    else
      let s := spi.chipSelect true s
      let s := (spi.transfer CMD_READ s).2
      let s := (spi.transfer ((address >>> 8) % 256) s).2
      let s := (spi.transfer ((address &&& 0xFF) % 256) s).2
      let r := recvBytes spi length 0 buf s
      (some r.1, spi.chipSelect false r.2)

/-- The loop `for (i = 0; i < chunk; i++) spi->transfer(data[written + i])`:
`n` iterations remain, the next source offset is `off`. -/
def sendBytes (spi : ISpiDriver σ) (data : Nat → Nat) : Nat → Nat → σ → σ
  | 0, _, s => s
  | n + 1, off, s => sendBytes spi data n (off + 1) (spi.transfer (data off) s).2

/-- The `while (written < length)` loop of `EEPROM_25LC040A::writeArray`.
The first numeric argument bounds the number of iterations; every iteration
advances `written` by at least one, so `length` iterations always suffice
(`ee_writeChunks_budget`). -/
def writeChunks (spi : ISpiDriver σ) (fuel address : Nat) (data : Nat → Nat) (length : Nat) :
    Nat → Nat → σ → Run σ
  | 0, written, s => if written < length then Run.spin s else Run.done s
  | n + 1, written, s =>
    if written < length then
      let chunk := if length - written > PAGE_SIZE then PAGE_SIZE else length - written
      let s := writeEnable spi s
      let s := spi.chipSelect true s
      let currentAddr := (address + written) % 2 ^ 16
      let s := (spi.transfer CMD_WRITE s).2
      let s := (spi.transfer ((currentAddr >>> 8) % 256) s).2
      let s := (spi.transfer ((currentAddr &&& 0xFF) % 256) s).2
      let s := sendBytes spi data chunk written s
      let s := spi.chipSelect false s
      match waitForWriteComlete spi fuel s with
      | Run.done s => writeChunks spi fuel address data length n (written + chunk) s
      | Run.spin s => Run.spin s
    else Run.done s

/-- `EEPROM_25LC040A::writeArray`. -/
def writeArray (spi : ISpiDriver σ) (fuel address : Nat) (data : Option (Nat → Nat))
    (length : Nat) (s : σ) : Run σ :=
  match data with
  | none => Run.done s
  | some d =>
    if (address + length) % 2 ^ SIZE_BITS > getSize then Run.done s
    else writeChunks spi fuel address d length length 0 s

/-- `EEPROM_25LC040A::setBit`. -/
def setBit (spi : ISpiDriver σ) (fuel address bit : Nat) (s : σ) : Run σ :=
  if bit > 7 ∨ address ≥ getSize then Run.done s
  else
    let r := readByte spi address s
    let value := (r.1 ||| (1 <<< bit)) % 256
    writeByte spi fuel address value r.2

/-- `EEPROM_25LC040A::clearBit`.  `~(1 << bit)` is computed on a 32-bit
`int`; its bit pattern is `2^32 - 1 - (1 << bit)`. -/
def clearBit (spi : ISpiDriver σ) (fuel address bit : Nat) (s : σ) : Run σ :=
  if bit > 7 ∨ address ≥ getSize then Run.done s
  else
    let r := readByte spi address s
    let value := (r.1 &&& (2 ^ 32 - 1 - (1 <<< bit))) % 256
    writeByte spi fuel address value r.2

/-- The size of the chunk that the write loop sends at offset `written`. -/
def chunkAt (length written : Nat) : Nat :=
  if length - written > PAGE_SIZE then PAGE_SIZE else length - written

/-- The program transaction that the write loop sends at offset `written`. -/
def programTx (address : Nat) (data : Nat → Nat) (length written : Nat) : List Nat :=
  [CMD_WRITE, (((address + written) % 2 ^ 16) >>> 8) % 256,
    (((address + written) % 2 ^ 16) &&& 0xFF) % 256]
    ++ (List.range (chunkAt length written)).map (fun i => data (written + i))

/-- The transactions that the write loop can emit from offset `written` on:
per chunk a write enable, the program transaction and some status polls.
The loop may stop after any chunk (it does so early only when a poll budget
runs out). -/
inductive ChunkTrace (address : Nat) (data : Nat → Nat) (length : Nat) :
    Nat → List (List Nat) → Prop
  | stop (written : Nat) : ChunkTrace address data length written []
  | chunk (written k : Nat) (rest : List (List Nat)) :
      written < length →
      ChunkTrace address data length (written + chunkAt length written) rest →
      ChunkTrace address data length written
        ([CMD_WREN] :: programTx address data length written ::
          (List.replicate k [CMD_RDSR, 0x00] ++ rest))

end EEPROM_25LC040A

/-! ## A simulated 25LC040A on the bus -/

/-- Modelled from the spec: the simulated transport of the testable
properties ("a simulated transport that models true device storage, status,
and erase behavior"), which is not part of the repository.  The device
holds 512 bytes, takes a 2-byte big-endian address, has a write-enable
latch, and after a program command reports busy on the next `latency`
status reads. -/
structure EepromSim where
  mem : Nat → Nat
  latency : Nat
  busy : Nat
  wel : Bool
  sel : Bool
  rx : List Nat

namespace EepromSim

/-- Modelled from the spec: the status register, bit 0 = busy, bit 1 =
write-enable latch. -/
def status (d : EepromSim) : Nat :=
  (if d.busy = 0 then 0 else 1) + (if d.wel then 2 else 0)

/-- Modelled from the spec: the address that the `i`-th payload byte of a
program command starting at `addr` lands on; the address counter wraps
inside the 16-byte page. -/
def pageWrap (addr i : Nat) : Nat :=
  (addr - addr % 16) + (addr % 16 + i) % 16

/-- Modelled from the spec: storing the payload of one program command. -/
def program (addr : Nat) : List Nat → Nat → (Nat → Nat) → (Nat → Nat)
  | [], _, m => m
  | b :: bs, i, m => program addr bs (i + 1) (poke m (pageWrap addr i) b)

/-- Modelled from the spec: the byte the device shifts out in answer to the
next exchange, given the bytes `rx` received so far in this transaction. -/
def respond (d : EepromSim) : Nat :=
  match d.rx with
  | [] => 0
  | op :: args =>
    if op = 0x05 then d.status
    else if op = 0x03 then
      match args with
      | hi :: lo :: rest => d.mem ((hi * 256 + lo + rest.length) % 512)
      | _ => 0
    else 0

/-- Modelled from the spec: one exchange.  Each status byte read lets one
unit of the busy time pass. -/
def exchange (b : Nat) (d : EepromSim) : Nat × EepromSim :=
  if d.sel then
    (d.respond,
      { d with rx := d.rx ++ [b],
               busy := if d.rx.head? = some 0x05 then d.busy - 1 else d.busy })
  else (0, d)

/-- Modelled from the spec: the effect of the command completed by
deasserting chip select. -/
def commit (d : EepromSim) : EepromSim :=
  match d.rx with
  | [] => d
  | op :: args =>
    if op = 0x06 then (if args = [] then { d with wel := true } else d)
    else if op = 0x02 then
      match args with
      | hi :: lo :: p :: ps =>
        if d.wel = true ∧ d.busy = 0 then
          { d with mem := program ((hi * 256 + lo) % 512) (p :: ps) 0 d.mem,
                   wel := false, busy := d.latency }
        else d
      | _ => d
    else d

/-- Modelled from the spec: chip select. -/
def select (active : Bool) (d : EepromSim) : EepromSim :=
  if active then { d with sel := true, rx := [] }
  else if d.sel then { d.commit with sel := false, rx := [] }
  else d

/-- The simulated EEPROM as a transport. -/
def spi : ISpiDriver EepromSim where
  chipSelect := select
  transfer := exchange
  delayUs := fun _ d => d

/-- A device with all bytes `v`, idle, that stays busy for `lat` polls. -/
def fresh (v lat : Nat) : EepromSim :=
  { mem := fun _ => v, latency := lat, busy := 0, wel := false, sel := false, rx := [] }

end EepromSim

/-! ## NOR_W25Q128 -/

namespace NOR_W25Q128

def getSize : Nat := 16 * 1024 * 1024
def CMD_READ : Nat := 0x03
def CMD_WRITE : Nat := 0x02
def CMD_WREN : Nat := 0x06
def CMD_RDSR1 : Nat := 0x05
def CMD_SECTOR_ERASE : Nat := 0x20
def SECTOR_SIZE : Nat := 4096
def PAGE_SIZE : Nat := 256

variable {σ : Type}

/-- `NOR_W25Q128::writeEnable`. -/
def writeEnable (spi : ISpiDriver σ) (s : σ) : σ :=
  let s := spi.chipSelect true s
  let s := (spi.transfer CMD_WREN s).2
  let s := spi.chipSelect false s
  spi.delayUs 1 s

/-- `NOR_W25Q128::waitForReady`, with a budget of `fuel` polls. -/
def waitForReady (spi : ISpiDriver σ) : Nat → σ → Run σ
  | 0, s => Run.spin s
  | fuel + 1, s =>
    let s := spi.chipSelect true s
    let s := (spi.transfer CMD_RDSR1 s).2
    let r := spi.transfer 0x00 s
    let s := spi.chipSelect false r.2
    if r.1 &&& 0x01 = 0 then Run.done s
    else waitForReady spi fuel (spi.delayUs 100 s)

/-- `NOR_W25Q128::getSectorStart` (`uint32_t` arithmetic; the product never
exceeds `address`). -/
def getSectorStart (address : Nat) : Nat :=
  (address / SECTOR_SIZE) * SECTOR_SIZE

/-- `NOR_W25Q128::readByte`. -/
def readByte (spi : ISpiDriver σ) (address : Nat) (s : σ) : Nat × σ :=
  if address ≥ getSize then (0xFF, s)
  else
    let s := spi.chipSelect true s
    let s := (spi.transfer CMD_READ s).2
    let s := (spi.transfer ((address >>> 16) % 256) s).2
    let s := (spi.transfer ((address >>> 8) % 256) s).2
    let s := (spi.transfer ((address &&& 0xFF) % 256) s).2
    let r := spi.transfer 0x00 s
    (r.1, spi.chipSelect false r.2)

/-- `NOR_W25Q128::writeByte`. -/
def writeByte (spi : ISpiDriver σ) (fuel address data : Nat) (s : σ) : Run σ :=
  if address ≥ getSize then Run.done s
  else
    let r := readByte spi address s
    let current := r.1
    let s := r.2
    if current &&& data = data then
      let s := writeEnable spi s
      let s := spi.chipSelect true s
      let s := (spi.transfer CMD_WRITE s).2
      let s := (spi.transfer ((address >>> 16) % 256) s).2
      let s := (spi.transfer ((address >>> 8) % 256) s).2
      let s := (spi.transfer ((address &&& 0xFF) % 256) s).2
      let s := (spi.transfer data s).2
      let s := spi.chipSelect false s
      waitForReady spi fuel s
    else Run.done s

/-- The receive loop of `NOR_W25Q128::readArray`. -/
def recvBytes (spi : ISpiDriver σ) : Nat → Nat → (Nat → Nat) → σ → (Nat → Nat) × σ
  | 0, _, buf, s => (buf, s)
  | n + 1, i, buf, s =>
    let r := spi.transfer 0x00 s
    recvBytes spi n (i + 1) (poke buf i r.1) r.2

/-- `NOR_W25Q128::readArray`. -/
def readArray (spi : ISpiDriver σ) (address : Nat) (buffer : Option (Nat → Nat))
    (length : Nat) (s : σ) : Option (Nat → Nat) × σ :=
  match buffer with
  | none => (none, s)
  | some buf =>
    if (address + length) % 2 ^ SIZE_BITS > getSize then (some buf, s)
    else
      let s := spi.chipSelect true s
      let s := (spi.transfer CMD_READ s).2
      let s := (spi.transfer ((address >>> 16) % 256) s).2
      let s := (spi.transfer ((address >>> 8) % 256) s).2
      let s := (spi.transfer ((address &&& 0xFF) % 256) s).2
      let r := recvBytes spi length 0 buf s
      (some r.1, spi.chipSelect false r.2)

/-- The send loop of `NOR_W25Q128::writeArray`. -/
def sendBytes (spi : ISpiDriver σ) (data : Nat → Nat) : Nat → Nat → σ → σ
  | 0, _, s => s
  | n + 1, off, s => sendBytes spi data n (off + 1) (spi.transfer (data off) s).2

/-- The `while (written < length)` loop of `NOR_W25Q128::writeArray`.  The
first numeric argument bounds the number of iterations; `length` iterations
always suffice (`nor_writeChunks_budget`). -/
def writeChunks (spi : ISpiDriver σ) (fuel address : Nat) (data : Nat → Nat) (length : Nat) :
    Nat → Nat → σ → Run σ
  | 0, written, s => if written < length then Run.spin s else Run.done s
  | n + 1, written, s =>
    if written < length then
      let pageStart := (address + written) % 2 ^ 32
      let pageOffset := pageStart % PAGE_SIZE
      let chunk0 := PAGE_SIZE - pageOffset
      let chunk := if chunk0 > length - written then length - written else chunk0
      let s := writeEnable spi s
      let s := spi.chipSelect true s
      let s := (spi.transfer CMD_WRITE s).2
      let s := (spi.transfer ((pageStart >>> 16) % 256) s).2
      let s := (spi.transfer ((pageStart >>> 8) % 256) s).2
      let s := (spi.transfer ((pageStart &&& 0xFF) % 256) s).2
      let s := sendBytes spi data chunk written s
      let s := spi.chipSelect false s
      match waitForReady spi fuel s with
      | Run.done s => writeChunks spi fuel address data length n (written + chunk) s
      | Run.spin s => Run.spin s
    else Run.done s

/-- `NOR_W25Q128::writeArray`. -/
def writeArray (spi : ISpiDriver σ) (fuel address : Nat) (data : Option (Nat → Nat))
    (length : Nat) (s : σ) : Run σ :=
  match data with
  | none => Run.done s
  | some d =>
    if (address + length) % 2 ^ SIZE_BITS > getSize then Run.done s
    else writeChunks spi fuel address d length length 0 s

/-- `NOR_W25Q128::setBit`: both paths return without using the transport. -/
def setBit (_spi : ISpiDriver σ) (address bit : Nat) (s : σ) : σ :=
  if bit > 7 ∨ address ≥ getSize then s
  else s

/-- `NOR_W25Q128::clearBit`. -/
def clearBit (spi : ISpiDriver σ) (fuel address bit : Nat) (s : σ) : Run σ :=
  if bit > 7 ∨ address ≥ getSize then Run.done s
  else
    let r := readByte spi address s
    let value := (r.1 &&& (2 ^ 32 - 1 - (1 <<< bit))) % 256
    writeByte spi fuel address value r.2

/-- `NOR_W25Q128::eraseSector`. -/
def eraseSector (spi : ISpiDriver σ) (fuel address : Nat) (s : σ) : Run σ :=
  if address ≥ getSize then Run.done s
  else
    let sectorStart := getSectorStart address
    let s := writeEnable spi s
    let s := spi.chipSelect true s
    let s := (spi.transfer CMD_SECTOR_ERASE s).2
    let s := (spi.transfer ((sectorStart >>> 16) % 256) s).2
    let s := (spi.transfer ((sectorStart >>> 8) % 256) s).2
    let s := (spi.transfer ((sectorStart &&& 0xFF) % 256) s).2
    let s := spi.chipSelect false s
    waitForReady spi fuel s

/-- The size of the chunk that the write loop sends at offset `written`. -/
def chunkAt (address length written : Nat) : Nat :=
  if PAGE_SIZE - ((address + written) % 2 ^ 32) % PAGE_SIZE > length - written
  then length - written
  else PAGE_SIZE - ((address + written) % 2 ^ 32) % PAGE_SIZE

/-- The program transaction that the write loop sends at offset `written`. -/
def programTx (address : Nat) (data : Nat → Nat) (length written : Nat) : List Nat :=
  [CMD_WRITE, (((address + written) % 2 ^ 32) >>> 16) % 256,
    (((address + written) % 2 ^ 32) >>> 8) % 256,
    (((address + written) % 2 ^ 32) &&& 0xFF) % 256]
    ++ (List.range (chunkAt address length written)).map (fun i => data (written + i))

/-- The transactions that the write loop can emit from offset `written` on:
per chunk a write enable, the program transaction and some status polls.
The loop may stop after any chunk (it does so early only when a poll budget
runs out). -/
inductive ChunkTrace (address : Nat) (data : Nat → Nat) (length : Nat) :
    Nat → List (List Nat) → Prop
  | stop (written : Nat) : ChunkTrace address data length written []
  | chunk (written k : Nat) (rest : List (List Nat)) :
      written < length →
      ChunkTrace address data length (written + chunkAt address length written) rest →
      ChunkTrace address data length written
        ([CMD_WREN] :: programTx address data length written ::
          (List.replicate k [CMD_RDSR1, 0x00] ++ rest))

end NOR_W25Q128

/-! ## A simulated W25Q128 on the bus -/

/-- Modelled from the spec: the simulated NOR flash of the testable
properties, which is not part of the repository.  The device holds 16 MiB,
takes a 3-byte big-endian address, programs by clearing bits only (the
stored byte becomes `stored AND payload`), erases a 4096-byte sector to
`0xFF`, and reports busy on the next `latency` status reads after a program
command and on the next `eraseLatency` after an erase. -/
structure NorSim where
  mem : Nat → Nat
  latency : Nat
  eraseLatency : Nat
  busy : Nat
  wel : Bool
  sel : Bool
  rx : List Nat

namespace NorSim

/-- Modelled from the spec: status register 1, bit 0 = busy, bit 1 =
write-enable latch. -/
def status (d : NorSim) : Nat :=
  (if d.busy = 0 then 0 else 1) + (if d.wel then 2 else 0)

/-- Modelled from the spec: the address that the `i`-th payload byte of a
page program starting at `addr` lands on; the address counter wraps inside
the 256-byte page. -/
def pageWrap (addr i : Nat) : Nat :=
  (addr - addr % 256) + (addr % 256 + i) % 256

/-- Modelled from the spec: one page program; a program can only clear
bits. -/
def program (addr : Nat) : List Nat → Nat → (Nat → Nat) → (Nat → Nat)
  | [], _, m => m
  | b :: bs, i, m =>
    program addr bs (i + 1) (poke m (pageWrap addr i) (m (pageWrap addr i) &&& b))

/-- Modelled from the spec: erasing the 4096-byte sector that contains
`addr`. -/
def erase (addr : Nat) (m : Nat → Nat) : Nat → Nat :=
  fun x => if x / 4096 = addr / 4096 then 0xFF else m x

/-- Modelled from the spec: the byte shifted out in answer to the next
exchange. -/
def respond (d : NorSim) : Nat :=
  match d.rx with
  | [] => 0
  | op :: args =>
    if op = 0x05 then d.status
    else if op = 0x03 then
      match args with
      | a2 :: a1 :: a0 :: rest =>
        d.mem ((a2 * 65536 + a1 * 256 + a0 + rest.length) % 16777216)
      | _ => 0
    else 0

/-- Modelled from the spec: one exchange.  Each status byte read lets one
unit of the busy time pass. -/
def exchange (b : Nat) (d : NorSim) : Nat × NorSim :=
  if d.sel then
    (d.respond,
      { d with rx := d.rx ++ [b],
               busy := if d.rx.head? = some 0x05 then d.busy - 1 else d.busy })
  else (0, d)

/-- Modelled from the spec: the effect of the command completed by
deasserting chip select. -/
def commit (d : NorSim) : NorSim :=
  match d.rx with
  | [] => d
  | op :: args =>
    if op = 0x06 then (if args = [] then { d with wel := true } else d)
    else if op = 0x02 then
      match args with
      | a2 :: a1 :: a0 :: p :: ps =>
        if d.wel = true ∧ d.busy = 0 then
          { d with mem := program ((a2 * 65536 + a1 * 256 + a0) % 16777216) (p :: ps) 0 d.mem,
                   wel := false, busy := d.latency }
        else d
      | _ => d
    else if op = 0x20 then
      match args with
      | [a2, a1, a0] =>
        if d.wel = true ∧ d.busy = 0 then
          { d with mem := erase ((a2 * 65536 + a1 * 256 + a0) % 16777216) d.mem,
                   wel := false, busy := d.eraseLatency }
        else d
      | _ => d
    else d

/-- Modelled from the spec: chip select. -/
def select (active : Bool) (d : NorSim) : NorSim :=
  if active then { d with sel := true, rx := [] }
  else if d.sel then { d.commit with sel := false, rx := [] }
  else d

/-- The simulated NOR flash as a transport. -/
def spi : ISpiDriver NorSim where
  chipSelect := select
  transfer := exchange
  delayUs := fun _ d => d

/-- A device with all bytes `v`, idle. -/
def fresh (v lat elat : Nat) : NorSim :=
  { mem := fun _ => v, latency := lat, eraseLatency := elat, busy := 0, wel := false,
    sel := false, rx := [] }

end NorSim

/-! ## Bus traces -/

/-- One operation performed on the transport. -/
inductive Event where
  | cs : Bool → Event
  | xfer : Nat → Event
  | delay : Nat → Event
deriving DecidableEq

/-- A transport that records the operations performed on it, in order,
and forwards them to `spi`. -/
def logged {σ : Type} (spi : ISpiDriver σ) : ISpiDriver (σ × List Event) where
  chipSelect := fun b s => (spi.chipSelect b s.1, s.2 ++ [Event.cs b])
  transfer := fun o s => ((spi.transfer o s.1).1, ((spi.transfer o s.1).2, s.2 ++ [Event.xfer o]))
  delayUs := fun u s => (spi.delayUs u s.1, s.2 ++ [Event.delay u])

/-- A transport without a device: the `k`-th exchange is answered with
`resp k`.  The state counts the exchanges so far. -/
def scripted (resp : Nat → Nat) : ISpiDriver Nat where
  chipSelect := fun _ k => k
  transfer := fun _ k => (resp k, k + 1)
  delayUs := fun _ k => k

/-- Splitting a trace into transactions: the transactions completed so far
and, while chip select is asserted, the bytes shifted out in the open one. -/
def Event.step (p : List (List Nat) × Option (List Nat)) :
    Event → List (List Nat) × Option (List Nat)
  | Event.cs true => (p.1, some [])
  | Event.cs false =>
    match p.2 with
    | some bs => (p.1 ++ [bs], none)
    | none => p
  | Event.xfer b =>
    match p.2 with
    | some bs => (p.1, some (bs ++ [b]))
    | none => p
  | Event.delay _ => p

/-- Running the splitter over a whole trace. -/
def Event.parse (tr : List Event) : List (List Nat) × Option (List Nat) :=
  tr.foldl Event.step ([], none)

/-- The transactions of a trace: for each assertion of chip select that is
followed by a deassertion, the bytes shifted out in between. -/
def transactions (tr : List Event) : List (List Nat) :=
  (Event.parse tr).1

/-- Whether a transaction starts with a program (`0x02`) or sector-erase
(`0x20`) opcode. -/
def isModify (tx : List Nat) : Prop :=
  tx.head? = some 0x02 ∨ tx.head? = some 0x20

instance (tx : List Nat) : Decidable (isModify tx) := by
  unfold isModify; infer_instance

/-- Write-enable gating of a list of transactions: every program or erase
transaction has a predecessor, and the predecessor is exactly `[0x06]`. -/
def Gated (txs : List (List Nat)) : Prop :=
  ∀ i tx, txs[i]? = some tx → isModify tx → 0 < i ∧ txs[i - 1]? = some [0x06]

/-- The address carried by a 3-byte-address command (`op a2 a1 a0 …`). -/
def addr24 (tx : List Nat) : Nat :=
  tx.getD 1 0 * 65536 + tx.getD 2 0 * 256 + tx.getD 3 0

namespace NOR_W25Q128

/-- The page-chunk property of one program transaction of
`writeArray address data length`: it starts inside the written range, carries
the source bytes from the matching offset on, and its payload length is
`min(remaining, 256 - (start mod 256))`. -/
def PageChunk (address : Nat) (data : Nat → Nat) (length : Nat) (tx : List Nat) : Prop :=
  address ≤ addr24 tx ∧ addr24 tx < address + length ∧
  tx.drop 4 = (List.range (tx.length - 4)).map (fun i => data (addr24 tx - address + i)) ∧
  tx.length - 4 = min (address + length - addr24 tx) (256 - addr24 tx % 256) ∧
  1 ≤ tx.length - 4 ∧ tx.length - 4 ≤ 256 ∧
  addr24 tx / 256 = (addr24 tx + (tx.length - 4) - 1) / 256

end NOR_W25Q128

/-! ## Bus traces with responses -/

/-- One operation performed on the transport, an exchange together with the
byte received. -/
inductive IoEvent where
  | cs : Bool → IoEvent
  | xfer : Nat → Nat → IoEvent
  | delay : Nat → IoEvent
deriving DecidableEq

/-- A transport that records, in order, the operations performed on it and
the byte each exchange returned, and forwards them to `spi`. -/
def observed {σ : Type} (spi : ISpiDriver σ) : ISpiDriver (σ × List IoEvent) where
  chipSelect := fun b s => (spi.chipSelect b s.1, s.2 ++ [IoEvent.cs b])
  transfer := fun o s =>
    ((spi.transfer o s.1).1,
      ((spi.transfer o s.1).2, s.2 ++ [IoEvent.xfer o (spi.transfer o s.1).1]))
  delayUs := fun u s => (spi.delayUs u s.1, s.2 ++ [IoEvent.delay u])

/-- A well-bracketed piece of a trace: one chip-select interval with its
exchanges `(out, in)`, or one delay outside any interval. -/
inductive Segment where
  | txn : List (Nat × Nat) → Segment
  | delay : Nat → Segment
deriving DecidableEq

/-- The events of an interval that is still asserted. -/
def openTxn (xs : List (Nat × Nat)) : List IoEvent :=
  IoEvent.cs true :: xs.map (fun x => IoEvent.xfer x.1 x.2)

/-- The events of one segment. -/
def Segment.events : Segment → List IoEvent
  | Segment.txn xs => openTxn xs ++ [IoEvent.cs false]
  | Segment.delay u => [IoEvent.delay u]

/-- The trace made of the given segments. -/
def render : List Segment → List IoEvent
  | [] => []
  | seg :: rest => seg.events ++ render rest

/-- Strict splitting of a trace into segments.  The first argument holds the
exchanges of the interval that is asserted, if one is.  The result is `none`
when chip select is asserted twice in a row, deasserted while not asserted,
when an exchange or a delay happens at the wrong side of an assertion, or
when the trace ends with chip select still asserted. -/
def splitFrom : Option (List (Nat × Nat)) → List IoEvent → Option (List Segment)
  | none, [] => some []
  | some _, [] => none
  | none, IoEvent.cs true :: es => splitFrom (some []) es
  | none, IoEvent.cs false :: _ => none
  | none, IoEvent.xfer _ _ :: _ => none
  | none, IoEvent.delay u :: es => (splitFrom none es).map (fun r => Segment.delay u :: r)
  | some _, IoEvent.cs true :: _ => none
  | some xs, IoEvent.cs false :: es => (splitFrom none es).map (fun r => Segment.txn xs :: r)
  | some xs, IoEvent.xfer o r :: es => splitFrom (some (xs ++ [(o, r)])) es
  | some _, IoEvent.delay _ :: _ => none

/-- The segments of a trace that respects the chip-select discipline. -/
def segments (tr : List IoEvent) : Option (List Segment) :=
  splitFrom none tr

/-- The bytes shifted out in a segment; `none` for a delay. -/
def Segment.outs : Segment → Option (List Nat)
  | Segment.txn xs => some (xs.map Prod.fst)
  | Segment.delay _ => none

/-- The transactions of a list of segments, as the bytes shifted out. -/
def outTransactions (segs : List Segment) : List (List Nat) :=
  segs.filterMap Segment.outs

/-- The log of `st` is `l` followed by the segments `segs`. -/
def Logged {σ : Type} (st : σ × List IoEvent) (l : List IoEvent) (segs : List Segment) : Prop :=
  st.2 = l ++ render segs

/-- The log of `st` is `l`, the segments `segs` and an asserted interval with
the exchanges `xs`. -/
def Opened {σ : Type} (st : σ × List IoEvent) (l : List IoEvent) (segs : List Segment)
    (xs : List (Nat × Nat)) : Prop :=
  st.2 = l ++ render segs ++ openTxn xs

/-- Every chip-select interval of `segs` carries one command `Cmd`. -/
def AllCommands (Cmd : List Nat → Prop) (segs : List Segment) : Prop :=
  ∀ xs, Segment.txn xs ∈ segs → Cmd (xs.map Prod.fst)

/-- The segments that a polling loop with a budget of `fuel` polls can emit:
status polls whose status byte has bit 0 set, each followed by a delay of
100 microseconds, and then, if and only if the loop returns (`true`), one
status poll whose status byte has bit 0 clear.  Every status byte is an
answer of the transport to an exchange of `0x00`. -/
inductive PollSegs {σ : Type} (spi : ISpiDriver σ) : Nat → Bool → List Segment → Prop
  | spin : PollSegs spi 0 false []
  | ready (fuel r0 r : Nat) :
      (∃ s, (spi.transfer 0x00 s).1 = r) → r &&& 0x01 = 0 →
      PollSegs spi (fuel + 1) true [Segment.txn [(0x05, r0), (0x00, r)]]
  | busy (fuel r0 r : Nat) (fin : Bool) (rest : List Segment) :
      (∃ s, (spi.transfer 0x00 s).1 = r) → ¬ (r &&& 0x01 = 0) →
      PollSegs spi fuel fin rest →
      PollSegs spi (fuel + 1) fin
        (Segment.txn [(0x05, r0), (0x00, r)] :: Segment.delay 100 :: rest)

namespace EEPROM_25LC040A

/-- The commands of the EEPROM driver, as the bytes shifted out under one
chip-select assertion: one opcode, then only the address and data bytes of
that command. -/
def Command (outs : List Nat) : Prop :=
  outs = [CMD_WREN] ∨ outs = [CMD_RDSR, 0x00] ∨
  (∃ hi lo n, outs = CMD_READ :: hi :: lo :: List.replicate n 0x00) ∨
  (∃ hi lo p ps, outs = CMD_WRITE :: hi :: lo :: p :: ps)

/-- The segments that the write loop emits from offset `written` on; the
flag tells whether the loop returns. -/
inductive ChunkSegs {σ : Type} (spi : ISpiDriver σ) (fuel address : Nat) (data : Nat → Nat)
    (length : Nat) : Nat → Bool → List Segment → Prop
  | finish (written : Nat) : ¬ written < length →
      ChunkSegs spi fuel address data length written true []
  | chunk (written r : Nat) (fin : Bool) (xs : List (Nat × Nat)) (polls rest : List Segment) :
      written < length →
      xs.map Prod.fst = programTx address data length written →
      PollSegs spi fuel true polls →
      ChunkSegs spi fuel address data length (written + chunkAt length written) fin rest →
      ChunkSegs spi fuel address data length written fin
        (Segment.txn [(CMD_WREN, r)] :: Segment.delay 1 :: Segment.txn xs :: (polls ++ rest))
  | stall (written r : Nat) (xs : List (Nat × Nat)) (polls : List Segment) :
      written < length →
      xs.map Prod.fst = programTx address data length written →
      PollSegs spi fuel false polls →
      ChunkSegs spi fuel address data length written false
        (Segment.txn [(CMD_WREN, r)] :: Segment.delay 1 :: Segment.txn xs :: polls)

end EEPROM_25LC040A

namespace NOR_W25Q128

/-- The commands of the NOR driver, as the bytes shifted out under one
chip-select assertion: one opcode, then only the address and data bytes of
that command. -/
def Command (outs : List Nat) : Prop :=
  outs = [CMD_WREN] ∨ outs = [CMD_RDSR1, 0x00] ∨
  (∃ a2 a1 a0 n, outs = CMD_READ :: a2 :: a1 :: a0 :: List.replicate n 0x00) ∨
  (∃ a2 a1 a0 p ps, outs = CMD_WRITE :: a2 :: a1 :: a0 :: p :: ps) ∨
  (∃ a2 a1 a0, outs = [CMD_SECTOR_ERASE, a2, a1, a0])

/-- The segments that the write loop emits from offset `written` on; the
flag tells whether the loop returns. -/
inductive ChunkSegs {σ : Type} (spi : ISpiDriver σ) (fuel address : Nat) (data : Nat → Nat)
    (length : Nat) : Nat → Bool → List Segment → Prop
  | finish (written : Nat) : ¬ written < length →
      ChunkSegs spi fuel address data length written true []
  | chunk (written r : Nat) (fin : Bool) (xs : List (Nat × Nat)) (polls rest : List Segment) :
      written < length →
      xs.map Prod.fst = programTx address data length written →
      PollSegs spi fuel true polls →
      ChunkSegs spi fuel address data length (written + chunkAt address length written) fin
        rest →
      ChunkSegs spi fuel address data length written fin
        (Segment.txn [(CMD_WREN, r)] :: Segment.delay 1 :: Segment.txn xs :: (polls ++ rest))
  | stall (written r : Nat) (xs : List (Nat × Nat)) (polls : List Segment) :
      written < length →
      xs.map Prod.fst = programTx address data length written →
      PollSegs spi fuel false polls →
      ChunkSegs spi fuel address data length written false
        (Segment.txn [(CMD_WREN, r)] :: Segment.delay 1 :: Segment.txn xs :: polls)

end NOR_W25Q128

/-- The chip-select discipline of a trace: it is a sequence of delays and of
intervals `assert, exchanges, deassert`, so assertions and deassertions
alternate, the first chip-select call asserts, the last one deasserts and
every exchange happens inside an interval; and the bytes shifted out in each
interval form one command `Cmd`. -/
def Disciplined (Cmd : List Nat → Prop) (tr : List IoEvent) : Prop :=
  ∃ segs, tr = render segs ∧ AllCommands Cmd segs

/-- The status byte that a poll started in transport state `s` reads. -/
def pollStatus {σ : Type} (spi : ISpiDriver σ) (s : σ) : Nat :=
  (spi.transfer 0x00 (spi.transfer 0x05 (spi.chipSelect true s)).2).1

/-- The transport state after a poll started in state `s`. -/
def pollDone {σ : Type} (spi : ISpiDriver σ) (s : σ) : σ :=
  spi.chipSelect false (spi.transfer 0x00 (spi.transfer 0x05 (spi.chipSelect true s)).2).2

/-- From state `s` on, the transport answers the first `k` status polls with
bit 0 set (each followed by a delay of 100 microseconds) and poll `k + 1`
with bit 0 clear. -/
def BusyThenReady {σ : Type} (spi : ISpiDriver σ) : Nat → σ → Prop
  | 0, s => pollStatus spi s &&& 0x01 = 0
  | k + 1, s =>
    ¬ (pollStatus spi s &&& 0x01 = 0) ∧ BusyThenReady spi k (spi.delayUs 100 (pollDone spi s))

/-- The program transactions (opcode `0x02`) of a list of segments, in
emission order, as the bytes shifted out. -/
def programs (segs : List Segment) : List (List Nat) :=
  (outTransactions segs).filter (fun tx => tx.head? = some 0x02)

namespace EEPROM_25LC040A

/-- The bytes shifted out by the write loop from offset `written` on when
every poll is answered ready at once; the first argument bounds the number
of chunks. -/
def chunkOuts (address : Nat) (data : Nat → Nat) (length : Nat) : Nat → Nat → List (List Nat)
  | 0, _ => []
  | n + 1, written =>
    if written < length then
      [CMD_WREN] :: programTx address data length written :: [CMD_RDSR, 0x00] ::
        chunkOuts address data length n (written + chunkAt length written)
    else []

end EEPROM_25LC040A

end MemoryDriver

/-!
# Bitmap pool allocator (`task_2/main.c`)

Two static pools of fixed-size blocks, each with a bitmap of 32-bit words;
bit `index mod 32` of word `index / 32` is set while block `index` is
allocated.  Pointers are addresses (natural numbers), `NULL` is 0, and the
addresses of the two pool arrays are parameters.
-/

namespace PoolAllocator

def SMALL_SIZE : Nat := 15
def LARGE_SIZE : Nat := 180
def MAX_SMALL : Nat := 1000
def MAX_LARGE : Nat := 500
/-- The value of `sizeof(void*)` on the target (LP64). -/
def ALIGNMENT : Nat := 8

/-- The macro `SMALL_ALIGNED`; `~(ALIGNMENT - 1)` is a 64-bit complement. -/
def SMALL_ALIGNED : Nat := (SMALL_SIZE + ALIGNMENT - 1) &&& (2 ^ 64 - 1 - (ALIGNMENT - 1))

/-- The macro `LARGE_ALIGNED`. -/
def LARGE_ALIGNED : Nat := (LARGE_SIZE + ALIGNMENT - 1) &&& (2 ^ 64 - 1 - (ALIGNMENT - 1))

/-- Where the linker puts the arrays `small_pool` and `large_pool`. -/
structure Layout where
  small_pool : Nat
  large_pool : Nat

/-- The static arrays `small_bitmap` and `large_bitmap`; word `i` of a bitmap
is its value at `i`. -/
structure Pools where
  small_bitmap : Nat → Nat
  large_bitmap : Nat → Nat

/-- Store `v` in word `i` of a bitmap. -/
def setWord (bm : Nat → Nat) (i v : Nat) : Nat → Nat :=
  fun j => if j = i then v else bm j

/-- The loop `while ((inverted & 1) == 0) { inverted >>= 1; bit++; }` of
`find_free_bit`; the first argument bounds the iterations, 32 suffice for a
non-zero 32-bit value. -/
def findLoop : Nat → Nat → Nat → Nat
  | 0, _, bit => bit
  | n + 1, inverted, bit =>
    if inverted &&& 1 = 0 then findLoop n (inverted >>> 1) (bit + 1) else bit

/-- The function `find_free_bit`: the index of the lowest zero bit of `word`,
or -1 when there is none. -/
def find_free_bit (word : Nat) : Int :=
  let inverted := 2 ^ 32 - 1 - word
  if inverted = 0 then -1 else (findLoop 32 inverted 0 : Nat)

/-- The loop `for (i = 0; i < words; i++)` of `malloc` over one bitmap, the
same for both pools up to the constant `max`: `n` iterations remain, the next
word is `i`.  The result is the block index and the updated bitmap, or
`none` when the loop ends without a `return`. -/
def scan (max : Nat) (bm : Nat → Nat) : Nat → Nat → Option (Nat × (Nat → Nat))
  | 0, _ => none
  | n + 1, i =>
    let word := bm i
    if word ≠ 0xFFFFFFFF then
      let bit := find_free_bit word
      if bit ≥ 0 then
        let index := i * 32 + bit.toNat
        if index < max then
          some (index, setWord bm i ((word ||| (1 <<< bit.toNat)) % 2 ^ 32))
        else scan max bm n (i + 1)
      else scan max bm n (i + 1)
    else scan max bm n (i + 1)

/-- The function `malloc`: the pointer returned and the pools afterwards. -/
def malloc (L : Layout) (st : Pools) (size : Nat) : Nat × Pools :=
  if size = 0 then (0, st)
  else if size ≤ SMALL_SIZE then
    match scan MAX_SMALL st.small_bitmap ((MAX_SMALL + 31) / 32) 0 with
    | some (index, bm) => (L.small_pool + index * SMALL_ALIGNED, { st with small_bitmap := bm })
    | none => (0, st)
  else if size ≤ LARGE_SIZE then
    match scan MAX_LARGE st.large_bitmap ((MAX_LARGE + 31) / 32) 0 with
    | some (index, bm) => (L.large_pool + index * LARGE_ALIGNED, { st with large_bitmap := bm })
    | none => (0, st)
  else (0, st)

/-- The function `free`: the pools afterwards. -/
def free (L : Layout) (st : Pools) (ptr : Nat) : Pools :=
  if ptr = 0 then st
  else if ptr ≥ L.small_pool ∧ ptr < L.small_pool + MAX_SMALL * SMALL_ALIGNED then
    let index := (ptr - L.small_pool) / SMALL_ALIGNED
    let i := index / 32
    let bit := index % 32
    { st with small_bitmap :=
        setWord st.small_bitmap i (st.small_bitmap i &&& (2 ^ 32 - 1 - (1 <<< bit))) }
  else if ptr ≥ L.large_pool ∧ ptr < L.large_pool + MAX_LARGE * LARGE_ALIGNED then
    let index := (ptr - L.large_pool) / LARGE_ALIGNED
    let i := index / 32
    let bit := index % 32
    { st with large_bitmap :=
        setWord st.large_bitmap i (st.large_bitmap i &&& (2 ^ 32 - 1 - (1 <<< bit))) }
  else st

/-- The function `init_allocator`: every word of both bitmaps becomes 0. -/
def init_allocator (st : Pools) : Pools :=
  { small_bitmap := fun i => if i < (MAX_SMALL + 31) / 32 then 0 else st.small_bitmap i,
    large_bitmap := fun i => if i < (MAX_LARGE + 31) / 32 then 0 else st.large_bitmap i }

/-- Bit `index` of a bitmap: whether block `index` is marked allocated. -/
def used (bm : Nat → Nat) (index : Nat) : Bool :=
  (bm (index / 32)).testBit (index % 32)

/-- One call of the allocator interface. -/
inductive Call where
  | malloc : Nat → Call
  | free : Nat → Call

/-- The pools together with the bookkeeping of a caller: all pointers that
`malloc` has returned, and those that are allocated and not yet freed. -/
structure Session where
  pools : Pools
  returned : List Nat
  live : List Nat

/-- The effect of one call on a session. -/
def step (L : Layout) (g : Session) : Call → Session
  | Call.malloc size =>
    { pools := (malloc L g.pools size).2,
      returned := (malloc L g.pools size).1 :: g.returned,
      live := if (malloc L g.pools size).1 = 0 then g.live
              else (malloc L g.pools size).1 :: g.live }
  | Call.free ptr =>
    { pools := free L g.pools ptr, returned := g.returned,
      live := g.live.filter (fun p => p ≠ ptr) }

/-- A call sequence in which `free` is only called on pointers that `malloc`
has returned before. -/
def Valid (L : Layout) (g : Session) : List Call → Prop
  | [] => True
  | Call.malloc size :: rest => Valid L (step L g (Call.malloc size)) rest
  | Call.free ptr :: rest => ptr ∈ g.returned ∧ Valid L (step L g (Call.free ptr)) rest

/-- The session after a call sequence. -/
def run (L : Layout) (g : Session) (calls : List Call) : Session :=
  calls.foldl (step L) g

/-- The session right after `init_allocator`. -/
def start (st : Pools) : Session :=
  { pools := init_allocator st, returned := [], live := [] }

/-- The pool arrays are real objects: neither starts at address 0 and they
do not overlap. -/
def Layout.WellFormed (L : Layout) : Prop :=
  0 < L.small_pool ∧ 0 < L.large_pool ∧
  (L.small_pool + MAX_SMALL * SMALL_ALIGNED ≤ L.large_pool ∨
    L.large_pool + MAX_LARGE * LARGE_ALIGNED ≤ L.small_pool)

/-- What holds of every session reached from `start` by a valid call
sequence: bitmap words are 32-bit values, every returned pointer is `NULL` or
the address of a block, every live pointer is the address of a block whose
bit is set, and no pointer is live twice. -/
def Session.Inv (L : Layout) (g : Session) : Prop :=
  (∀ i, i < (MAX_SMALL + 31) / 32 → g.pools.small_bitmap i < 2 ^ 32) ∧
  (∀ i, i < (MAX_LARGE + 31) / 32 → g.pools.large_bitmap i < 2 ^ 32) ∧
  (∀ p, p ∈ g.returned → p = 0 ∨
    (∃ index, index < MAX_SMALL ∧ p = L.small_pool + index * SMALL_ALIGNED) ∨
    (∃ index, index < MAX_LARGE ∧ p = L.large_pool + index * LARGE_ALIGNED)) ∧
  (∀ p, p ∈ g.live →
    (∃ index, index < MAX_SMALL ∧ p = L.small_pool + index * SMALL_ALIGNED ∧
      used g.pools.small_bitmap index = true) ∨
    (∃ index, index < MAX_LARGE ∧ p = L.large_pool + index * LARGE_ALIGNED ∧
      used g.pools.large_bitmap index = true)) ∧
  g.live.Nodup

end PoolAllocator

namespace MemoryDriver

/-! # Theorems -/

/-! ## Address bytes -/

theorem addr16_bytes (a : Nat) (h : a < 65536) :
    (a >>> 8) % 256 * 256 + (a &&& 0xFF) % 256 = a := by
  have h1 : a &&& 0xFF = a % 256 := Nat.and_pow_two_sub_one_eq_mod a 8
  rw [h1, Nat.shiftRight_eq_div_pow]
  omega

theorem addr24_bytes (a : Nat) (h : a < 16777216) :
    (a >>> 16) % 256 * 65536 + (a >>> 8) % 256 * 256 + (a &&& 0xFF) % 256 = a := by
  have h1 : a &&& 0xFF = a % 256 := Nat.and_pow_two_sub_one_eq_mod a 8
  rw [h1, Nat.shiftRight_eq_div_pow, Nat.shiftRight_eq_div_pow]
  omega

/-! ## The drivers on the simulated devices -/

section sim
open EEPROM_25LC040A

namespace EepromSim
theorem eesim_spi_chipSelect : spi.chipSelect = select := rfl
theorem eesim_spi_transfer : spi.transfer = exchange := rfl
theorem eesim_spi_delayUs (u : Nat) (d : EepromSim) : spi.delayUs u d = d := rfl

theorem eesim_status_busy (d : EepromSim) : d.status % 2 = 0 ↔ d.busy = 0 := by
  unfold status
  cases d.wel <;> by_cases h : d.busy = 0 <;> simp [h]
end EepromSim

theorem eeprom_wait_sim (fuel : Nat) : ∀ d : EepromSim, d.busy < fuel →
    waitForWriteComlete EepromSim.spi fuel d
      = Run.done { d with busy := 0, sel := false, rx := [] } := by
  induction fuel with
  | zero => intro d h; omega
  | succ n ih =>
    intro d h
    simp only [waitForWriteComlete, EepromSim.eesim_spi_chipSelect, EepromSim.eesim_spi_transfer,
      EepromSim.eesim_spi_delayUs, EepromSim.select, EepromSim.exchange, CMD_RDSR]
    simp [EepromSim.respond, EepromSim.commit, EepromSim.eesim_status_busy]
    by_cases hb : d.busy = 0
    · simp [hb]
    · simp only [hb, if_false]
      rw [ih _ (by simp; omega)]

theorem eeprom_writeByte_sim (d : EepromSim) (fuel a v : Nat) (ha : a < 512)
    (hready : d.busy = 0) (hfuel : d.latency < fuel) :
    writeByte EepromSim.spi fuel a v d
      = Run.done { d with mem := poke d.mem a v, busy := 0, wel := false,
                          sel := false, rx := [] } := by
  have hb := addr16_bytes a (by omega)
  have hnot : ¬ a ≥ getSize := by simp [getSize]; omega
  simp only [writeByte, hnot, if_false, writeEnable, EepromSim.eesim_spi_chipSelect,
    EepromSim.eesim_spi_transfer, EepromSim.eesim_spi_delayUs, EepromSim.select, EepromSim.exchange,
    CMD_WREN, CMD_WRITE]
  simp [EepromSim.commit, hready]
  rw [eeprom_wait_sim _ _ (by simpa using hfuel)]
  simp [EepromSim.program, EepromSim.pageWrap]
  rw [hb, Nat.mod_eq_of_lt ha]
  have hw : a - a % 16 + a % 16 = a := by omega
  rw [hw]

theorem eeprom_readByte_sim (d : EepromSim) (a : Nat) (ha : a < 512) :
    readByte EepromSim.spi a d = (d.mem a, { d with sel := false, rx := [] }) := by
  have hb := addr16_bytes a (by omega)
  have hnot : ¬ a ≥ getSize := by simp [getSize]; omega
  simp only [readByte, hnot, if_false, EepromSim.eesim_spi_chipSelect, EepromSim.eesim_spi_transfer,
      EepromSim.select, EepromSim.exchange, CMD_READ]
  simp [EepromSim.respond, EepromSim.commit]
  rw [hb, Nat.mod_eq_of_lt ha]

end sim

section norsim
namespace NorSim
theorem norsim_spi_chipSelect : spi.chipSelect = select := rfl
theorem norsim_spi_transfer : spi.transfer = exchange := rfl
theorem norsim_spi_delayUs (u : Nat) (d : NorSim) : spi.delayUs u d = d := rfl

theorem norsim_status_busy (d : NorSim) : d.status % 2 = 0 ↔ d.busy = 0 := by
  unfold status
  cases d.wel <;> by_cases h : d.busy = 0 <;> simp [h]
end NorSim

open NOR_W25Q128

theorem nor_wait_sim (fuel : Nat) : ∀ d : NorSim, d.busy < fuel →
    waitForReady NorSim.spi fuel d
      = Run.done { d with busy := 0, sel := false, rx := [] } := by
  induction fuel with
  | zero => intro d h; omega
  | succ n ih =>
    intro d h
    simp only [waitForReady, NorSim.norsim_spi_chipSelect, NorSim.norsim_spi_transfer,
      NorSim.norsim_spi_delayUs, NorSim.select, NorSim.exchange, CMD_RDSR1]
    simp [NorSim.respond, NorSim.commit, NorSim.norsim_status_busy]
    by_cases hb : d.busy = 0
    · simp [hb]
    · simp only [hb, if_false]
      rw [ih _ (by simp; omega)]

theorem nor_readByte_sim (d : NorSim) (a : Nat) (ha : a < 16777216) :
    readByte NorSim.spi a d = (d.mem a, { d with sel := false, rx := [] }) := by
  have hb := addr24_bytes a ha
  have hnot : ¬ a ≥ getSize := by simp [getSize]; omega
  simp only [readByte, hnot, if_false, NorSim.norsim_spi_chipSelect, NorSim.norsim_spi_transfer,
      NorSim.select, NorSim.exchange, CMD_READ]
  simp [NorSim.respond, NorSim.commit]
  rw [hb, Nat.mod_eq_of_lt ha]

theorem nor_writeByte_sim (d : NorSim) (fuel a v : Nat) (ha : a < 16777216)
    (hready : d.busy = 0) (hfuel : d.latency < fuel) :
    writeByte NorSim.spi fuel a v d
      = Run.done (if d.mem a &&& v = v then
          { d with mem := poke d.mem a (d.mem a &&& v), busy := 0, wel := false, sel := false, rx := [] }
        else { d with sel := false, rx := [] }) := by
  have hb := addr24_bytes a ha
  have hnot : ¬ a ≥ getSize := by simp [getSize]; omega
  simp only [writeByte, hnot, if_false, nor_readByte_sim d a ha]
  by_cases hc : d.mem a &&& v = v
  · simp only [hc, if_true, writeEnable, NorSim.norsim_spi_chipSelect, NorSim.norsim_spi_transfer,
      NorSim.norsim_spi_delayUs, NorSim.select, NorSim.exchange, CMD_WREN, CMD_WRITE]
    simp [NorSim.commit, hready]
    rw [nor_wait_sim _ _ (by simpa using hfuel)]
    simp [NorSim.program, NorSim.pageWrap]
    rw [hb, Nat.mod_eq_of_lt ha]
    have hw : a - a % 256 + a % 256 = a := by omega
    rw [hw, hc]
  · simp only [hc, if_false]

theorem nor_eraseSector_sim (d : NorSim) (fuel a : Nat) (ha : a < 16777216)
    (hready : d.busy = 0) (hfuel : d.eraseLatency < fuel) :
    eraseSector NorSim.spi fuel a d
      = Run.done { d with mem := NorSim.erase a d.mem, busy := 0, wel := false, sel := false, rx := [] } := by
  have hs : getSectorStart a < 16777216 := by
    simp only [getSectorStart, SECTOR_SIZE]; omega
  have hb := addr24_bytes _ hs
  have hnot : ¬ a ≥ getSize := by simp [getSize]; omega
  simp only [eraseSector, hnot, if_false, writeEnable, NorSim.norsim_spi_chipSelect, NorSim.norsim_spi_transfer,
      NorSim.norsim_spi_delayUs, NorSim.select, NorSim.exchange, CMD_WREN, CMD_SECTOR_ERASE]
  simp [NorSim.commit, hready]
  rw [nor_wait_sim _ _ (by simpa using hfuel)]
  simp
  rw [hb, Nat.mod_eq_of_lt hs]
  funext x
  simp only [NorSim.erase, getSectorStart, SECTOR_SIZE]
  have : a / 4096 * 4096 / 4096 = a / 4096 := by omega
  simp only [this]

end norsim

/-! ## Traces of the drivers on a recording transport -/

section trace
variable {σ : Type} (spi : ISpiDriver σ)

theorem logged_chipSelect (b : Bool) (st : σ × List Event) :
    (logged spi).chipSelect b st = (spi.chipSelect b st.1, st.2 ++ [Event.cs b]) := rfl
theorem logged_transfer (o : Nat) (st : σ × List Event) :
    (logged spi).transfer o st
      = ((spi.transfer o st.1).1, ((spi.transfer o st.1).2, st.2 ++ [Event.xfer o])) := rfl
theorem logged_delayUs (u : Nat) (st : σ × List Event) :
    (logged spi).delayUs u st = (spi.delayUs u st.1, st.2 ++ [Event.delay u]) := rfl

theorem parse_append (tr es : List Event) :
    Event.parse (tr ++ es) = es.foldl Event.step (Event.parse tr) := by
  simp [Event.parse, List.foldl_append]

theorem parse_nil : Event.parse [] = ([], none) := rfl

theorem gated_nil : Gated [] := by
  intro i tx h; simp at h

theorem gated_snoc (txs : List (List Nat)) (tx : List Nat) :
    Gated (txs ++ [tx]) ↔ Gated txs ∧ (isModify tx → txs.getLast? = some [0x06]) := by
  constructor
  · intro h
    refine ⟨?_, ?_⟩
    · intro i t hi hm
      have hlt : i < txs.length := (List.getElem?_eq_some_iff.1 hi).1
      have := h i t (by rw [List.getElem?_append_left hlt]; exact hi) hm
      refine ⟨this.1, ?_⟩
      have h2 := this.2
      rwa [List.getElem?_append_left (by omega)] at h2
    · intro hm
      have := h txs.length tx (by simp) hm
      have h2 := this.2
      rw [List.getElem?_append_left (by omega)] at h2
      rw [List.getLast?_eq_getElem?]
      exact h2
  · rintro ⟨hg, hl⟩ i t hi hm
    by_cases hlt : i < txs.length
    · rw [List.getElem?_append_left hlt] at hi
      have := hg i t hi hm
      refine ⟨this.1, ?_⟩
      rw [List.getElem?_append_left (by omega)]
      exact this.2
    · have hlen : i = txs.length := by
        have := (List.getElem?_eq_some_iff.1 hi).1
        simp at this; omega
      subst hlen
      simp at hi
      subst hi
      have h2 := hl hm
      rw [List.getLast?_eq_getElem?] at h2
      have hpos : 0 < txs.length := by
        rcases Nat.eq_zero_or_pos txs.length with h0 | h0
        · rw [List.length_eq_zero] at h0; subst h0; simp at h2
        · exact h0
      refine ⟨hpos, ?_⟩
      rw [List.getElem?_append_left (by omega)]
      exact h2


theorem gated_append (A B : List (List Nat)) (hA : Gated A) (hB : Gated B) : Gated (A ++ B) := by
  induction B using List.reverseRecOn with
  | nil => simpa using hA
  | append_singleton B t ih =>
    rw [gated_snoc] at hB
    rw [← List.append_assoc, gated_snoc]
    refine ⟨ih hB.1, fun hm => ?_⟩
    have h2 := hB.2 hm
    rw [List.getLast?_append, h2]; rfl

theorem gated_replicate (k : Nat) (tx : List Nat) (h : ¬ isModify tx) :
    Gated (List.replicate k tx) := by
  induction k with
  | zero => simpa using gated_nil
  | succ n ih =>
    rw [List.replicate_succ', gated_snoc]
    exact ⟨ih, fun hm => absurd hm h⟩


theorem open3_parse (a b c : Nat) {st : σ × List Event} {txs : List (List Nat)}
    (h : Event.parse st.2 = (txs, none)) :
    Event.parse ((logged spi).transfer c ((logged spi).transfer b ((logged spi).transfer a
      ((logged spi).chipSelect true st)).2).2).2.2 = (txs, some [a, b, c]) := by
  simp [logged_chipSelect, logged_transfer, parse_append, h, Event.step]

theorem open4_parse (a b c d : Nat) {st : σ × List Event} {txs : List (List Nat)}
    (h : Event.parse st.2 = (txs, none)) :
    Event.parse ((logged spi).transfer d ((logged spi).transfer c ((logged spi).transfer b
      ((logged spi).transfer a ((logged spi).chipSelect true st)).2).2).2).2.2
      = (txs, some [a, b, c, d]) := by
  simp [logged_chipSelect, logged_transfer, parse_append, h, Event.step]

theorem xfer_parse (b : Nat) {st : σ × List Event} {txs : List (List Nat)} {bs : List Nat}
    (h : Event.parse st.2 = (txs, some bs)) :
    Event.parse ((logged spi).transfer b st).2.2 = (txs, some (bs ++ [b])) := by
  simp [logged_transfer, parse_append, h, Event.step]

theorem close_parse {st : σ × List Event} {txs : List (List Nat)} {bs : List Nat}
    (h : Event.parse st.2 = (txs, some bs)) :
    Event.parse ((logged spi).chipSelect false st).2 = (txs ++ [bs], none) := by
  simp [logged_chipSelect, parse_append, h, Event.step]

theorem delay_parse (u : Nat) {st : σ × List Event} {p : List (List Nat) × Option (List Nat)}
    (h : Event.parse st.2 = p) :
    Event.parse ((logged spi).delayUs u st).2 = p := by
  simp [logged_delayUs, parse_append, h, Event.step]

namespace EEPROM_25LC040A

theorem ee_writeEnable_parse {st : σ × List Event} {txs : List (List Nat)}
    (h : Event.parse st.2 = (txs, none)) :
    Event.parse (writeEnable (logged spi) st).2 = (txs ++ [[0x06]], none) := by
  simp [writeEnable, logged_chipSelect, logged_transfer, logged_delayUs, parse_append, h,
    Event.step, CMD_WREN]

theorem ee_wait_parse (fuel : Nat) : ∀ {st : σ × List Event} {txs : List (List Nat)},
    Event.parse st.2 = (txs, none) →
    ∃ k, Event.parse (waitForWriteComlete (logged spi) fuel st).state.2
      = (txs ++ List.replicate k [0x05, 0x00], none) := by
  induction fuel with
  | zero => intro st txs h; exact ⟨0, by simpa [waitForWriteComlete, Run.state] using h⟩
  | succ n ih =>
    intro st txs h
    have h1 := close_parse spi (xfer_parse spi 0x00 (xfer_parse spi CMD_RDSR
      (show Event.parse ((logged spi).chipSelect true st).2 = (txs, some []) by
        simp [logged_chipSelect, parse_append, h, Event.step])))
    simp only [waitForWriteComlete]
    split
    · exact ⟨1, by simpa [Run.state, CMD_RDSR] using h1⟩
    · obtain ⟨k, hk⟩ := ih (delay_parse spi 100 h1)
      refine ⟨k + 1, ?_⟩
      rw [hk, List.replicate_succ]
      simp [CMD_RDSR]

theorem ee_readByte_parse (a : Nat) {st : σ × List Event} {txs : List (List Nat)}
    (h : Event.parse st.2 = (txs, none)) :
    Event.parse (readByte (logged spi) a st).2.2
      = (txs ++ (if a ≥ getSize then []
          else [[CMD_READ, (a >>> 8) % 256, (a &&& 0xFF) % 256, 0x00]]), none) := by
  unfold readByte
  split
  · simpa using h
  · simpa using close_parse spi (xfer_parse spi 0x00 (open3_parse spi CMD_READ _ _ h))

theorem ee_writeByte_parse (fuel a v : Nat) {st : σ × List Event} {txs : List (List Nat)}
    (h : Event.parse st.2 = (txs, none)) :
    ∃ k, Event.parse (writeByte (logged spi) fuel a v st).state.2
      = (txs ++ (if a ≥ getSize then []
          else [CMD_WREN] :: [CMD_WRITE, (a >>> 8) % 256, (a &&& 0xFF) % 256, v]
            :: List.replicate k [CMD_RDSR, 0x00]), none) := by
  unfold writeByte
  split
  · exact ⟨0, by simpa [Run.state] using h⟩
  · obtain ⟨k, hk⟩ := ee_wait_parse spi fuel (close_parse spi (xfer_parse spi v
      (open3_parse spi CMD_WRITE ((a >>> 8) % 256) ((a &&& 0xFF) % 256)
        (ee_writeEnable_parse spi h))))
    exact ⟨k, by simpa [CMD_WREN, CMD_RDSR] using hk⟩

theorem ee_recvBytes_parse (n : Nat) : ∀ (i : Nat) (buf : Nat → Nat) {st : σ × List Event}
    {txs : List (List Nat)} {bs : List Nat}, Event.parse st.2 = (txs, some bs) →
    Event.parse (recvBytes (logged spi) n i buf st).2.2
      = (txs, some (bs ++ List.replicate n 0x00)) := by
  induction n with
  | zero => intro i buf st txs bs h; simpa [recvBytes] using h
  | succ n ih =>
    intro i buf st txs bs h
    simp only [recvBytes]
    rw [ih _ _ (xfer_parse spi 0x00 h)]
    simp [List.replicate_succ]

theorem ee_sendBytes_parse (data : Nat → Nat) (n : Nat) : ∀ (off : Nat) {st : σ × List Event}
    {txs : List (List Nat)} {bs : List Nat}, Event.parse st.2 = (txs, some bs) →
    Event.parse (sendBytes (logged spi) data n off st).2
      = (txs, some (bs ++ (List.range n).map (fun i => data (off + i)))) := by
  induction n with
  | zero => intro off st txs bs h; simpa [sendBytes] using h
  | succ n ih =>
    intro off st txs bs h
    simp only [sendBytes]
    rw [ih _ (xfer_parse spi (data off) h)]
    simp [List.range_succ_eq_map, Nat.add_assoc, Nat.add_comm 1, Function.comp_def]

theorem ee_readArray_parse (a : Nat) (buffer : Option (Nat → Nat)) (length : Nat)
    {st : σ × List Event} {txs : List (List Nat)}
    (h : Event.parse st.2 = (txs, none)) :
    Event.parse (readArray (logged spi) a buffer length st).2.2
      = (txs ++ (if buffer.isNone = true ∨ (a + length) % 2 ^ SIZE_BITS > getSize then []
          else [[CMD_READ, (a >>> 8) % 256, (a &&& 0xFF) % 256]
            ++ List.replicate length 0x00]), none) := by
  unfold readArray
  split
  · simpa using h
  · split
    · rename_i hg
      simpa [hg] using h
    · rename_i hg
      simpa [hg] using
        close_parse spi (ee_recvBytes_parse spi length 0 _ (open3_parse spi CMD_READ _ _ h))

theorem ee_writeChunks_parse (fuel address : Nat) (data : Nat → Nat) (length : Nat) (n : Nat) :
    ∀ (written : Nat) {st : σ × List Event} {txs : List (List Nat)},
    Event.parse st.2 = (txs, none) →
    ∃ new, Event.parse (writeChunks (logged spi) fuel address data length n written st).state.2
        = (txs ++ new, none)
      ∧ ChunkTrace address data length written new := by
  induction n with
  | zero =>
    intro written st txs h
    refine ⟨[], ?_, ChunkTrace.stop _⟩
    simp only [writeChunks]
    split <;> simpa [Run.state] using h
  | succ n ih =>
    intro written st txs h
    simp only [writeChunks]
    split
    · rename_i hlt
      obtain ⟨k, hk⟩ := ee_wait_parse spi fuel (close_parse spi
        (ee_sendBytes_parse spi data (chunkAt length written) written
          (open3_parse spi CMD_WRITE ((((address + written) % 2 ^ 16) >>> 8) % 256)
            ((((address + written) % 2 ^ 16) &&& 0xFF) % 256) (ee_writeEnable_parse spi h))))
      simp only [chunkAt] at hk
      split
      · rename_i s' heq
        rw [heq] at hk
        simp only [Run.state] at hk
        obtain ⟨new, hnew, hct⟩ := ih (written + chunkAt length written) hk
        refine ⟨[CMD_WREN] :: programTx address data length written ::
          (List.replicate k [CMD_RDSR, 0x00] ++ new), ?_, ChunkTrace.chunk _ _ _ hlt hct⟩
        simp only [chunkAt] at hnew
        rw [hnew]; simp [programTx, chunkAt, CMD_WREN, CMD_RDSR]
      · rename_i s' heq
        rw [heq] at hk
        refine ⟨[CMD_WREN] :: programTx address data length written ::
          (List.replicate k [CMD_RDSR, 0x00] ++ []), ?_,
          ChunkTrace.chunk _ _ _ hlt (ChunkTrace.stop _)⟩
        simp only [Run.state] at hk ⊢
        rw [hk]; simp [programTx, chunkAt, CMD_WREN, CMD_RDSR]
    · exact ⟨[], by simpa [Run.state] using h, ChunkTrace.stop _⟩

theorem ee_setBit_parse (fuel a bit : Nat) {st : σ × List Event} {txs : List (List Nat)}
    (h : Event.parse st.2 = (txs, none)) :
    ∃ k, Event.parse (setBit (logged spi) fuel a bit st).state.2
      = (txs ++ (if bit > 7 ∨ a ≥ getSize then []
          else [CMD_READ, (a >>> 8) % 256, (a &&& 0xFF) % 256, 0x00] ::
            [CMD_WREN] :: [CMD_WRITE, (a >>> 8) % 256, (a &&& 0xFF) % 256,
                ((readByte (logged spi) a st).1 ||| (1 <<< bit)) % 256]
              :: List.replicate k [CMD_RDSR, 0x00]), none) := by
  unfold setBit
  split
  · exact ⟨0, by simpa [Run.state] using h⟩
  · rename_i hc
    have hge : ¬ a ≥ getSize := fun hh => hc (Or.inr hh)
    have hr := ee_readByte_parse spi a h
    simp only [hge, if_false] at hr
    obtain ⟨k, hk⟩ := ee_writeByte_parse spi fuel a
      (((readByte (logged spi) a st).1 ||| (1 <<< bit)) % 256) hr
    simp only [hge, if_false] at hk
    exact ⟨k, by simpa using hk⟩

theorem ee_clearBit_parse (fuel a bit : Nat) {st : σ × List Event} {txs : List (List Nat)}
    (h : Event.parse st.2 = (txs, none)) :
    ∃ k, Event.parse (clearBit (logged spi) fuel a bit st).state.2
      = (txs ++ (if bit > 7 ∨ a ≥ getSize then []
          else [CMD_READ, (a >>> 8) % 256, (a &&& 0xFF) % 256, 0x00] ::
            [CMD_WREN] :: [CMD_WRITE, (a >>> 8) % 256, (a &&& 0xFF) % 256,
                ((readByte (logged spi) a st).1 &&& (2 ^ 32 - 1 - (1 <<< bit))) % 256]
              :: List.replicate k [CMD_RDSR, 0x00]), none) := by
  unfold clearBit
  split
  · exact ⟨0, by simpa [Run.state] using h⟩
  · rename_i hc
    have hge : ¬ a ≥ getSize := fun hh => hc (Or.inr hh)
    have hr := ee_readByte_parse spi a h
    simp only [hge, if_false] at hr
    obtain ⟨k, hk⟩ := ee_writeByte_parse spi fuel a
      (((readByte (logged spi) a st).1 &&& (2 ^ 32 - 1 - (1 <<< bit))) % 256) hr
    simp only [hge, if_false] at hk
    exact ⟨k, by simpa using hk⟩

end EEPROM_25LC040A

namespace NOR_W25Q128

theorem nor_writeEnable_parse {st : σ × List Event} {txs : List (List Nat)}
    (h : Event.parse st.2 = (txs, none)) :
    Event.parse (writeEnable (logged spi) st).2 = (txs ++ [[0x06]], none) := by
  simp [writeEnable, logged_chipSelect, logged_transfer, logged_delayUs, parse_append, h,
    Event.step, CMD_WREN]

theorem nor_wait_parse (fuel : Nat) : ∀ {st : σ × List Event} {txs : List (List Nat)},
    Event.parse st.2 = (txs, none) →
    ∃ k, Event.parse (waitForReady (logged spi) fuel st).state.2
      = (txs ++ List.replicate k [0x05, 0x00], none) := by
  induction fuel with
  | zero => intro st txs h; exact ⟨0, by simpa [waitForReady, Run.state] using h⟩
  | succ n ih =>
    intro st txs h
    have h1 := close_parse spi (xfer_parse spi 0x00 (xfer_parse spi CMD_RDSR1
      (show Event.parse ((logged spi).chipSelect true st).2 = (txs, some []) by
        simp [logged_chipSelect, parse_append, h, Event.step])))
    simp only [waitForReady]
    split
    · exact ⟨1, by simpa [Run.state, CMD_RDSR1] using h1⟩
    · obtain ⟨k, hk⟩ := ih (delay_parse spi 100 h1)
      refine ⟨k + 1, ?_⟩
      rw [hk, List.replicate_succ]
      simp [CMD_RDSR1]

theorem nor_readByte_parse (a : Nat) {st : σ × List Event} {txs : List (List Nat)}
    (h : Event.parse st.2 = (txs, none)) :
    Event.parse (readByte (logged spi) a st).2.2
      = (txs ++ (if a ≥ getSize then []
          else [[CMD_READ, (a >>> 16) % 256, (a >>> 8) % 256, (a &&& 0xFF) % 256, 0x00]]),
         none) := by
  unfold readByte
  split
  · simpa using h
  · simpa using close_parse spi (xfer_parse spi 0x00 (open4_parse spi CMD_READ _ _ _ h))

theorem nor_writeByte_parse (fuel a v : Nat) {st : σ × List Event} {txs : List (List Nat)}
    (h : Event.parse st.2 = (txs, none)) :
    ∃ k, Event.parse (writeByte (logged spi) fuel a v st).state.2
      = (txs ++ (if a ≥ getSize then []
          else [CMD_READ, (a >>> 16) % 256, (a >>> 8) % 256, (a &&& 0xFF) % 256, 0x00] ::
            (if (readByte (logged spi) a st).1 &&& v = v then
              [CMD_WREN] :: [CMD_WRITE, (a >>> 16) % 256, (a >>> 8) % 256, (a &&& 0xFF) % 256, v]
                :: List.replicate k [CMD_RDSR1, 0x00]
             else [])), none) := by
  unfold writeByte
  split
  · exact ⟨0, by simpa [Run.state] using h⟩
  · rename_i hge
    have hr := nor_readByte_parse spi a h
    simp only [hge, if_false] at hr
    simp only []
    split
    · obtain ⟨k, hk⟩ := nor_wait_parse spi fuel (close_parse spi (xfer_parse spi v
        (open4_parse spi CMD_WRITE ((a >>> 16) % 256) ((a >>> 8) % 256) ((a &&& 0xFF) % 256)
          (nor_writeEnable_parse spi hr))))
      exact ⟨k, by simpa [CMD_WREN, CMD_RDSR1] using hk⟩
    · exact ⟨0, by simpa [Run.state] using hr⟩

theorem nor_recvBytes_parse (n : Nat) : ∀ (i : Nat) (buf : Nat → Nat) {st : σ × List Event}
    {txs : List (List Nat)} {bs : List Nat}, Event.parse st.2 = (txs, some bs) →
    Event.parse (recvBytes (logged spi) n i buf st).2.2
      = (txs, some (bs ++ List.replicate n 0x00)) := by
  induction n with
  | zero => intro i buf st txs bs h; simpa [recvBytes] using h
  | succ n ih =>
    intro i buf st txs bs h
    simp only [recvBytes]
    rw [ih _ _ (xfer_parse spi 0x00 h)]
    simp [List.replicate_succ]

theorem nor_sendBytes_parse (data : Nat → Nat) (n : Nat) : ∀ (off : Nat) {st : σ × List Event}
    {txs : List (List Nat)} {bs : List Nat}, Event.parse st.2 = (txs, some bs) →
    Event.parse (sendBytes (logged spi) data n off st).2
      = (txs, some (bs ++ (List.range n).map (fun i => data (off + i)))) := by
  induction n with
  | zero => intro off st txs bs h; simpa [sendBytes] using h
  | succ n ih =>
    intro off st txs bs h
    simp only [sendBytes]
    rw [ih _ (xfer_parse spi (data off) h)]
    simp [List.range_succ_eq_map, Nat.add_assoc, Nat.add_comm 1, Function.comp_def]

theorem nor_readArray_parse (a : Nat) (buffer : Option (Nat → Nat)) (length : Nat)
    {st : σ × List Event} {txs : List (List Nat)}
    (h : Event.parse st.2 = (txs, none)) :
    Event.parse (readArray (logged spi) a buffer length st).2.2
      = (txs ++ (if buffer.isNone = true ∨ (a + length) % 2 ^ SIZE_BITS > getSize then []
          else [[CMD_READ, (a >>> 16) % 256, (a >>> 8) % 256, (a &&& 0xFF) % 256]
            ++ List.replicate length 0x00]), none) := by
  unfold readArray
  split
  · simpa using h
  · split
    · rename_i hg
      simpa [hg] using h
    · rename_i hg
      simpa [hg] using
        close_parse spi (nor_recvBytes_parse spi length 0 _ (open4_parse spi CMD_READ _ _ _ h))

theorem nor_writeChunks_parse (fuel address : Nat) (data : Nat → Nat) (length : Nat) (n : Nat) :
    ∀ (written : Nat) {st : σ × List Event} {txs : List (List Nat)},
    Event.parse st.2 = (txs, none) →
    ∃ new, Event.parse (writeChunks (logged spi) fuel address data length n written st).state.2
        = (txs ++ new, none)
      ∧ ChunkTrace address data length written new := by
  induction n with
  | zero =>
    intro written st txs h
    refine ⟨[], ?_, ChunkTrace.stop _⟩
    simp only [writeChunks]
    split <;> simpa [Run.state] using h
  | succ n ih =>
    intro written st txs h
    simp only [writeChunks]
    split
    · rename_i hlt
      obtain ⟨k, hk⟩ := nor_wait_parse spi fuel (close_parse spi
        (nor_sendBytes_parse spi data (chunkAt address length written) written
          (open4_parse spi CMD_WRITE ((((address + written) % 2 ^ 32) >>> 16) % 256)
            ((((address + written) % 2 ^ 32) >>> 8) % 256)
            ((((address + written) % 2 ^ 32) &&& 0xFF) % 256) (nor_writeEnable_parse spi h))))
      simp only [chunkAt] at hk
      split
      · rename_i s' heq
        rw [heq] at hk
        simp only [Run.state] at hk
        obtain ⟨new, hnew, hct⟩ := ih (written + chunkAt address length written) hk
        refine ⟨[CMD_WREN] :: programTx address data length written ::
          (List.replicate k [CMD_RDSR1, 0x00] ++ new), ?_, ChunkTrace.chunk _ _ _ hlt hct⟩
        simp only [chunkAt] at hnew
        rw [hnew]; simp [programTx, chunkAt, CMD_WREN, CMD_RDSR1]
      · rename_i s' heq
        rw [heq] at hk
        refine ⟨[CMD_WREN] :: programTx address data length written ::
          (List.replicate k [CMD_RDSR1, 0x00] ++ []), ?_,
          ChunkTrace.chunk _ _ _ hlt (ChunkTrace.stop _)⟩
        simp only [Run.state] at hk ⊢
        rw [hk]; simp [programTx, chunkAt, CMD_WREN, CMD_RDSR1]
    · exact ⟨[], by simpa [Run.state] using h, ChunkTrace.stop _⟩

theorem nor_clearBit_parse (fuel a bit : Nat) {st : σ × List Event} {txs : List (List Nat)}
    (h : Event.parse st.2 = (txs, none)) :
    ∃ k, Event.parse (clearBit (logged spi) fuel a bit st).state.2
      = (txs ++ (if bit > 7 ∨ a ≥ getSize then []
          else [CMD_READ, (a >>> 16) % 256, (a >>> 8) % 256, (a &&& 0xFF) % 256, 0x00] ::
            [CMD_READ, (a >>> 16) % 256, (a >>> 8) % 256, (a &&& 0xFF) % 256, 0x00] ::
            (if (readByte (logged spi) a (readByte (logged spi) a st).2).1
                &&& ((readByte (logged spi) a st).1 &&& (2 ^ 32 - 1 - (1 <<< bit))) % 256
                = ((readByte (logged spi) a st).1 &&& (2 ^ 32 - 1 - (1 <<< bit))) % 256 then
              [CMD_WREN] :: [CMD_WRITE, (a >>> 16) % 256, (a >>> 8) % 256, (a &&& 0xFF) % 256,
                  ((readByte (logged spi) a st).1 &&& (2 ^ 32 - 1 - (1 <<< bit))) % 256]
                :: List.replicate k [CMD_RDSR1, 0x00]
             else [])), none) := by
  unfold clearBit
  split
  · exact ⟨0, by simpa [Run.state] using h⟩
  · rename_i hc
    have hge : ¬ a ≥ getSize := fun hh => hc (Or.inr hh)
    have hr := nor_readByte_parse spi a h
    simp only [hge, if_false] at hr
    obtain ⟨k, hk⟩ := nor_writeByte_parse spi fuel a
      (((readByte (logged spi) a st).1 &&& (2 ^ 32 - 1 - (1 <<< bit))) % 256) hr
    simp only [hge, if_false] at hk
    exact ⟨k, by simpa using hk⟩

theorem nor_eraseSector_parse (fuel a : Nat) {st : σ × List Event} {txs : List (List Nat)}
    (h : Event.parse st.2 = (txs, none)) :
    ∃ k, Event.parse (eraseSector (logged spi) fuel a st).state.2
      = (txs ++ (if a ≥ getSize then []
          else [CMD_WREN] :: [CMD_SECTOR_ERASE, (getSectorStart a >>> 16) % 256,
              (getSectorStart a >>> 8) % 256, (getSectorStart a &&& 0xFF) % 256]
            :: List.replicate k [CMD_RDSR1, 0x00]), none) := by
  unfold eraseSector
  split
  · exact ⟨0, by simpa [Run.state] using h⟩
  · obtain ⟨k, hk⟩ := nor_wait_parse spi fuel (close_parse spi
      (open4_parse spi CMD_SECTOR_ERASE ((getSectorStart a >>> 16) % 256)
        ((getSectorStart a >>> 8) % 256) ((getSectorStart a &&& 0xFF) % 256)
        (nor_writeEnable_parse spi h)))
    exact ⟨k, by simpa [CMD_WREN, CMD_RDSR1] using hk⟩

end NOR_W25Q128
end trace

/-! ## Gating and chunk lemmas -/

theorem transactions_of_parse {tr : List Event} {txs : List (List Nat)}
    {o : Option (List Nat)} (h : Event.parse tr = (txs, o)) : transactions tr = txs := by
  simp [transactions, h]

theorem gated_of_plain (l : List (List Nat)) (h : ∀ tx ∈ l, ¬ isModify tx) : Gated l := by
  intro i tx hi hm
  exact absurd hm (h tx (List.getElem?_mem hi))

theorem gated_pair (tx : List Nat) : Gated [[0x06], tx] := by
  intro i t hi hm
  match i with
  | 0 =>
    simp at hi; subst hi
    simp [isModify] at hm
  | 1 => exact ⟨by omega, rfl⟩
  | n + 2 => simp at hi

theorem gated_command (tx : List Nat) (k : Nat) (poll : List Nat) (hp : ¬ isModify poll) :
    Gated ([0x06] :: tx :: List.replicate k poll) :=
  gated_append [[0x06], tx] _ (gated_pair tx) (gated_replicate k poll hp)

theorem gated_cons_plain (tx : List Nat) (l : List (List Nat)) (h : ¬ isModify tx)
    (hl : Gated l) : Gated (tx :: l) :=
  gated_append [tx] l (gated_of_plain _ (by simpa using h)) hl

theorem not_isModify_poll : ¬ isModify [0x05, 0x00] := by simp [isModify]

theorem not_isModify_read (l : List Nat) : ¬ isModify (0x03 :: l) := by simp [isModify]

theorem ee_chunkTrace_gated {address : Nat} {data : Nat → Nat} {length : Nat}
    {written : Nat} {new : List (List Nat)}
    (h : EEPROM_25LC040A.ChunkTrace address data length written new) : Gated new := by
  induction h with
  | stop w => exact gated_nil
  | chunk w k rest _ _ ih =>
    have h1 := gated_append _ _
      (gated_command (EEPROM_25LC040A.programTx address data length w) k [0x05, 0x00]
        not_isModify_poll) ih
    simpa [EEPROM_25LC040A.CMD_WREN, EEPROM_25LC040A.CMD_RDSR] using h1

theorem nor_chunkTrace_gated {address : Nat} {data : Nat → Nat} {length : Nat}
    {written : Nat} {new : List (List Nat)}
    (h : NOR_W25Q128.ChunkTrace address data length written new) : Gated new := by
  induction h with
  | stop w => exact gated_nil
  | chunk w k rest _ _ ih =>
    have h1 := gated_append _ _
      (gated_command (NOR_W25Q128.programTx address data length w) k [0x05, 0x00]
        not_isModify_poll) ih
    simpa [NOR_W25Q128.CMD_WREN, NOR_W25Q128.CMD_RDSR1] using h1

section gating
variable {σ : Type} (spi : ISpiDriver σ) (s : σ)

theorem start_parse : Event.parse ((s, []) : σ × List Event).2 = ([], none) := rfl

theorem eeprom_readByte_gated (address : Nat) :
    Gated (transactions (EEPROM_25LC040A.readByte (logged spi) address (s, [])).2.2) := by
  rw [transactions_of_parse (EEPROM_25LC040A.ee_readByte_parse spi address (start_parse s))]
  split
  · exact gated_nil
  · exact gated_of_plain _ (by simp [isModify, EEPROM_25LC040A.CMD_READ])

theorem eeprom_writeByte_gated (fuel address value : Nat) :
    Gated (transactions
      (EEPROM_25LC040A.writeByte (logged spi) fuel address value (s, [])).state.2) := by
  obtain ⟨k, hk⟩ := EEPROM_25LC040A.ee_writeByte_parse spi fuel address value (start_parse s)
  rw [transactions_of_parse hk]
  split
  · exact gated_nil
  · exact gated_command _ k _ not_isModify_poll

theorem eeprom_readArray_gated (address length : Nat) (buffer : Option (Nat → Nat)) :
    Gated (transactions
      (EEPROM_25LC040A.readArray (logged spi) address buffer length (s, [])).2.2) := by
  rw [transactions_of_parse
    (EEPROM_25LC040A.ee_readArray_parse spi address buffer length (start_parse s))]
  split
  · exact gated_nil
  · exact gated_of_plain _ (by simp [isModify, EEPROM_25LC040A.CMD_READ])

theorem eeprom_writeArray_gated (fuel address length : Nat) (data : Option (Nat → Nat)) :
    Gated (transactions
      (EEPROM_25LC040A.writeArray (logged spi) fuel address data length (s, [])).state.2) := by
  unfold EEPROM_25LC040A.writeArray
  split
  · exact gated_nil
  · split
    · exact gated_nil
    · rename_i d _
      obtain ⟨new, hnew, hct⟩ := EEPROM_25LC040A.ee_writeChunks_parse spi fuel address d length
        length 0 (start_parse s)
      rw [transactions_of_parse hnew]
      simpa using ee_chunkTrace_gated hct

theorem eeprom_setBit_gated (fuel address bit : Nat) :
    Gated (transactions
      (EEPROM_25LC040A.setBit (logged spi) fuel address bit (s, [])).state.2) := by
  obtain ⟨k, hk⟩ := EEPROM_25LC040A.ee_setBit_parse spi fuel address bit (start_parse s)
  rw [transactions_of_parse hk]
  split
  · exact gated_nil
  · exact gated_cons_plain _ _ (not_isModify_read _) (gated_command _ k _ not_isModify_poll)

theorem eeprom_clearBit_gated (fuel address bit : Nat) :
    Gated (transactions
      (EEPROM_25LC040A.clearBit (logged spi) fuel address bit (s, [])).state.2) := by
  obtain ⟨k, hk⟩ := EEPROM_25LC040A.ee_clearBit_parse spi fuel address bit (start_parse s)
  rw [transactions_of_parse hk]
  split
  · exact gated_nil
  · exact gated_cons_plain _ _ (not_isModify_read _) (gated_command _ k _ not_isModify_poll)

theorem nor_readByte_gated (address : Nat) :
    Gated (transactions (NOR_W25Q128.readByte (logged spi) address (s, [])).2.2) := by
  rw [transactions_of_parse (NOR_W25Q128.nor_readByte_parse spi address (start_parse s))]
  split
  · exact gated_nil
  · exact gated_of_plain _ (by simp [isModify, NOR_W25Q128.CMD_READ])

theorem nor_writeByte_gated (fuel address value : Nat) :
    Gated (transactions
      (NOR_W25Q128.writeByte (logged spi) fuel address value (s, [])).state.2) := by
  obtain ⟨k, hk⟩ := NOR_W25Q128.nor_writeByte_parse spi fuel address value (start_parse s)
  rw [transactions_of_parse hk]
  split
  · exact gated_nil
  · refine gated_cons_plain _ _ (not_isModify_read _) ?_
    split
    · exact gated_command _ k _ not_isModify_poll
    · exact gated_nil

theorem nor_readArray_gated (address length : Nat) (buffer : Option (Nat → Nat)) :
    Gated (transactions
      (NOR_W25Q128.readArray (logged spi) address buffer length (s, [])).2.2) := by
  rw [transactions_of_parse
    (NOR_W25Q128.nor_readArray_parse spi address buffer length (start_parse s))]
  split
  · exact gated_nil
  · exact gated_of_plain _ (by simp [isModify, NOR_W25Q128.CMD_READ])

theorem nor_writeArray_gated (fuel address length : Nat) (data : Option (Nat → Nat)) :
    Gated (transactions
      (NOR_W25Q128.writeArray (logged spi) fuel address data length (s, [])).state.2) := by
  unfold NOR_W25Q128.writeArray
  split
  · exact gated_nil
  · split
    · exact gated_nil
    · rename_i d _
      obtain ⟨new, hnew, hct⟩ := NOR_W25Q128.nor_writeChunks_parse spi fuel address d length
        length 0 (start_parse s)
      rw [transactions_of_parse hnew]
      simpa using nor_chunkTrace_gated hct

theorem nor_setBit_gated (address bit : Nat) :
    Gated (transactions (NOR_W25Q128.setBit (logged spi) address bit (s, [])).2) := by
  unfold NOR_W25Q128.setBit
  split <;> exact gated_nil

theorem nor_clearBit_gated (fuel address bit : Nat) :
    Gated (transactions
      (NOR_W25Q128.clearBit (logged spi) fuel address bit (s, [])).state.2) := by
  obtain ⟨k, hk⟩ := NOR_W25Q128.nor_clearBit_parse spi fuel address bit (start_parse s)
  rw [transactions_of_parse hk]
  split
  · exact gated_nil
  · refine gated_cons_plain _ _ (not_isModify_read _)
      (gated_cons_plain _ _ (not_isModify_read _) ?_)
    split
    · exact gated_command _ k _ not_isModify_poll
    · exact gated_nil

theorem nor_eraseSector_gated (fuel address : Nat) :
    Gated (transactions
      (NOR_W25Q128.eraseSector (logged spi) fuel address (s, [])).state.2) := by
  obtain ⟨k, hk⟩ := NOR_W25Q128.nor_eraseSector_parse spi fuel address (start_parse s)
  rw [transactions_of_parse hk]
  split
  · exact gated_nil
  · exact gated_command _ k _ not_isModify_poll

end gating

namespace NOR_W25Q128

theorem nor_programTx_pageChunk (address : Nat) (data : Nat → Nat) (length written : Nat)
    (hlt : written < length) (hfit : address + length ≤ 16777216) :
    PageChunk address data length (programTx address data length written) := by
  have hp : (address + written) % 2 ^ 32 = address + written :=
    Nat.mod_eq_of_lt (by norm_num; omega)
  have hb := addr24_bytes (address + written) (by omega)
  have haddr : addr24 (programTx address data length written) = address + written := by
    simp only [programTx, hp, addr24]
    simpa using hb
  have hlen : (programTx address data length written).length - 4
      = chunkAt address length written := by
    simp [programTx]
  have hc : chunkAt address length written
      = min (length - written) (256 - (address + written) % 256) := by
    simp only [chunkAt, hp, PAGE_SIZE]
    split <;> omega
  refine ⟨by omega, by omega, ?_, ?_, ?_, ?_, ?_⟩
  · rw [hlen, haddr]
    simp [programTx]
  · rw [hlen, haddr, hc]; congr 1; omega
  · rw [hlen, hc]; omega
  · rw [hlen, hc]; omega
  · rw [hlen, haddr, hc]; omega

theorem nor_chunkTrace_pageChunk (address : Nat) (data : Nat → Nat) (length : Nat)
    (hfit : address + length ≤ 16777216) {written : Nat} {new : List (List Nat)}
    (h : ChunkTrace address data length written new) :
    ∀ tx ∈ new, tx.head? = some 0x02 → PageChunk address data length tx := by
  induction h with
  | stop w => intro tx htx; simp at htx
  | chunk w k rest hlt _ ih =>
    intro tx htx hhead
    simp only [List.mem_cons, List.mem_append, List.mem_replicate] at htx
    rcases htx with h1 | h1 | h1 | h1
    · subst h1; simp [CMD_WREN] at hhead
    · subst h1; exact nor_programTx_pageChunk address data length w hlt hfit
    · rw [h1.2] at hhead; simp [CMD_RDSR1] at hhead
    · exact ih tx h1 hhead

end NOR_W25Q128

/-! ## Bit arithmetic -/

theorem byte_testBit_high (c i : Nat) (hc : c < 256) (hi : 8 ≤ i) : c.testBit i = false := by
  apply Nat.testBit_lt_two_pow
  calc c < 2 ^ 8 := hc
    _ ≤ 2 ^ i := Nat.pow_le_pow_right (by decide) hi

theorem setBit_value (c n : Nat) (hc : c < 256) (hn : n ≤ 7) :
    (c ||| (1 <<< n)) % 256 = c ||| (1 <<< n) := by
  apply Nat.mod_eq_of_lt
  have h1 : (1 : Nat) <<< n < 2 ^ 8 := by
    rw [Nat.shiftLeft_eq, Nat.one_mul]
    exact Nat.pow_lt_pow_right (by decide) (by omega)
  exact Nat.or_lt_two_pow (by simpa using hc) h1

theorem setBit_testBit (c n i : Nat) :
    (c ||| (1 <<< n)).testBit i = (decide (i = n) || c.testBit i) := by
  rw [Nat.testBit_or, Nat.shiftLeft_eq, Nat.one_mul, Nat.testBit_two_pow, Bool.or_comm]
  congr 1
  by_cases h : i = n
  · simp [h]
  · have h2 : ¬ n = i := fun e => h e.symm
    simp [h, h2]

theorem clearBit_testBit (c n i : Nat) (hc : c < 256) (hn : n ≤ 7) :
    ((c &&& (2 ^ 32 - 1 - (1 <<< n))) % 256).testBit i
      = (!decide (i = n) && c.testBit i) := by
  have h1 : (1 : Nat) <<< n = 2 ^ n := by rw [Nat.shiftLeft_eq, Nat.one_mul]
  have h2 : (2 : Nat) ^ n < 2 ^ 32 := Nat.pow_lt_pow_right (by decide) (by omega)
  have h3 : 2 ^ 32 - 1 - 2 ^ n = 2 ^ 32 - (2 ^ n + 1) := by omega
  rw [show (256 : Nat) = 2 ^ 8 from rfl, Nat.testBit_mod_two_pow, Nat.testBit_and, h1, h3,
    Nat.testBit_two_pow_sub_succ h2, Nat.testBit_two_pow]
  by_cases hi : i < 8
  · by_cases hin : i = n
    · subst hin; simp
    · have : ¬ n = i := fun h => hin h.symm
      simp [hi, hin, this, show i < 32 by omega, Bool.and_comm]
  · rw [byte_testBit_high c i hc (by omega)]; simp

theorem clearBit_value (c n : Nat) (hc : c < 256) (hn : n ≤ 7) :
    (c &&& (2 ^ 32 - 1 - (1 <<< n))) % 256 = c &&& (255 ^^^ (1 <<< n)) := by
  apply Nat.eq_of_testBit_eq
  intro i
  rw [clearBit_testBit c n i hc hn, Nat.testBit_and, Nat.testBit_xor,
    show (255 : Nat) = 2 ^ 8 - 1 from rfl, Nat.testBit_two_pow_sub_one,
    Nat.shiftLeft_eq, Nat.one_mul, Nat.testBit_two_pow]
  by_cases hi : i < 8
  · by_cases hin : i = n
    · subst hin; simp [hi]
    · have : ¬ n = i := fun h => hin h.symm
      simp [hi, hin, this]
  · rw [byte_testBit_high c i hc (by omega)]; simp

theorem eeprom_setBit_sim (d : EepromSim) (fuel a n : Nat) (ha : a < 512) (hn : n ≤ 7)
    (hready : d.busy = 0) (hfuel : d.latency < fuel) :
    EEPROM_25LC040A.setBit EepromSim.spi fuel a n d
      = Run.done { d with mem := poke d.mem a ((d.mem a ||| (1 <<< n)) % 256), busy := 0,
                          wel := false, sel := false, rx := [] } := by
  have hc : ¬ (n > 7 ∨ a ≥ EEPROM_25LC040A.getSize) := by
    simp only [EEPROM_25LC040A.getSize]; omega
  simp only [EEPROM_25LC040A.setBit, hc, if_false, eeprom_readByte_sim d a ha]
  rw [eeprom_writeByte_sim { d with sel := false, rx := [] } fuel a _ ha hready hfuel]

theorem eeprom_clearBit_sim (d : EepromSim) (fuel a n : Nat) (ha : a < 512) (hn : n ≤ 7)
    (hready : d.busy = 0) (hfuel : d.latency < fuel) :
    EEPROM_25LC040A.clearBit EepromSim.spi fuel a n d
      = Run.done { d with mem := poke d.mem a ((d.mem a &&& (2 ^ 32 - 1 - (1 <<< n))) % 256),
                          busy := 0, wel := false, sel := false, rx := [] } := by
  have hc : ¬ (n > 7 ∨ a ≥ EEPROM_25LC040A.getSize) := by
    simp only [EEPROM_25LC040A.getSize]; omega
  simp only [EEPROM_25LC040A.clearBit, hc, if_false, eeprom_readByte_sim d a ha]
  rw [eeprom_writeByte_sim { d with sel := false, rx := [] } fuel a _ ha hready hfuel]

theorem ee_readArray_transactions {σ : Type} (spi : ISpiDriver σ) (s : σ) (a length : Nat)
    (buf : Nat → Nat) (h : ¬ (a + length) % 2 ^ SIZE_BITS > EEPROM_25LC040A.getSize) :
    transactions (EEPROM_25LC040A.readArray (logged spi) a (some buf) length (s, [])).2.2
      = [[0x03, (a >>> 8) % 256, (a &&& 0xFF) % 256] ++ List.replicate length 0x00] := by
  rw [transactions_of_parse (EEPROM_25LC040A.ee_readArray_parse spi a (some buf) length
    (start_parse s))]
  have hg : ¬ ((some buf).isNone = true ∨ (a + length) % 2 ^ SIZE_BITS > EEPROM_25LC040A.getSize) := by
    simpa using h
  rw [if_neg hg]
  rfl

/-! ## The loop budget of `writeArray` is never the reason to stop -/

theorem ee_writeChunks_budget {σ : Type} (spi : ISpiDriver σ) (fuel address : Nat)
    (data : Nat → Nat) (length : Nat) (n : Nat) :
    ∀ (written : Nat) (s : σ), length - written ≤ n →
      EEPROM_25LC040A.writeChunks spi fuel address data length (n + 1) written s
        = EEPROM_25LC040A.writeChunks spi fuel address data length n written s := by
  induction n with
  | zero =>
    intro written s h
    have hw : ¬ written < length := by omega
    simp [EEPROM_25LC040A.writeChunks, hw]
  | succ n ih =>
    intro written s h
    rw [EEPROM_25LC040A.writeChunks]
    conv => rhs; rw [EEPROM_25LC040A.writeChunks]
    by_cases hw : written < length
    · simp only [hw, if_true]
      split
      · rename_i s' _
        apply ih
        simp only [EEPROM_25LC040A.PAGE_SIZE]
        split <;> omega
      · rfl
    · simp only [hw, if_false]

theorem nor_writeChunks_budget {σ : Type} (spi : ISpiDriver σ) (fuel address : Nat)
    (data : Nat → Nat) (length : Nat) (n : Nat) :
    ∀ (written : Nat) (s : σ), length - written ≤ n →
      NOR_W25Q128.writeChunks spi fuel address data length (n + 1) written s
        = NOR_W25Q128.writeChunks spi fuel address data length n written s := by
  induction n with
  | zero =>
    intro written s h
    have hw : ¬ written < length := by omega
    simp [NOR_W25Q128.writeChunks, hw]
  | succ n ih =>
    intro written s h
    rw [NOR_W25Q128.writeChunks]
    conv => rhs; rw [NOR_W25Q128.writeChunks]
    by_cases hw : written < length
    · simp only [hw, if_true]
      split
      · rename_i s' _
        apply ih
        simp only [NOR_W25Q128.PAGE_SIZE]
        split <;> omega
      · rfl
    · simp only [hw, if_false]

/-! ## Properties of the drivers -/

/-- C1: EEPROM byte round trip.  On the simulated EEPROM, ready for a command,
for every address `a < 512` and every value `v`, `writeByte(a, v)` returns
(given a poll budget above the device latency) and a following `readByte(a)`
returns `v`. -/
theorem eeprom_byte_round_trip (d : EepromSim) (fuel a v : Nat) (ha : a < 512)
    (hready : d.busy = 0) (hfuel : d.latency < fuel) :
    (EEPROM_25LC040A.writeByte EepromSim.spi fuel a v d).finished = true ∧
    (EEPROM_25LC040A.readByte EepromSim.spi a
      (EEPROM_25LC040A.writeByte EepromSim.spi fuel a v d).state).1 = v := by
  rw [eeprom_writeByte_sim d fuel a v ha hready hfuel]
  refine ⟨rfl, ?_⟩
  simp only [Run.state]
  rw [eeprom_readByte_sim _ a ha]
  simp [poke]

theorem eeprom_byte_round_trip_witness :
    (5 < 512 ∧ (EepromSim.fresh 0 2).busy = 0 ∧ (EepromSim.fresh 0 2).latency < 3) ∧
    (EEPROM_25LC040A.writeByte EepromSim.spi 3 5 9 (EepromSim.fresh 0 2)).finished = true ∧
    (EEPROM_25LC040A.readByte EepromSim.spi 5
      (EEPROM_25LC040A.writeByte EepromSim.spi 3 5 9 (EepromSim.fresh 0 2)).state).1 = 9 :=
  ⟨by decide, eeprom_byte_round_trip (EepromSim.fresh 0 2) 3 5 9 (by decide) rfl (by decide)⟩

/-- C2: NOR clear-only write.  On the simulated NOR flash, ready for a
command, for every address `a < 16777216` holding `c` and every value `v`,
`writeByte(a, v)` returns, a following `readByte(a)` returns `v` if
`c & v = v` and `c` otherwise, and in the latter case the device contents
are unchanged.  In particular on an erased byte `writeByte(a, 0x55)` reads
back `0x55` and a subsequent `writeByte(a, 0xFF)` leaves it at `0x55`. -/
theorem nor_clear_only_write (d : NorSim) (fuel a v : Nat) (ha : a < 16777216)
    (hready : d.busy = 0) (hfuel : d.latency < fuel) :
    (NOR_W25Q128.writeByte NorSim.spi fuel a v d).finished = true ∧
    (NOR_W25Q128.readByte NorSim.spi a
        (NOR_W25Q128.writeByte NorSim.spi fuel a v d).state).1
      = (if d.mem a &&& v = v then v else d.mem a) ∧
    (¬ (d.mem a &&& v = v) →
      (NOR_W25Q128.writeByte NorSim.spi fuel a v d).state.mem = d.mem) ∧
    (d.mem a = 0xFF →
      (NOR_W25Q128.readByte NorSim.spi a
        (NOR_W25Q128.writeByte NorSim.spi fuel a 0x55 d).state).1 = 0x55 ∧
      (NOR_W25Q128.readByte NorSim.spi a
        (NOR_W25Q128.writeByte NorSim.spi fuel a 0xFF
          (NOR_W25Q128.writeByte NorSim.spi fuel a 0x55 d).state).state).1 = 0x55) := by
  have key : ∀ (d : NorSim) (v : Nat), d.busy = 0 → d.latency < fuel →
      (NOR_W25Q128.writeByte NorSim.spi fuel a v d).finished = true ∧
      (NOR_W25Q128.writeByte NorSim.spi fuel a v d).state.busy = 0 ∧
      (NOR_W25Q128.writeByte NorSim.spi fuel a v d).state.latency = d.latency ∧
      (NOR_W25Q128.writeByte NorSim.spi fuel a v d).state.mem
        = (if d.mem a &&& v = v then poke d.mem a v else d.mem) := by
    intro d v hr hf
    rw [nor_writeByte_sim d fuel a v ha hr hf]
    by_cases hc : d.mem a &&& v = v
    · simp [hc, Run.state, Run.finished]
    · simp [hc, Run.state, Run.finished, hr]
  have rd : ∀ d : NorSim, (NOR_W25Q128.readByte NorSim.spi a d).1 = d.mem a := by
    intro d; rw [nor_readByte_sim d a ha]
  obtain ⟨k1, _, _, k4⟩ := key d v hready hfuel
  refine ⟨k1, ?_, ?_, ?_⟩
  · rw [rd, k4]
    by_cases hc : d.mem a &&& v = v <;> simp [hc, poke]
  · intro hc
    rw [k4]; simp [hc]
  · intro he
    have e1 : (255 : Nat) &&& 85 = 85 := by decide
    have e2 : ¬ ((85 : Nat) &&& 255 = 255) := by decide
    obtain ⟨_, j2, j3, j4⟩ := key d 0x55 hready hfuel
    have hm : (NOR_W25Q128.writeByte NorSim.spi fuel a 0x55 d).state.mem a = 0x55 := by
      rw [j4, he, if_pos e1]; simp [poke]
    refine ⟨by rw [rd, hm], ?_⟩
    obtain ⟨_, _, _, i4⟩ := key _ 0xFF j2 (by rw [j3]; exact hfuel)
    rw [rd, i4, hm, if_neg e2]; exact hm

theorem nor_clear_only_write_witness :
    (4096 < 16777216 ∧ (NorSim.fresh 0xFF 2 5).busy = 0 ∧ (NorSim.fresh 0xFF 2 5).latency < 3) ∧
    (NOR_W25Q128.readByte NorSim.spi 4096
        (NOR_W25Q128.writeByte NorSim.spi 3 4096 0x55 (NorSim.fresh 0xFF 2 5)).state).1 = 0x55 ∧
    (NOR_W25Q128.readByte NorSim.spi 4096
        (NOR_W25Q128.writeByte NorSim.spi 3 4096 0xFF
          (NOR_W25Q128.writeByte NorSim.spi 3 4096 0x55
            (NorSim.fresh 0xFF 2 5)).state).state).1 = 0x55 :=
  ⟨by decide, (nor_clear_only_write (NorSim.fresh 0xFF 2 5) 3 4096 0x55 (by decide) rfl
      (by decide)).2.2.2 rfl⟩

/-- C3: NOR sector erase.  For every address `a < 16777216`, with
`base = a - a mod 4096` (a multiple of 4096 with `base ≤ a < base + 4096`):
on any transport `eraseSector(a)` emits a write enable, then the erase
opcode `0x20` with the three big-endian bytes of `base`, then status polls
only; and on the simulated NOR flash, ready for a command, the call returns
and every byte in `[base, base + 4096)` is `0xFF` afterwards while every
other byte is unchanged. -/
theorem nor_sector_erase {σ : Type} (spi : ISpiDriver σ) (s : σ) (d : NorSim)
    (fuel a : Nat) (ha : a < 16777216) (hready : d.busy = 0) (hfuel : d.eraseLatency < fuel) :
    (a - a % 4096) % 4096 = 0 ∧ a - a % 4096 ≤ a ∧ a < a - a % 4096 + 4096 ∧
    (∃ k, transactions (NOR_W25Q128.eraseSector (logged spi) fuel a (s, [])).state.2
        = [0x06] :: [0x20, ((a - a % 4096) >>> 16) % 256, ((a - a % 4096) >>> 8) % 256,
              (a - a % 4096) % 256] :: List.replicate k [0x05, 0x00]) ∧
    addr24 [0x20, ((a - a % 4096) >>> 16) % 256, ((a - a % 4096) >>> 8) % 256,
              (a - a % 4096) % 256] = a - a % 4096 ∧
    (NOR_W25Q128.eraseSector NorSim.spi fuel a d).finished = true ∧
    ∀ x, (NOR_W25Q128.eraseSector NorSim.spi fuel a d).state.mem x
      = if a - a % 4096 ≤ x ∧ x < a - a % 4096 + 4096 then 0xFF else d.mem x := by
  have hbase : NOR_W25Q128.getSectorStart a = a - a % 4096 := by
    simp only [NOR_W25Q128.getSectorStart, NOR_W25Q128.SECTOR_SIZE]; omega
  have hnot : ¬ a ≥ NOR_W25Q128.getSize := by simp [NOR_W25Q128.getSize]; omega
  refine ⟨by omega, by omega, by omega, ?_, ?_, ?_, ?_⟩
  · obtain ⟨k, hk⟩ := NOR_W25Q128.nor_eraseSector_parse spi fuel a
      (show Event.parse ((s, []) : σ × List Event).2 = ([], none) from rfl)
    refine ⟨k, ?_⟩
    rw [transactions_of_parse hk, hbase]
    have h1 : (a - a % 4096) &&& 0xFF = (a - a % 4096) % 256 :=
      Nat.and_pow_two_sub_one_eq_mod _ 8
    simp [hnot, h1, NOR_W25Q128.CMD_WREN, NOR_W25Q128.CMD_SECTOR_ERASE, NOR_W25Q128.CMD_RDSR1]
  · have h := addr24_bytes (a - a % 4096) (by omega)
    have h1 : (a - a % 4096) &&& 0xFF = (a - a % 4096) % 256 :=
      Nat.and_pow_two_sub_one_eq_mod _ 8
    rw [h1, Nat.mod_mod] at h
    simpa [addr24] using h
  · rw [nor_eraseSector_sim d fuel a ha hready hfuel]; rfl
  · intro x
    rw [nor_eraseSector_sim d fuel a ha hready hfuel]
    simp only [Run.state, NorSim.erase]
    by_cases hx : x / 4096 = a / 4096
    · rw [if_pos hx, if_pos (by omega)]
    · rw [if_neg hx, if_neg (by omega)]

theorem nor_sector_erase_witness :
    (4100 < 16777216 ∧ (NorSim.fresh 0 2 5).busy = 0 ∧ (NorSim.fresh 0 2 5).eraseLatency < 6) ∧
    (NOR_W25Q128.eraseSector NorSim.spi 6 4100 (NorSim.fresh 0 2 5)).finished = true ∧
    ∀ x, (NOR_W25Q128.eraseSector NorSim.spi 6 4100 (NorSim.fresh 0 2 5)).state.mem x
      = if 4100 - 4100 % 4096 ≤ x ∧ x < 4100 - 4100 % 4096 + 4096 then 0xFF
        else (NorSim.fresh 0 2 5).mem x :=
  ⟨by decide, (nor_sector_erase (scripted (fun _ => 0)) 0 (NorSim.fresh 0 2 5) 6 4100
    (by decide) rfl (by decide)).2.2.2.2.2⟩

/-- C4, the code at a failing input: `writeArray(8, data, 40)` on a
transport that never reports busy emits three program transactions, at
addresses 8, 24 and 40 with 16, 16 and 8 payload bytes; the first covers the
bytes 8 … 23 and the second the bytes 24 … 39, so each of them crosses a
16-byte page boundary under one chip-select assertion. -/
theorem eeprom_writeArray_crosses_page :
    8 + 40 ≤ 512 ∧
    transactions (EEPROM_25LC040A.writeArray (logged (scripted (fun _ => 0))) 1 8
        (some (fun i => i + 1)) 40 (0, [])).state.2
      = [[6], [2, 0, 8, 1, 2, 3, 4, 5, 6, 7, 8, 9, 10, 11, 12, 13, 14, 15, 16], [5, 0],
         [6], [2, 0, 24, 17, 18, 19, 20, 21, 22, 23, 24, 25, 26, 27, 28, 29, 30, 31, 32], [5, 0],
         [6], [2, 0, 40, 33, 34, 35, 36, 37, 38, 39, 40], [5, 0]] ∧
    8 / 16 ≠ (8 + 16 - 1) / 16 ∧ 24 / 16 ≠ (24 + 16 - 1) / 16 := by
  decide

/-- C5, the code at a failing input: on the simulated EEPROM (all bytes 0,
16-byte program page with wrap-around) `writeArray(8, data, 40)` with
`data[i] = i + 1` returns, and `readArray(8, buf, 40)` then yields
`buf[8] = 25` and `buf[24] = 0`, while `data[8] = 9` and `data[24] = 25`. -/
theorem eeprom_bulk_round_trip_fails :
    8 + 40 ≤ 512 ∧
    (EEPROM_25LC040A.writeArray EepromSim.spi 1 8 (some (fun i => i + 1)) 40
      (EepromSim.fresh 0 0)).finished = true ∧
    (EEPROM_25LC040A.readArray EepromSim.spi 8 (some (fun _ => 0)) 40
      (EEPROM_25LC040A.writeArray EepromSim.spi 1 8 (some (fun i => i + 1)) 40
        (EepromSim.fresh 0 0)).state).1.map (fun buf => (buf 8, buf 24)) = some (25, 0) ∧
    (fun i : Nat => i + 1) 8 = 9 ∧ (fun i : Nat => i + 1) 24 = 25 := by
  decide

/-- C6: NOR page-aware chunking.  For every `writeArray(address, data,
length)` with `address + length ≤ 16777216`, on any transport and with any
poll budget, every program transaction of the trace starts at an address `p`
inside `[address, address + length)`, carries the source bytes from offset
`p - address` on, and its payload has exactly
`min(address + length - p, 256 - p mod 256)` bytes; hence between 1 and 256
bytes, none crossing a multiple of 256. -/
theorem nor_page_aware_chunking {σ : Type} (spi : ISpiDriver σ) (s : σ)
    (fuel address length : Nat) (data : Nat → Nat) (hfit : address + length ≤ 16777216) :
    ∀ tx ∈ transactions
        (NOR_W25Q128.writeArray (logged spi) fuel address (some data) length (s, [])).state.2,
      tx.head? = some 0x02 →
        address ≤ addr24 tx ∧ addr24 tx < address + length ∧
        tx.drop 4 = (List.range (tx.length - 4)).map (fun i => data (addr24 tx - address + i)) ∧
        tx.length - 4 = min (address + length - addr24 tx) (256 - addr24 tx % 256) ∧
        1 ≤ tx.length - 4 ∧ tx.length - 4 ≤ 256 ∧
        addr24 tx / 256 = (addr24 tx + (tx.length - 4) - 1) / 256 := by
  have hg : ¬ (address + length) % 2 ^ SIZE_BITS > NOR_W25Q128.getSize := by
    rw [Nat.mod_eq_of_lt (by simp only [SIZE_BITS]; norm_num; omega)]
    simp only [NOR_W25Q128.getSize]; omega
  simp only [NOR_W25Q128.writeArray, hg, if_false]
  obtain ⟨new, hnew, hct⟩ := NOR_W25Q128.nor_writeChunks_parse spi fuel address data length
    length 0 (show Event.parse ((s, []) : σ × List Event).2 = ([], none) from rfl)
  rw [transactions_of_parse hnew]
  intro tx htx hhead
  exact NOR_W25Q128.nor_chunkTrace_pageChunk address data length hfit hct tx
    (by simpa using htx) hhead

theorem nor_page_aware_chunking_witness :
    250 + 10 ≤ 16777216 ∧
    transactions (NOR_W25Q128.writeArray (logged (scripted (fun _ => 0))) 1 250
        (some (fun i => i + 1)) 10 (0, [])).state.2
      = [[6], [2, 0, 0, 250, 1, 2, 3, 4, 5, 6], [5, 0],
         [6], [2, 0, 1, 0, 7, 8, 9, 10], [5, 0]] ∧
    ∀ tx ∈ transactions (NOR_W25Q128.writeArray (logged (scripted (fun _ => 0))) 1 250
        (some (fun i => i + 1)) 10 (0, [])).state.2,
      tx.head? = some 0x02 →
        250 ≤ addr24 tx ∧ addr24 tx < 250 + 10 ∧
        tx.drop 4 = (List.range (tx.length - 4)).map (fun i => (addr24 tx - 250 + i) + 1) ∧
        tx.length - 4 = min (250 + 10 - addr24 tx) (256 - addr24 tx % 256) ∧
        1 ≤ tx.length - 4 ∧ tx.length - 4 ≤ 256 ∧
        addr24 tx / 256 = (addr24 tx + (tx.length - 4) - 1) / 256 :=
  ⟨by decide, by decide,
    nor_page_aware_chunking (scripted (fun _ => 0)) 0 1 250 10 (fun i => i + 1) (by decide)⟩

/-- C7: write-enable gating.  For every public operation of either driver,
every argument, every transport (hence every sequence of responses) and every
poll budget, in the trace of the call each transaction whose first byte is
the program opcode `0x02` or the erase opcode `0x20` has a predecessor, and
that predecessor is exactly `[0x06]`. -/
theorem write_enable_gating {σ : Type} (spi : ISpiDriver σ) (s : σ)
    (fuel address value bit length : Nat) (buf : Option (Nat → Nat)) :
    Gated (transactions (EEPROM_25LC040A.readByte (logged spi) address (s, [])).2.2) ∧
    Gated (transactions
      (EEPROM_25LC040A.writeByte (logged spi) fuel address value (s, [])).state.2) ∧
    Gated (transactions
      (EEPROM_25LC040A.readArray (logged spi) address buf length (s, [])).2.2) ∧
    Gated (transactions
      (EEPROM_25LC040A.writeArray (logged spi) fuel address buf length (s, [])).state.2) ∧
    Gated (transactions
      (EEPROM_25LC040A.setBit (logged spi) fuel address bit (s, [])).state.2) ∧
    Gated (transactions
      (EEPROM_25LC040A.clearBit (logged spi) fuel address bit (s, [])).state.2) ∧
    Gated (transactions (NOR_W25Q128.readByte (logged spi) address (s, [])).2.2) ∧
    Gated (transactions
      (NOR_W25Q128.writeByte (logged spi) fuel address value (s, [])).state.2) ∧
    Gated (transactions
      (NOR_W25Q128.readArray (logged spi) address buf length (s, [])).2.2) ∧
    Gated (transactions
      (NOR_W25Q128.writeArray (logged spi) fuel address buf length (s, [])).state.2) ∧
    Gated (transactions (NOR_W25Q128.setBit (logged spi) address bit (s, [])).2) ∧
    Gated (transactions
      (NOR_W25Q128.clearBit (logged spi) fuel address bit (s, [])).state.2) ∧
    Gated (transactions
      (NOR_W25Q128.eraseSector (logged spi) fuel address (s, [])).state.2) :=
  ⟨eeprom_readByte_gated spi s address, eeprom_writeByte_gated spi s fuel address value,
    eeprom_readArray_gated spi s address length buf,
    eeprom_writeArray_gated spi s fuel address length buf,
    eeprom_setBit_gated spi s fuel address bit, eeprom_clearBit_gated spi s fuel address bit,
    nor_readByte_gated spi s address, nor_writeByte_gated spi s fuel address value,
    nor_readArray_gated spi s address length buf,
    nor_writeArray_gated spi s fuel address length buf,
    nor_setBit_gated spi s address bit, nor_clearBit_gated spi s fuel address bit,
    nor_eraseSector_gated spi s fuel address⟩

/-- C8: out-of-range byte access.  For both drivers and every address at or
beyond the device size (512 for the EEPROM, 16777216 for the NOR flash),
`readByte` returns `0xFF` and `writeByte` returns, and neither performs any
transport operation: the transport state and the recorded trace are
unchanged. -/
theorem out_of_range_byte_access {σ : Type} (spi : ISpiDriver σ) (st : σ × List Event)
    (fuel ae an v : Nat) (he : 512 ≤ ae) (hn : 16777216 ≤ an) :
    EEPROM_25LC040A.readByte (logged spi) ae st = (0xFF, st) ∧
    EEPROM_25LC040A.writeByte (logged spi) fuel ae v st = Run.done st ∧
    NOR_W25Q128.readByte (logged spi) an st = (0xFF, st) ∧
    NOR_W25Q128.writeByte (logged spi) fuel an v st = Run.done st := by
  have h1 : ae ≥ EEPROM_25LC040A.getSize := he
  have h2 : an ≥ NOR_W25Q128.getSize := hn
  refine ⟨?_, ?_, ?_, ?_⟩
  · simp only [EEPROM_25LC040A.readByte, h1, if_true]
  · simp only [EEPROM_25LC040A.writeByte, h1, if_true]
  · simp only [NOR_W25Q128.readByte, h2, if_true]
  · simp only [NOR_W25Q128.writeByte, h2, if_true]

theorem out_of_range_byte_access_witness :
    (512 ≤ 512 ∧ 16777216 ≤ 16777216) ∧
    EEPROM_25LC040A.readByte (logged (scripted (fun _ => 0))) 512 (0, []) = (0xFF, (0, [])) ∧
    EEPROM_25LC040A.writeByte (logged (scripted (fun _ => 0))) 4 512 7 (0, [])
      = Run.done (0, []) ∧
    NOR_W25Q128.readByte (logged (scripted (fun _ => 0))) 16777216 (0, []) = (0xFF, (0, [])) ∧
    NOR_W25Q128.writeByte (logged (scripted (fun _ => 0))) 4 16777216 7 (0, [])
      = Run.done (0, []) :=
  ⟨by decide, out_of_range_byte_access (scripted (fun _ => 0)) (0, []) 4 512 16777216 7
    (by decide) (by decide)⟩

/-- C9 fails as stated: with a non-null buffer, `readArray(size, buf, 0)` has
an invalid start address and still emits a read transaction, on both
drivers; and `readArray(1, buf, 2^64 - 1)` on the EEPROM driver, whose
`address + length` wraps to 0, emits a read transaction of `2^64 - 1`
exchanges. -/
theorem array_range_validation_counterexample :
    (¬ (512 < EEPROM_25LC040A.getSize) ∧
      (EEPROM_25LC040A.readArray (logged (scripted (fun _ => 0))) 512 (some (fun _ => 0)) 0
        (0, [])).2.2
        = [Event.cs true, Event.xfer 0x03, Event.xfer 0x02, Event.xfer 0x00, Event.cs false]) ∧
    (¬ (16777216 < NOR_W25Q128.getSize) ∧
      (NOR_W25Q128.readArray (logged (scripted (fun _ => 0))) 16777216 (some (fun _ => 0)) 0
        (0, [])).2.2
        = [Event.cs true, Event.xfer 0x03, Event.xfer 0x00, Event.xfer 0x00, Event.xfer 0x00,
            Event.cs false]) ∧
    (¬ (1 + (2 ^ 64 - 1) ≤ 512) ∧
      transactions (EEPROM_25LC040A.readArray (logged (scripted (fun _ => 0))) 1
        (some (fun _ => 0)) (2 ^ 64 - 1) (0, [])).2.2
        = [[0x03, (1 >>> 8) % 256, (1 &&& 0xFF) % 256] ++ List.replicate (2 ^ 64 - 1) 0x00]) := by
  refine ⟨⟨by decide, by decide⟩, ⟨?_, by decide⟩, by norm_num, ?_⟩
  · simp [NOR_W25Q128.getSize]
  · exact ee_readArray_transactions (scripted (fun _ => 0)) 0 1 (2 ^ 64 - 1) (fun _ => 0)
      (by simp only [SIZE_BITS, EEPROM_25LC040A.getSize]; norm_num)

/-- C9, amended: for both drivers and every address and length that violate
`address < size ∧ address + length ≤ size` and whose sum does not wrap
(`address + length < 2^64`): `writeArray` returns without any transport
operation (transport state and trace unchanged), which includes length 0 at
`address = size`; `readArray` leaves the buffer as it was; and `readArray`
performs no transport operation when `address + length` exceeds the size,
that is, in every such case except length 0 at `address = size`. -/
theorem array_range_validation {σ : Type} (spi : ISpiDriver σ) (st : σ × List Event)
    (fuel ae le an ln : Nat) (be bn : Option (Nat → Nat))
    (hewrap : ae + le < 2 ^ 64) (hnwrap : an + ln < 2 ^ 64)
    (he : ¬ (ae < 512 ∧ ae + le ≤ 512))
    (hn : ¬ (an < 16777216 ∧ an + ln ≤ 16777216)) :
    (EEPROM_25LC040A.writeArray (logged spi) fuel ae be le st = Run.done st ∧
      (EEPROM_25LC040A.readArray (logged spi) ae be le st).1 = be ∧
      (ae + le > 512 → EEPROM_25LC040A.readArray (logged spi) ae be le st = (be, st))) ∧
    (NOR_W25Q128.writeArray (logged spi) fuel an bn ln st = Run.done st ∧
      (NOR_W25Q128.readArray (logged spi) an bn ln st).1 = bn ∧
      (an + ln > 16777216 → NOR_W25Q128.readArray (logged spi) an bn ln st = (bn, st))) := by
  have hme : (ae + le) % 2 ^ SIZE_BITS = ae + le :=
    Nat.mod_eq_of_lt (by simpa [SIZE_BITS] using hewrap)
  have hmn : (an + ln) % 2 ^ SIZE_BITS = an + ln :=
    Nat.mod_eq_of_lt (by simpa [SIZE_BITS] using hnwrap)
  constructor
  · cases be with
    | none => exact ⟨rfl, rfl, fun _ => rfl⟩
    | some b =>
      by_cases h : ae + le > 512
      · have hg : (ae + le) % 2 ^ SIZE_BITS > EEPROM_25LC040A.getSize := by rw [hme]; exact h
        exact ⟨by simp only [EEPROM_25LC040A.writeArray, hg, if_true],
          by simp only [EEPROM_25LC040A.readArray, hg, if_true],
          fun _ => by simp only [EEPROM_25LC040A.readArray, hg, if_true]⟩
      · have hl : le = 0 := by omega
        have hg : ¬ ((ae + le) % 2 ^ SIZE_BITS > EEPROM_25LC040A.getSize) := by
          rw [hme]; exact h
        subst hl
        refine ⟨?_, ?_, fun h' => absurd h' h⟩
        · simp only [EEPROM_25LC040A.writeArray, hg, if_false, EEPROM_25LC040A.writeChunks,
            Nat.lt_irrefl]
        · simp only [EEPROM_25LC040A.readArray, hg, if_false, EEPROM_25LC040A.recvBytes]
  · cases bn with
    | none => exact ⟨rfl, rfl, fun _ => rfl⟩
    | some b =>
      by_cases h : an + ln > 16777216
      · have hg : (an + ln) % 2 ^ SIZE_BITS > NOR_W25Q128.getSize := by rw [hmn]; exact h
        exact ⟨by simp only [NOR_W25Q128.writeArray, hg, if_true],
          by simp only [NOR_W25Q128.readArray, hg, if_true],
          fun _ => by simp only [NOR_W25Q128.readArray, hg, if_true]⟩
      · have hl : ln = 0 := by omega
        have hg : ¬ ((an + ln) % 2 ^ SIZE_BITS > NOR_W25Q128.getSize) := by
          rw [hmn]; exact h
        subst hl
        refine ⟨?_, ?_, fun h' => absurd h' h⟩
        · simp only [NOR_W25Q128.writeArray, hg, if_false, NOR_W25Q128.writeChunks,
            Nat.lt_irrefl]
        · simp only [NOR_W25Q128.readArray, hg, if_false, NOR_W25Q128.recvBytes]

theorem array_range_validation_witness :
    ((513 + 4 < 2 ^ 64 ∧ 16777217 + 4 < 2 ^ 64) ∧
      (¬ (513 < 512 ∧ 513 + 4 ≤ 512) ∧ ¬ (16777217 < 16777216 ∧ 16777217 + 4 ≤ 16777216)) ∧
      (513 + 4 > 512 ∧ 16777217 + 4 > 16777216)) ∧
    (EEPROM_25LC040A.writeArray (logged (scripted (fun k => k + 10))) 2 513
        (some (fun i => i + 1)) 4 (0, []) = Run.done (0, []) ∧
      EEPROM_25LC040A.readArray (logged (scripted (fun k => k + 10))) 513
        (some (fun _ => 0xAA)) 4 (0, []) = (some (fun _ => 0xAA), (0, []))) ∧
    (NOR_W25Q128.writeArray (logged (scripted (fun k => k + 10))) 2 16777217
        (some (fun i => i + 1)) 4 (0, []) = Run.done (0, []) ∧
      NOR_W25Q128.readArray (logged (scripted (fun k => k + 10))) 16777217
        (some (fun _ => 0xAA)) 4 (0, []) = (some (fun _ => 0xAA), (0, []))) ∧
    ((512 + 0 < 2 ^ 64 ∧ 16777216 + 0 < 2 ^ 64) ∧
      (¬ (512 < 512 ∧ 512 + 0 ≤ 512) ∧ ¬ (16777216 < 16777216 ∧ 16777216 + 0 ≤ 16777216))) ∧
    (EEPROM_25LC040A.writeArray (logged (scripted (fun k => k + 10))) 2 512
        (some (fun i => i + 1)) 0 (0, []) = Run.done (0, []) ∧
      (EEPROM_25LC040A.readArray (logged (scripted (fun k => k + 10))) 512
        (some (fun _ => 0xAA)) 0 (0, [])).1 = some (fun _ => 0xAA)) ∧
    (NOR_W25Q128.writeArray (logged (scripted (fun k => k + 10))) 2 16777216
        (some (fun i => i + 1)) 0 (0, []) = Run.done (0, []) ∧
      (NOR_W25Q128.readArray (logged (scripted (fun k => k + 10))) 16777216
        (some (fun _ => 0xAA)) 0 (0, [])).1 = some (fun _ => 0xAA)) :=
  ⟨⟨⟨by decide, by decide⟩, ⟨by decide, by decide⟩, ⟨by decide, by decide⟩⟩,
    ⟨(array_range_validation (scripted (fun k => k + 10)) (0, []) 2 513 4 16777217 4
        (some (fun i => i + 1)) (some (fun i => i + 1))
        (by decide) (by decide) (by decide) (by decide)).1.1,
      (array_range_validation (scripted (fun k => k + 10)) (0, []) 2 513 4 16777217 4
        (some (fun _ => 0xAA)) (some (fun _ => 0xAA))
        (by decide) (by decide) (by decide) (by decide)).1.2.2 (by decide)⟩,
    ⟨(array_range_validation (scripted (fun k => k + 10)) (0, []) 2 513 4 16777217 4
        (some (fun i => i + 1)) (some (fun i => i + 1))
        (by decide) (by decide) (by decide) (by decide)).2.1,
      (array_range_validation (scripted (fun k => k + 10)) (0, []) 2 513 4 16777217 4
        (some (fun _ => 0xAA)) (some (fun _ => 0xAA))
        (by decide) (by decide) (by decide) (by decide)).2.2.2 (by decide)⟩,
    ⟨⟨by decide, by decide⟩, ⟨by decide, by decide⟩⟩,
    ⟨(array_range_validation (scripted (fun k => k + 10)) (0, []) 2 512 0 16777216 0
        (some (fun i => i + 1)) (some (fun i => i + 1))
        (by decide) (by decide) (by decide) (by decide)).1.1,
      (array_range_validation (scripted (fun k => k + 10)) (0, []) 2 512 0 16777216 0
        (some (fun _ => 0xAA)) (some (fun _ => 0xAA))
        (by decide) (by decide) (by decide) (by decide)).1.2.1⟩,
    ⟨(array_range_validation (scripted (fun k => k + 10)) (0, []) 2 512 0 16777216 0
        (some (fun i => i + 1)) (some (fun i => i + 1))
        (by decide) (by decide) (by decide) (by decide)).2.1,
      (array_range_validation (scripted (fun k => k + 10)) (0, []) 2 512 0 16777216 0
        (some (fun _ => 0xAA)) (some (fun _ => 0xAA))
        (by decide) (by decide) (by decide) (by decide)).2.2.1⟩⟩

/-- C10: EEPROM bit operations.  On the simulated EEPROM, ready for a
command, for every address `a < 512` holding a byte `c` and every bit
`n ≤ 7`: `setBit(a, n)` returns and `readByte(a)` then returns `c | (1 << n)`,
which has bit `n` set and the other bits as in `c`; `clearBit(a, n)` returns
and `readByte(a)` then returns `c & ~(1 << n)` (as a byte, `c & (255 xor
(1 << n))`), which has bit `n` clear and the other bits as in `c`. -/
theorem eeprom_bit_operations (d : EepromSim) (fuel a n : Nat) (ha : a < 512) (hn : n ≤ 7)
    (hbyte : d.mem a < 256) (hready : d.busy = 0) (hfuel : d.latency < fuel) :
    ((EEPROM_25LC040A.setBit EepromSim.spi fuel a n d).finished = true ∧
      (EEPROM_25LC040A.readByte EepromSim.spi a
        (EEPROM_25LC040A.setBit EepromSim.spi fuel a n d).state).1 = d.mem a ||| (1 <<< n) ∧
      ∀ i, (d.mem a ||| (1 <<< n)).testBit i = (decide (i = n) || (d.mem a).testBit i)) ∧
    ((EEPROM_25LC040A.clearBit EepromSim.spi fuel a n d).finished = true ∧
      (EEPROM_25LC040A.readByte EepromSim.spi a
        (EEPROM_25LC040A.clearBit EepromSim.spi fuel a n d).state).1
          = d.mem a &&& (255 ^^^ (1 <<< n)) ∧
      ∀ i, (d.mem a &&& (255 ^^^ (1 <<< n))).testBit i
          = (!decide (i = n) && (d.mem a).testBit i)) := by
  refine ⟨⟨?_, ?_, fun i => setBit_testBit _ n i⟩, ⟨?_, ?_, fun i => ?_⟩⟩
  · rw [eeprom_setBit_sim d fuel a n ha hn hready hfuel]; rfl
  · rw [eeprom_setBit_sim d fuel a n ha hn hready hfuel]
    simp only [Run.state]
    rw [eeprom_readByte_sim _ a ha, setBit_value _ n hbyte hn]
    simp [poke]
  · rw [eeprom_clearBit_sim d fuel a n ha hn hready hfuel]; rfl
  · rw [eeprom_clearBit_sim d fuel a n ha hn hready hfuel]
    simp only [Run.state]
    rw [eeprom_readByte_sim _ a ha, clearBit_value _ n hbyte hn]
    simp [poke]
  · rw [← clearBit_value _ n hbyte hn]
    exact clearBit_testBit _ n i hbyte hn

theorem eeprom_bit_operations_witness :
    (5 < 512 ∧ 3 ≤ 7 ∧ (EepromSim.fresh 0xA0 2).mem 5 < 256 ∧ (EepromSim.fresh 0xA0 2).busy = 0
      ∧ (EepromSim.fresh 0xA0 2).latency < 3) ∧
    (EEPROM_25LC040A.readByte EepromSim.spi 5
        (EEPROM_25LC040A.setBit EepromSim.spi 3 5 3 (EepromSim.fresh 0xA0 2)).state).1
      = (EepromSim.fresh 0xA0 2).mem 5 ||| (1 <<< 3) :=
  ⟨by decide, (eeprom_bit_operations (EepromSim.fresh 0xA0 2) 3 5 3 (by decide) (by decide)
    (by decide) rfl (by decide)).1.2.1⟩

theorem setBit_again (c n : Nat) :
    (((c ||| (1 <<< n)) % 256) ||| (1 <<< n)) % 256 = (c ||| (1 <<< n)) % 256 := by
  apply Nat.eq_of_testBit_eq
  intro i
  rw [show (256 : Nat) = 2 ^ 8 from rfl]
  simp only [Nat.testBit_mod_two_pow, Nat.testBit_or, Nat.shiftLeft_eq, Nat.one_mul,
    Nat.testBit_two_pow]
  by_cases hi : i < 8 <;> simp [hi]

theorem clearBit_again (c n : Nat) :
    (((c &&& (2 ^ 32 - 1 - (1 <<< n))) % 256) &&& (2 ^ 32 - 1 - (1 <<< n))) % 256
      = (c &&& (2 ^ 32 - 1 - (1 <<< n))) % 256 := by
  apply Nat.eq_of_testBit_eq
  intro i
  rw [show (256 : Nat) = 2 ^ 8 from rfl]
  simp only [Nat.testBit_mod_two_pow, Nat.testBit_and]
  by_cases hi : i < 8 <;> simp [hi]

/-- C11: EEPROM bit operations are idempotent.  On the simulated EEPROM,
ready for a command, for every address `a < 512` and bit `n ≤ 7`, both calls
of `setBit(a, n); setBit(a, n)` return and the device storage after the
second equals the storage after the first; likewise for `clearBit`. -/
theorem eeprom_bit_operations_idempotent (d : EepromSim) (fuel a n : Nat) (ha : a < 512)
    (hn : n ≤ 7) (hready : d.busy = 0) (hfuel : d.latency < fuel) :
    ((EEPROM_25LC040A.setBit EepromSim.spi fuel a n d).finished = true ∧
      (EEPROM_25LC040A.setBit EepromSim.spi fuel a n
        (EEPROM_25LC040A.setBit EepromSim.spi fuel a n d).state).finished = true ∧
      (EEPROM_25LC040A.setBit EepromSim.spi fuel a n
        (EEPROM_25LC040A.setBit EepromSim.spi fuel a n d).state).state.mem
        = (EEPROM_25LC040A.setBit EepromSim.spi fuel a n d).state.mem) ∧
    ((EEPROM_25LC040A.clearBit EepromSim.spi fuel a n d).finished = true ∧
      (EEPROM_25LC040A.clearBit EepromSim.spi fuel a n
        (EEPROM_25LC040A.clearBit EepromSim.spi fuel a n d).state).finished = true ∧
      (EEPROM_25LC040A.clearBit EepromSim.spi fuel a n
        (EEPROM_25LC040A.clearBit EepromSim.spi fuel a n d).state).state.mem
        = (EEPROM_25LC040A.clearBit EepromSim.spi fuel a n d).state.mem) := by
  constructor
  · have e1 := eeprom_setBit_sim d fuel a n ha hn hready hfuel
    have hb : (EEPROM_25LC040A.setBit EepromSim.spi fuel a n d).state.busy = 0 := by
      rw [e1]; rfl
    have hl : (EEPROM_25LC040A.setBit EepromSim.spi fuel a n d).state.latency = d.latency := by
      rw [e1]; rfl
    have hm : (EEPROM_25LC040A.setBit EepromSim.spi fuel a n d).state.mem
        = poke d.mem a ((d.mem a ||| (1 <<< n)) % 256) := by
      rw [e1]; rfl
    have e2 := eeprom_setBit_sim _ fuel a n ha hn hb (by rw [hl]; exact hfuel)
    refine ⟨by rw [e1]; rfl, by rw [e2]; rfl, ?_⟩
    rw [e2, hm]
    simp only [Run.state]
    funext x
    by_cases hx : x = a
    · subst hx
      simp only [poke, if_pos rfl]
      exact setBit_again (d.mem x) n
    · simp [poke, hx]
  · have e1 := eeprom_clearBit_sim d fuel a n ha hn hready hfuel
    have hb : (EEPROM_25LC040A.clearBit EepromSim.spi fuel a n d).state.busy = 0 := by
      rw [e1]; rfl
    have hl : (EEPROM_25LC040A.clearBit EepromSim.spi fuel a n d).state.latency
        = d.latency := by
      rw [e1]; rfl
    have hm : (EEPROM_25LC040A.clearBit EepromSim.spi fuel a n d).state.mem
        = poke d.mem a ((d.mem a &&& (2 ^ 32 - 1 - (1 <<< n))) % 256) := by
      rw [e1]; rfl
    have e2 := eeprom_clearBit_sim _ fuel a n ha hn hb (by rw [hl]; exact hfuel)
    refine ⟨by rw [e1]; rfl, by rw [e2]; rfl, ?_⟩
    rw [e2, hm]
    simp only [Run.state]
    funext x
    by_cases hx : x = a
    · subst hx
      simp only [poke, if_pos rfl]
      exact clearBit_again (d.mem x) n
    · simp [poke, hx]

theorem eeprom_bit_operations_idempotent_witness :
    (5 < 512 ∧ 3 ≤ 7 ∧ (EepromSim.fresh 0xA0 2).busy = 0 ∧ (EepromSim.fresh 0xA0 2).latency < 3) ∧
    (EEPROM_25LC040A.setBit EepromSim.spi 3 5 3
        (EEPROM_25LC040A.setBit EepromSim.spi 3 5 3 (EepromSim.fresh 0xA0 2)).state).state.mem
      = (EEPROM_25LC040A.setBit EepromSim.spi 3 5 3 (EepromSim.fresh 0xA0 2)).state.mem :=
  ⟨by decide, (eeprom_bit_operations_idempotent (EepromSim.fresh 0xA0 2) 3 5 3 (by decide)
    (by decide) rfl (by decide)).1.2.2⟩

/-- C16: NOR `setBit` is a no-op.  For every address and bit index, on a
recording transport the call leaves the transport state and the trace as
they were (no chip select, exchange or delay), and on the simulated NOR flash
it leaves the device unchanged. -/
theorem nor_setBit_no_op {σ : Type} (spi : ISpiDriver σ) (st : σ × List Event) (d : NorSim)
    (address bit : Nat) :
    NOR_W25Q128.setBit (logged spi) address bit st = st ∧
    NOR_W25Q128.setBit NorSim.spi address bit d = d := by
  constructor <;> (unfold NOR_W25Q128.setBit; split <;> rfl)

/-- C17: bit-operation input validation.  If the bit index is above 7 or the
address is at or beyond the device size, EEPROM `setBit`, EEPROM `clearBit`
and NOR `clearBit` return with the transport state and the trace unchanged:
no transport operation is performed. -/
theorem bit_operation_input_validation {σ : Type} (spi : ISpiDriver σ) (st : σ × List Event)
    (fuel ae an be bn : Nat) (he : be > 7 ∨ ae ≥ 512) (hn : bn > 7 ∨ an ≥ 16777216) :
    EEPROM_25LC040A.setBit (logged spi) fuel ae be st = Run.done st ∧
    EEPROM_25LC040A.clearBit (logged spi) fuel ae be st = Run.done st ∧
    NOR_W25Q128.clearBit (logged spi) fuel an bn st = Run.done st := by
  have h1 : be > 7 ∨ ae ≥ EEPROM_25LC040A.getSize := he
  have h2 : bn > 7 ∨ an ≥ NOR_W25Q128.getSize := hn
  refine ⟨?_, ?_, ?_⟩
  · simp only [EEPROM_25LC040A.setBit, h1, if_true]
  · simp only [EEPROM_25LC040A.clearBit, h1, if_true]
  · simp only [NOR_W25Q128.clearBit, h2, if_true]

theorem bit_operation_input_validation_witness :
    ((8 > 7 ∨ 5 ≥ 512) ∧ (3 > 7 ∨ 16777216 ≥ 16777216)) ∧
    EEPROM_25LC040A.setBit (logged (scripted (fun _ => 0))) 2 5 8 (0, []) = Run.done (0, []) ∧
    EEPROM_25LC040A.clearBit (logged (scripted (fun _ => 0))) 2 5 8 (0, []) = Run.done (0, []) ∧
    NOR_W25Q128.clearBit (logged (scripted (fun _ => 0))) 2 16777216 3 (0, [])
      = Run.done (0, []) :=
  ⟨by decide, bit_operation_input_validation (scripted (fun _ => 0)) (0, []) 2 5 16777216 8 3
    (by decide) (by decide)⟩

theorem clearBit_feasible (c n : Nat) :
    c &&& ((c &&& (2 ^ 32 - 1 - (1 <<< n))) % 256) = (c &&& (2 ^ 32 - 1 - (1 <<< n))) % 256 := by
  apply Nat.eq_of_testBit_eq
  intro i
  rw [show (256 : Nat) = 2 ^ 8 from rfl]
  simp only [Nat.testBit_mod_two_pow, Nat.testBit_and]
  by_cases hi : i < 8 <;> cases c.testBit i <;> simp [hi]

theorem nor_clearBit_sim (d : NorSim) (fuel a n : Nat) (ha : a < 16777216) (hn : n ≤ 7)
    (hready : d.busy = 0) (hfuel : d.latency < fuel) :
    NOR_W25Q128.clearBit NorSim.spi fuel a n d
      = Run.done { d with
          mem := poke d.mem a ((d.mem a &&& (2 ^ 32 - 1 - (1 <<< n))) % 256),
          busy := 0, wel := false, sel := false, rx := [] } := by
  have hc : ¬ (n > 7 ∨ a ≥ NOR_W25Q128.getSize) := by
    simp only [NOR_W25Q128.getSize]; omega
  simp only [NOR_W25Q128.clearBit, hc, if_false, nor_readByte_sim d a ha]
  rw [nor_writeByte_sim { d with sel := false, rx := [] } fuel a _ ha hready hfuel]
  simp only [clearBit_feasible, if_true]

/-- C19: NOR `clearBit` is never silently dropped.  For every address
`a < 16777216`, bit `n ≤ 7` and byte `c`: the value `c & ~(1 << n)` (as a byte,
`c & (255 xor (1 << n))`) passes the clear-only test of `writeByte`; on any
transport on which both reads of the call return `c`, the trace is two read
transactions, a write enable, a program transaction carrying `c & ~(1 << n)`
and then status polls only; and on the simulated NOR flash holding `c` at `a`,
ready for a command, the call returns and `readByte(a)` then returns
`c & ~(1 << n)`. -/
theorem nor_clearBit_never_dropped {σ : Type} (spi : ISpiDriver σ) (s : σ) (d : NorSim)
    (fuel a n c : Nat) (ha : a < 16777216) (hn : n ≤ 7) (hc : c < 256)
    (hr1 : (NOR_W25Q128.readByte (logged spi) a (s, [])).1 = c)
    (hr2 : (NOR_W25Q128.readByte (logged spi) a
      (NOR_W25Q128.readByte (logged spi) a (s, [])).2).1 = c)
    (hmem : d.mem a = c) (hready : d.busy = 0) (hfuel : d.latency < fuel) :
    c &&& (c &&& (255 ^^^ (1 <<< n))) = c &&& (255 ^^^ (1 <<< n)) ∧
    (∃ k, transactions (NOR_W25Q128.clearBit (logged spi) fuel a n (s, [])).state.2
      = [0x03, (a >>> 16) % 256, (a >>> 8) % 256, a % 256, 0x00] ::
        [0x03, (a >>> 16) % 256, (a >>> 8) % 256, a % 256, 0x00] ::
        [0x06] ::
        [0x02, (a >>> 16) % 256, (a >>> 8) % 256, a % 256, c &&& (255 ^^^ (1 <<< n))] ::
        List.replicate k [0x05, 0x00]) ∧
    (NOR_W25Q128.clearBit NorSim.spi fuel a n d).finished = true ∧
    (NOR_W25Q128.readByte NorSim.spi a
      (NOR_W25Q128.clearBit NorSim.spi fuel a n d).state).1 = c &&& (255 ^^^ (1 <<< n)) := by
  have hv := clearBit_value c n hc hn
  have hf := clearBit_feasible c n
  rw [hv] at hf
  refine ⟨hf, ?_, ?_, ?_⟩
  · obtain ⟨k, hk⟩ := NOR_W25Q128.nor_clearBit_parse spi fuel a n (start_parse s)
    refine ⟨k, ?_⟩
    rw [transactions_of_parse hk, hr1, hr2, hv]
    have hnot : ¬ (n > 7 ∨ a ≥ NOR_W25Q128.getSize) := by
      simp only [NOR_W25Q128.getSize]; omega
    have h1 : a &&& 0xFF = a % 256 := Nat.and_pow_two_sub_one_eq_mod a 8
    simp [hnot, hf, h1, NOR_W25Q128.CMD_READ, NOR_W25Q128.CMD_WREN, NOR_W25Q128.CMD_WRITE,
      NOR_W25Q128.CMD_RDSR1]
  · rw [nor_clearBit_sim d fuel a n ha hn hready hfuel]; rfl
  · rw [nor_clearBit_sim d fuel a n ha hn hready hfuel]
    simp only [Run.state]
    rw [nor_readByte_sim _ a ha, hmem, hv]
    simp [poke]

theorem nor_clearBit_never_dropped_witness :
    (4096 < 16777216 ∧ 3 ≤ 7 ∧ 0xF0 < 256 ∧
      (NOR_W25Q128.readByte (logged NorSim.spi) 4096 (NorSim.fresh 0xF0 2 5, [])).1 = 0xF0 ∧
      (NOR_W25Q128.readByte (logged NorSim.spi) 4096
        (NOR_W25Q128.readByte (logged NorSim.spi) 4096 (NorSim.fresh 0xF0 2 5, [])).2).1 = 0xF0 ∧
      (NorSim.fresh 0xF0 2 5).mem 4096 = 0xF0 ∧ (NorSim.fresh 0xF0 2 5).busy = 0 ∧
      (NorSim.fresh 0xF0 2 5).latency < 3) ∧
    (∃ k, transactions (NOR_W25Q128.clearBit (logged NorSim.spi) 3 4096 3
        (NorSim.fresh 0xF0 2 5, [])).state.2
      = [0x03, (4096 >>> 16) % 256, (4096 >>> 8) % 256, 4096 % 256, 0x00] ::
        [0x03, (4096 >>> 16) % 256, (4096 >>> 8) % 256, 4096 % 256, 0x00] ::
        [0x06] ::
        [0x02, (4096 >>> 16) % 256, (4096 >>> 8) % 256, 4096 % 256,
          0xF0 &&& (255 ^^^ (1 <<< 3))] ::
        List.replicate k [0x05, 0x00]) ∧
    (NOR_W25Q128.readByte NorSim.spi 4096
      (NOR_W25Q128.clearBit NorSim.spi 3 4096 3 (NorSim.fresh 0xF0 2 5)).state).1
        = 0xF0 &&& (255 ^^^ (1 <<< 3)) :=
  ⟨by decide,
    (nor_clearBit_never_dropped NorSim.spi (NorSim.fresh 0xF0 2 5) (NorSim.fresh 0xF0 2 5)
      3 4096 3 0xF0 (by decide) (by decide) (by decide) (by decide) (by decide) rfl rfl
      (by decide)).2.1,
    (nor_clearBit_never_dropped NorSim.spi (NorSim.fresh 0xF0 2 5) (NorSim.fresh 0xF0 2 5)
      3 4096 3 0xF0 (by decide) (by decide) (by decide) (by decide) (by decide) rfl rfl
      (by decide)).2.2.2⟩

/-! ## Traces with responses: the drivers on an observing transport -/


theorem render_append (a b : List Segment) : render (a ++ b) = render a ++ render b := by
  induction a with
  | nil => rfl
  | cons s rest ih => simp [render, ih]

theorem splitFrom_xfers (xs ys : List (Nat × Nat)) (rest : List IoEvent) :
    splitFrom (some xs) (ys.map (fun x => IoEvent.xfer x.1 x.2) ++ IoEvent.cs false :: rest)
      = (splitFrom none rest).map (fun r => Segment.txn (xs ++ ys) :: r) := by
  induction ys generalizing xs with
  | nil => simp [splitFrom]
  | cons y ys ih =>
    show splitFrom (some xs) (IoEvent.xfer y.1 y.2 ::
      (ys.map (fun x => IoEvent.xfer x.1 x.2) ++ IoEvent.cs false :: rest)) = _
    rw [splitFrom, ih]
    simp

theorem segments_render (segs : List Segment) : segments (render segs) = some segs := by
  unfold segments
  induction segs with
  | nil => rfl
  | cons s rest ih =>
    cases s with
    | txn xs =>
      have h := splitFrom_xfers [] xs (render rest)
      show splitFrom none (IoEvent.cs true ::
        (xs.map (fun x => IoEvent.xfer x.1 x.2) ++ [IoEvent.cs false] ++ render rest)) = _
      rw [splitFrom, List.append_assoc, List.singleton_append, h, ih]; simp
    | delay u =>
      show splitFrom none (IoEvent.delay u :: render rest) = _
      rw [splitFrom, ih]; rfl

section obs
variable {σ : Type} (spi : ISpiDriver σ)

theorem logged_start (s : σ) : Logged ((s, []) : σ × List IoEvent) [] [] := rfl

theorem logged_here (st : σ × List IoEvent) : Logged st st.2 [] := by
  simp [Logged, render]

theorem obs_select {st : σ × List IoEvent} {l : List IoEvent} {segs : List Segment}
    (h : Logged st l segs) : Opened ((observed spi).chipSelect true st) l segs [] := by
  simp only [Logged] at h
  simp [Opened, observed, h, openTxn]

theorem obs_xfer (o : Nat) {st : σ × List IoEvent} {l : List IoEvent} {segs : List Segment}
    {xs : List (Nat × Nat)} (h : Opened st l segs xs) :
    Opened ((observed spi).transfer o st).2 l segs
      (xs ++ [(o, ((observed spi).transfer o st).1)]) := by
  simp only [Opened] at h
  simp [Opened, observed, h, openTxn]

theorem obs_release {st : σ × List IoEvent} {l : List IoEvent} {segs : List Segment}
    {xs : List (Nat × Nat)} (h : Opened st l segs xs) :
    Logged ((observed spi).chipSelect false st) l (segs ++ [Segment.txn xs]) := by
  simp only [Opened] at h
  simp [Logged, observed, h, render_append, render, Segment.events]

theorem obs_delay (u : Nat) {st : σ × List IoEvent} {l : List IoEvent} {segs : List Segment}
    (h : Logged st l segs) :
    Logged ((observed spi).delayUs u st) l (segs ++ [Segment.delay u]) := by
  simp only [Logged] at h
  simp [Logged, observed, h, render_append, render, Segment.events]

theorem segments_of_logged {st : σ × List IoEvent} {segs : List Segment}
    (h : Logged st [] segs) : segments st.2 = some segs := by
  simp only [Logged, List.nil_append] at h
  rw [h, segments_render]

end obs

theorem allCommands_nil (C : List Nat → Prop) : AllCommands C [] := by
  intro xs h; simp at h

theorem allCommands_append {C : List Nat → Prop} {a b : List Segment}
    (ha : AllCommands C a) (hb : AllCommands C b) : AllCommands C (a ++ b) := by
  intro xs h
  rcases List.mem_append.1 h with h | h
  · exact ha xs h
  · exact hb xs h

theorem allCommands_txn {C : List Nat → Prop} {xs : List (Nat × Nat)}
    (h : C (xs.map Prod.fst)) : AllCommands C [Segment.txn xs] := by
  intro ys hy
  simp at hy
  subst hy; exact h

theorem allCommands_delay (C : List Nat → Prop) (u : Nat) :
    AllCommands C [Segment.delay u] := by
  intro ys hy; simp at hy

theorem allCommands_polls {σ : Type} {spi : ISpiDriver σ} {C : List Nat → Prop}
    (hC : C [0x05, 0x00]) {fuel : Nat} {fin : Bool} {segs : List Segment}
    (h : PollSegs spi fuel fin segs) : AllCommands C segs := by
  induction h with
  | spin => exact allCommands_nil C
  | ready f r0 r _ _ => exact allCommands_txn (by simpa using hC)
  | busy f r0 r fin rest _ _ _ ih =>
    exact allCommands_append (a := [Segment.txn [(0x05, r0), (0x00, r)]])
      (allCommands_txn (by simpa using hC))
      (allCommands_append (a := [Segment.delay 100]) (allCommands_delay C 100) ih)

section obs
variable {σ : Type} (spi : ISpiDriver σ)

theorem logged_assoc {st : σ × List IoEvent} {l : List IoEvent} {a b : List Segment}
    (h : Logged st l (a ++ b)) (c : List Segment) (hc : b = c) : Logged st l (a ++ c) := by
  subst hc; exact h

namespace EEPROM_25LC040A

theorem ee_command_poll : Command [0x05, 0x00] := Or.inr (Or.inl rfl)

theorem ee_writeEnable_obs {st : σ × List IoEvent} {l : List IoEvent} {segs : List Segment}
    (h : Logged st l segs) :
    ∃ r, Logged (writeEnable (observed spi) st) l
      (segs ++ [Segment.txn [(CMD_WREN, r)], Segment.delay 1]) := by
  have h1 := obs_delay spi 1 (obs_release spi (obs_xfer spi CMD_WREN (obs_select spi h)))
  exact ⟨_, by simpa [writeEnable] using h1⟩

theorem ee_wait_obs (fuel : Nat) : ∀ {st : σ × List IoEvent} {l : List IoEvent}
    {segs : List Segment}, Logged st l segs →
    ∃ polls, Logged (waitForWriteComlete (observed spi) fuel st).state l (segs ++ polls)
      ∧ PollSegs spi fuel (waitForWriteComlete (observed spi) fuel st).finished polls := by
  induction fuel with
  | zero =>
    intro st l segs h
    exact ⟨[], by simpa [waitForWriteComlete, Run.state] using h, PollSegs.spin⟩
  | succ n ih =>
    intro st l segs h
    have h1 := obs_release spi (obs_xfer spi 0x00 (obs_xfer spi CMD_RDSR (obs_select spi h)))
    have hans : ∃ s, (spi.transfer 0x00 s).1
        = ((observed spi).transfer 0x00 ((observed spi).transfer CMD_RDSR
            ((observed spi).chipSelect true st)).2).1 := ⟨_, rfl⟩
    simp only [waitForWriteComlete]
    split
    · rename_i hz
      exact ⟨_, by simpa [Run.state, CMD_RDSR] using h1,
        by simpa [Run.finished, CMD_RDSR] using PollSegs.ready n _ _ hans hz⟩
    · rename_i hz
      obtain ⟨polls, hp, hs⟩ := ih (obs_delay spi 100 h1)
      refine ⟨_ :: _ :: polls, by simpa [CMD_RDSR] using hp, ?_⟩
      simpa [CMD_RDSR] using PollSegs.busy n _ _ _ polls hans hz hs

theorem ee_readByte_obs (a : Nat) {st : σ × List IoEvent} {l : List IoEvent}
    {segs : List Segment} (h : Logged st l segs) :
    ∃ new, Logged (readByte (observed spi) a st).2 l (segs ++ new)
      ∧ AllCommands Command new := by
  unfold readByte
  split
  · exact ⟨[], by simpa using h, allCommands_nil _⟩
  · have h1 := obs_release spi (obs_xfer spi 0x00 (obs_xfer spi ((a &&& 0xFF) % 256)
      (obs_xfer spi ((a >>> 8) % 256) (obs_xfer spi CMD_READ (obs_select spi h)))))
    exact ⟨_, h1, allCommands_txn (Or.inr (Or.inr (Or.inl
      ⟨(a >>> 8) % 256, (a &&& 0xFF) % 256, 1, by simp [CMD_READ]⟩)))⟩

theorem ee_writeByte_obs (fuel a v : Nat) {st : σ × List IoEvent} {l : List IoEvent}
    {segs : List Segment} (h : Logged st l segs) :
    ∃ new, Logged (writeByte (observed spi) fuel a v st).state l (segs ++ new)
      ∧ AllCommands Command new := by
  unfold writeByte
  split
  · exact ⟨[], by simpa [Run.state] using h, allCommands_nil _⟩
  · obtain ⟨r, h1⟩ := ee_writeEnable_obs spi h
    have h2 := obs_release spi (obs_xfer spi v (obs_xfer spi ((a &&& 0xFF) % 256)
      (obs_xfer spi ((a >>> 8) % 256) (obs_xfer spi CMD_WRITE (obs_select spi h1)))))
    obtain ⟨polls, h3, hp⟩ := ee_wait_obs spi fuel h2
    refine ⟨_, by simpa [List.append_assoc] using h3, ?_⟩
    refine allCommands_append (allCommands_append (a := [_]) (allCommands_txn ?_)
      (allCommands_append (a := [_]) (allCommands_delay _ 1) (allCommands_txn ?_)))
      (allCommands_polls ee_command_poll hp)
    · exact Or.inl (by simp)
    · exact Or.inr (Or.inr (Or.inr ⟨(a >>> 8) % 256, (a &&& 0xFF) % 256, v, [], by simp⟩))

theorem ee_recvBytes_obs (n : Nat) : ∀ (i : Nat) (buf : Nat → Nat) {st : σ × List IoEvent}
    {l : List IoEvent} {segs : List Segment} {xs : List (Nat × Nat)}, Opened st l segs xs →
    ∃ zs, Opened (recvBytes (observed spi) n i buf st).2 l segs zs
      ∧ zs.map Prod.fst = xs.map Prod.fst ++ List.replicate n 0x00 := by
  induction n with
  | zero => intro i buf st l segs xs h; exact ⟨xs, by simpa [recvBytes] using h, by simp⟩
  | succ n ih =>
    intro i buf st l segs xs h
    obtain ⟨zs, hz, hm⟩ := ih (i + 1)
      (poke buf i ((observed spi).transfer 0x00 st).1) (obs_xfer spi 0x00 h)
    refine ⟨zs, by simpa [recvBytes] using hz, ?_⟩
    rw [hm]; simp [List.replicate_succ]

theorem ee_sendBytes_obs (data : Nat → Nat) (n : Nat) : ∀ (off : Nat) {st : σ × List IoEvent}
    {l : List IoEvent} {segs : List Segment} {xs : List (Nat × Nat)}, Opened st l segs xs →
    ∃ zs, Opened (sendBytes (observed spi) data n off st) l segs zs
      ∧ zs.map Prod.fst = xs.map Prod.fst ++ (List.range n).map (fun i => data (off + i)) := by
  induction n with
  | zero => intro off st l segs xs h; exact ⟨xs, by simpa [sendBytes] using h, by simp⟩
  | succ n ih =>
    intro off st l segs xs h
    obtain ⟨zs, hz, hm⟩ := ih (off + 1) (obs_xfer spi (data off) h)
    refine ⟨zs, by simpa [sendBytes] using hz, ?_⟩
    rw [hm]
    simp [List.range_succ_eq_map, Nat.add_assoc, Nat.add_comm 1, Function.comp_def]

theorem ee_readArray_obs (a : Nat) (buffer : Option (Nat → Nat)) (length : Nat)
    {st : σ × List IoEvent} {l : List IoEvent} {segs : List Segment} (h : Logged st l segs) :
    ∃ new, Logged (readArray (observed spi) a buffer length st).2 l (segs ++ new)
      ∧ AllCommands Command new := by
  unfold readArray
  split
  · exact ⟨[], by simpa using h, allCommands_nil _⟩
  · split
    · exact ⟨[], by simpa using h, allCommands_nil _⟩
    · rename_i buf _
      obtain ⟨zs, hz, hm⟩ := ee_recvBytes_obs spi length 0 buf
        (obs_xfer spi ((a &&& 0xFF) % 256) (obs_xfer spi ((a >>> 8) % 256)
          (obs_xfer spi CMD_READ (obs_select spi h))))
      exact ⟨_, obs_release spi hz, allCommands_txn (Or.inr (Or.inr (Or.inl
        ⟨(a >>> 8) % 256, (a &&& 0xFF) % 256, length, by rw [hm]; simp [CMD_READ]⟩)))⟩

theorem ee_programTx_command (address : Nat) (data : Nat → Nat) (length written : Nat)
    (h : written < length) : Command (programTx address data length written) := by
  have hc : chunkAt length written = (chunkAt length written - 1) + 1 := by
    simp only [chunkAt, PAGE_SIZE]; split <;> omega
  refine Or.inr (Or.inr (Or.inr ⟨(((address + written) % 2 ^ 16) >>> 8) % 256,
    (((address + written) % 2 ^ 16) &&& 0xFF) % 256, data (written + 0),
    (List.range (chunkAt length written - 1)).map (fun i => data (written + (i + 1))), ?_⟩))
  rw [programTx, hc, List.range_succ_eq_map]
  simp [Function.comp_def, CMD_WRITE]

theorem ee_chunkSegs_commands {fuel address : Nat} {data : Nat → Nat} {length written : Nat}
    {fin : Bool} {segs : List Segment}
    (h : ChunkSegs spi fuel address data length written fin segs) :
    AllCommands Command segs := by
  induction h with
  | finish w _ => exact allCommands_nil _
  | chunk w r fin xs polls rest hlt hx hp _ ih =>
    refine allCommands_append (a := [_]) (allCommands_txn (Or.inl (by simp)))
      (allCommands_append (a := [_]) (allCommands_delay _ 1)
        (allCommands_append (a := [_]) (allCommands_txn ?_)
          (allCommands_append (allCommands_polls ee_command_poll hp) ih)))
    rw [hx]; exact ee_programTx_command address data length w hlt
  | stall w r xs polls hlt hx hp =>
    refine allCommands_append (a := [_]) (allCommands_txn (Or.inl (by simp)))
      (allCommands_append (a := [_]) (allCommands_delay _ 1)
        (allCommands_append (a := [_]) (allCommands_txn ?_)
          (allCommands_polls ee_command_poll hp)))
    rw [hx]; exact ee_programTx_command address data length w hlt

theorem ee_writeChunks_obs (fuel address : Nat) (data : Nat → Nat) (length : Nat) (n : Nat) :
    ∀ (written : Nat) {st : σ × List IoEvent} {l : List IoEvent} {segs : List Segment},
    length - written ≤ n → Logged st l segs →
    ∃ new, Logged (writeChunks (observed spi) fuel address data length n written st).state l
        (segs ++ new)
      ∧ ChunkSegs spi fuel address data length written
          (writeChunks (observed spi) fuel address data length n written st).finished new := by
  induction n with
  | zero =>
    intro written st l segs hn h
    have hw : ¬ written < length := by omega
    refine ⟨[], ?_, ?_⟩
    · simpa [writeChunks, hw, Run.state] using h
    · simpa [writeChunks, hw, Run.finished] using ChunkSegs.finish written hw
  | succ n ih =>
    intro written st l segs hn h
    simp only [writeChunks]
    split
    · rename_i hlt
      obtain ⟨r, h1⟩ := ee_writeEnable_obs spi h
      obtain ⟨zs, h2, hm⟩ := ee_sendBytes_obs spi data (chunkAt length written) written
        (obs_xfer spi ((((address + written) % 2 ^ 16) &&& 0xFF) % 256)
          (obs_xfer spi ((((address + written) % 2 ^ 16) >>> 8) % 256)
            (obs_xfer spi CMD_WRITE (obs_select spi h1))))
      have hx : zs.map Prod.fst = programTx address data length written := by
        rw [hm]; simp [programTx]
      obtain ⟨polls, h3, hp⟩ := ee_wait_obs spi fuel (obs_release spi h2)
      simp only [chunkAt] at h3 hp
      split
      · rename_i s' heq
        rw [heq] at h3 hp
        simp only [Run.state, Run.finished] at h3 hp
        have hb : length - (written + chunkAt length written) ≤ n := by
          simp only [chunkAt, PAGE_SIZE]; split <;> omega
        obtain ⟨new, hnew, hcs⟩ := ih (written + chunkAt length written) hb h3
        simp only [chunkAt] at hnew hcs
        exact ⟨_, by simpa [List.append_assoc] using hnew,
          ChunkSegs.chunk written r _ _ polls new hlt hx hp (by simpa [chunkAt] using hcs)⟩
      · rename_i s' heq
        rw [heq] at h3 hp
        simp only [Run.state, Run.finished] at h3 hp ⊢
        exact ⟨_, by simpa [List.append_assoc] using h3,
          ChunkSegs.stall written r _ polls hlt hx hp⟩
    · rename_i hlt
      exact ⟨[], by simpa [Run.state] using h,
        by simpa [Run.finished] using ChunkSegs.finish written hlt⟩

theorem ee_writeArray_obs (fuel a : Nat) (data : Option (Nat → Nat)) (length : Nat)
    {st : σ × List IoEvent} {l : List IoEvent} {segs : List Segment} (h : Logged st l segs) :
    ∃ new, Logged (writeArray (observed spi) fuel a data length st).state l (segs ++ new)
      ∧ AllCommands Command new := by
  unfold writeArray
  split
  · exact ⟨[], by simpa [Run.state] using h, allCommands_nil _⟩
  · split
    · exact ⟨[], by simpa [Run.state] using h, allCommands_nil _⟩
    · rename_i d _
      obtain ⟨new, hnew, hcs⟩ := ee_writeChunks_obs spi fuel a d length length 0 (by omega) h
      exact ⟨new, hnew, ee_chunkSegs_commands spi hcs⟩

theorem ee_setBit_obs (fuel a bit : Nat) {st : σ × List IoEvent} {l : List IoEvent}
    {segs : List Segment} (h : Logged st l segs) :
    ∃ new, Logged (setBit (observed spi) fuel a bit st).state l (segs ++ new)
      ∧ AllCommands Command new := by
  unfold setBit
  split
  · exact ⟨[], by simpa [Run.state] using h, allCommands_nil _⟩
  · obtain ⟨n1, h1, c1⟩ := ee_readByte_obs spi a h
    obtain ⟨n2, h2, c2⟩ := ee_writeByte_obs spi fuel a
      (((readByte (observed spi) a st).1 ||| (1 <<< bit)) % 256) h1
    exact ⟨n1 ++ n2, by simpa [List.append_assoc] using h2, allCommands_append c1 c2⟩

theorem ee_clearBit_obs (fuel a bit : Nat) {st : σ × List IoEvent} {l : List IoEvent}
    {segs : List Segment} (h : Logged st l segs) :
    ∃ new, Logged (clearBit (observed spi) fuel a bit st).state l (segs ++ new)
      ∧ AllCommands Command new := by
  unfold clearBit
  split
  · exact ⟨[], by simpa [Run.state] using h, allCommands_nil _⟩
  · obtain ⟨n1, h1, c1⟩ := ee_readByte_obs spi a h
    obtain ⟨n2, h2, c2⟩ := ee_writeByte_obs spi fuel a
      (((readByte (observed spi) a st).1 &&& (2 ^ 32 - 1 - (1 <<< bit))) % 256) h1
    exact ⟨n1 ++ n2, by simpa [List.append_assoc] using h2, allCommands_append c1 c2⟩

end EEPROM_25LC040A
end obs
section obsnor
variable {σ : Type} (spi : ISpiDriver σ)

namespace NOR_W25Q128

theorem nor_command_poll : Command [0x05, 0x00] := Or.inr (Or.inl rfl)

theorem nor_writeEnable_obs {st : σ × List IoEvent} {l : List IoEvent} {segs : List Segment}
    (h : Logged st l segs) :
    ∃ r, Logged (writeEnable (observed spi) st) l
      (segs ++ [Segment.txn [(CMD_WREN, r)], Segment.delay 1]) := by
  have h1 := obs_delay spi 1 (obs_release spi (obs_xfer spi CMD_WREN (obs_select spi h)))
  exact ⟨_, by simpa [writeEnable] using h1⟩

theorem nor_wait_obs (fuel : Nat) : ∀ {st : σ × List IoEvent} {l : List IoEvent}
    {segs : List Segment}, Logged st l segs →
    ∃ polls, Logged (waitForReady (observed spi) fuel st).state l (segs ++ polls)
      ∧ PollSegs spi fuel (waitForReady (observed spi) fuel st).finished polls := by
  induction fuel with
  | zero =>
    intro st l segs h
    exact ⟨[], by simpa [waitForReady, Run.state] using h, PollSegs.spin⟩
  | succ n ih =>
    intro st l segs h
    have h1 := obs_release spi (obs_xfer spi 0x00 (obs_xfer spi CMD_RDSR1 (obs_select spi h)))
    have hans : ∃ s, (spi.transfer 0x00 s).1
        = ((observed spi).transfer 0x00 ((observed spi).transfer CMD_RDSR1
            ((observed spi).chipSelect true st)).2).1 := ⟨_, rfl⟩
    simp only [waitForReady]
    split
    · rename_i hz
      exact ⟨_, by simpa [Run.state, CMD_RDSR1] using h1,
        by simpa [Run.finished, CMD_RDSR1] using PollSegs.ready n _ _ hans hz⟩
    · rename_i hz
      obtain ⟨polls, hp, hs⟩ := ih (obs_delay spi 100 h1)
      refine ⟨_ :: _ :: polls, by simpa [CMD_RDSR1] using hp, ?_⟩
      simpa [CMD_RDSR1] using PollSegs.busy n _ _ _ polls hans hz hs

theorem nor_readByte_obs (a : Nat) {st : σ × List IoEvent} {l : List IoEvent}
    {segs : List Segment} (h : Logged st l segs) :
    ∃ new, Logged (readByte (observed spi) a st).2 l (segs ++ new)
      ∧ AllCommands Command new := by
  unfold readByte
  split
  · exact ⟨[], by simpa using h, allCommands_nil _⟩
  · have h1 := obs_release spi (obs_xfer spi 0x00 (obs_xfer spi ((a &&& 0xFF) % 256)
      (obs_xfer spi ((a >>> 8) % 256) (obs_xfer spi ((a >>> 16) % 256)
        (obs_xfer spi CMD_READ (obs_select spi h))))))
    exact ⟨_, h1, allCommands_txn (Or.inr (Or.inr (Or.inl
      ⟨(a >>> 16) % 256, (a >>> 8) % 256, (a &&& 0xFF) % 256, 1, by simp [CMD_READ]⟩)))⟩

theorem nor_writeByte_obs (fuel a v : Nat) {st : σ × List IoEvent} {l : List IoEvent}
    {segs : List Segment} (h : Logged st l segs) :
    ∃ new, Logged (writeByte (observed spi) fuel a v st).state l (segs ++ new)
      ∧ AllCommands Command new := by
  unfold writeByte
  split
  · exact ⟨[], by simpa [Run.state] using h, allCommands_nil _⟩
  · obtain ⟨n1, h1, c1⟩ := nor_readByte_obs spi a h
    simp only []
    split
    · obtain ⟨r, h2⟩ := nor_writeEnable_obs spi h1
      have h3 := obs_release spi (obs_xfer spi v (obs_xfer spi ((a &&& 0xFF) % 256)
        (obs_xfer spi ((a >>> 8) % 256) (obs_xfer spi ((a >>> 16) % 256)
          (obs_xfer spi CMD_WRITE (obs_select spi h2))))))
      obtain ⟨polls, h4, hp⟩ := nor_wait_obs spi fuel h3
      refine ⟨_, by simpa [List.append_assoc] using h4, ?_⟩
      refine allCommands_append c1 (allCommands_append (allCommands_append (a := [_])
        (allCommands_txn ?_)
        (allCommands_append (a := [_]) (allCommands_delay _ 1) (allCommands_txn ?_)))
        (allCommands_polls nor_command_poll hp))
      · exact Or.inl (by simp)
      · exact Or.inr (Or.inr (Or.inr (Or.inl
          ⟨(a >>> 16) % 256, (a >>> 8) % 256, (a &&& 0xFF) % 256, v, [], by simp⟩)))
    · exact ⟨n1, by simpa [Run.state] using h1, c1⟩

theorem nor_recvBytes_obs (n : Nat) : ∀ (i : Nat) (buf : Nat → Nat) {st : σ × List IoEvent}
    {l : List IoEvent} {segs : List Segment} {xs : List (Nat × Nat)}, Opened st l segs xs →
    ∃ zs, Opened (recvBytes (observed spi) n i buf st).2 l segs zs
      ∧ zs.map Prod.fst = xs.map Prod.fst ++ List.replicate n 0x00 := by
  induction n with
  | zero => intro i buf st l segs xs h; exact ⟨xs, by simpa [recvBytes] using h, by simp⟩
  | succ n ih =>
    intro i buf st l segs xs h
    obtain ⟨zs, hz, hm⟩ := ih (i + 1)
      (poke buf i ((observed spi).transfer 0x00 st).1) (obs_xfer spi 0x00 h)
    refine ⟨zs, by simpa [recvBytes] using hz, ?_⟩
    rw [hm]; simp [List.replicate_succ]

theorem nor_sendBytes_obs (data : Nat → Nat) (n : Nat) : ∀ (off : Nat) {st : σ × List IoEvent}
    {l : List IoEvent} {segs : List Segment} {xs : List (Nat × Nat)}, Opened st l segs xs →
    ∃ zs, Opened (sendBytes (observed spi) data n off st) l segs zs
      ∧ zs.map Prod.fst = xs.map Prod.fst ++ (List.range n).map (fun i => data (off + i)) := by
  induction n with
  | zero => intro off st l segs xs h; exact ⟨xs, by simpa [sendBytes] using h, by simp⟩
  | succ n ih =>
    intro off st l segs xs h
    obtain ⟨zs, hz, hm⟩ := ih (off + 1) (obs_xfer spi (data off) h)
    refine ⟨zs, by simpa [sendBytes] using hz, ?_⟩
    rw [hm]
    simp [List.range_succ_eq_map, Nat.add_assoc, Nat.add_comm 1, Function.comp_def]

theorem nor_readArray_obs (a : Nat) (buffer : Option (Nat → Nat)) (length : Nat)
    {st : σ × List IoEvent} {l : List IoEvent} {segs : List Segment} (h : Logged st l segs) :
    ∃ new, Logged (readArray (observed spi) a buffer length st).2 l (segs ++ new)
      ∧ AllCommands Command new := by
  unfold readArray
  split
  · exact ⟨[], by simpa using h, allCommands_nil _⟩
  · split
    · exact ⟨[], by simpa using h, allCommands_nil _⟩
    · rename_i buf _
      obtain ⟨zs, hz, hm⟩ := nor_recvBytes_obs spi length 0 buf
        (obs_xfer spi ((a &&& 0xFF) % 256) (obs_xfer spi ((a >>> 8) % 256)
          (obs_xfer spi ((a >>> 16) % 256) (obs_xfer spi CMD_READ (obs_select spi h)))))
      exact ⟨_, obs_release spi hz, allCommands_txn (Or.inr (Or.inr (Or.inl
        ⟨(a >>> 16) % 256, (a >>> 8) % 256, (a &&& 0xFF) % 256, length,
          by rw [hm]; simp [CMD_READ]⟩)))⟩

theorem nor_chunkAt_pos (address length written : Nat) (h : written < length) :
    1 ≤ chunkAt address length written ∧ chunkAt address length written ≤ length - written := by
  simp only [chunkAt, PAGE_SIZE]
  split <;> omega

theorem nor_programTx_command (address : Nat) (data : Nat → Nat) (length written : Nat)
    (h : written < length) : Command (programTx address data length written) := by
  have hc : chunkAt address length written = (chunkAt address length written - 1) + 1 := by
    have := nor_chunkAt_pos address length written h; omega
  refine Or.inr (Or.inr (Or.inr (Or.inl ⟨(((address + written) % 2 ^ 32) >>> 16) % 256,
    (((address + written) % 2 ^ 32) >>> 8) % 256,
    (((address + written) % 2 ^ 32) &&& 0xFF) % 256, data (written + 0),
    (List.range (chunkAt address length written - 1)).map (fun i => data (written + (i + 1))),
    ?_⟩)))
  rw [programTx, hc, List.range_succ_eq_map]
  simp [Function.comp_def, CMD_WRITE]

theorem nor_chunkSegs_commands {fuel address : Nat} {data : Nat → Nat} {length written : Nat}
    {fin : Bool} {segs : List Segment}
    (h : ChunkSegs spi fuel address data length written fin segs) :
    AllCommands Command segs := by
  induction h with
  | finish w _ => exact allCommands_nil _
  | chunk w r fin xs polls rest hlt hx hp _ ih =>
    refine allCommands_append (a := [_]) (allCommands_txn (Or.inl (by simp)))
      (allCommands_append (a := [_]) (allCommands_delay _ 1)
        (allCommands_append (a := [_]) (allCommands_txn ?_)
          (allCommands_append (allCommands_polls nor_command_poll hp) ih)))
    rw [hx]; exact nor_programTx_command address data length w hlt
  | stall w r xs polls hlt hx hp =>
    refine allCommands_append (a := [_]) (allCommands_txn (Or.inl (by simp)))
      (allCommands_append (a := [_]) (allCommands_delay _ 1)
        (allCommands_append (a := [_]) (allCommands_txn ?_)
          (allCommands_polls nor_command_poll hp)))
    rw [hx]; exact nor_programTx_command address data length w hlt

theorem nor_writeChunks_obs (fuel address : Nat) (data : Nat → Nat) (length : Nat) (n : Nat) :
    ∀ (written : Nat) {st : σ × List IoEvent} {l : List IoEvent} {segs : List Segment},
    length - written ≤ n → Logged st l segs →
    ∃ new, Logged (writeChunks (observed spi) fuel address data length n written st).state l
        (segs ++ new)
      ∧ ChunkSegs spi fuel address data length written
          (writeChunks (observed spi) fuel address data length n written st).finished new := by
  induction n with
  | zero =>
    intro written st l segs hn h
    have hw : ¬ written < length := by omega
    refine ⟨[], ?_, ?_⟩
    · simpa [writeChunks, hw, Run.state] using h
    · simpa [writeChunks, hw, Run.finished] using ChunkSegs.finish written hw
  | succ n ih =>
    intro written st l segs hn h
    simp only [writeChunks]
    split
    · rename_i hlt
      obtain ⟨r, h1⟩ := nor_writeEnable_obs spi h
      obtain ⟨zs, h2, hm⟩ := nor_sendBytes_obs spi data (chunkAt address length written) written
        (obs_xfer spi ((((address + written) % 2 ^ 32) &&& 0xFF) % 256)
          (obs_xfer spi ((((address + written) % 2 ^ 32) >>> 8) % 256)
            (obs_xfer spi ((((address + written) % 2 ^ 32) >>> 16) % 256)
              (obs_xfer spi CMD_WRITE (obs_select spi h1)))))
      have hx : zs.map Prod.fst = programTx address data length written := by
        rw [hm]; simp [programTx]
      obtain ⟨polls, h3, hp⟩ := nor_wait_obs spi fuel (obs_release spi h2)
      simp only [chunkAt] at h3 hp
      split
      · rename_i s' heq
        rw [heq] at h3 hp
        simp only [Run.state, Run.finished] at h3 hp
        have hb : length - (written + chunkAt address length written) ≤ n := by
          have := nor_chunkAt_pos address length written hlt; omega
        obtain ⟨new, hnew, hcs⟩ := ih (written + chunkAt address length written) hb h3
        simp only [chunkAt] at hnew hcs
        exact ⟨_, by simpa [List.append_assoc] using hnew,
          ChunkSegs.chunk written r _ _ polls new hlt hx hp (by simpa [chunkAt] using hcs)⟩
      · rename_i s' heq
        rw [heq] at h3 hp
        simp only [Run.state, Run.finished] at h3 hp ⊢
        exact ⟨_, by simpa [List.append_assoc] using h3,
          ChunkSegs.stall written r _ polls hlt hx hp⟩
    · rename_i hlt
      exact ⟨[], by simpa [Run.state] using h,
        by simpa [Run.finished] using ChunkSegs.finish written hlt⟩

theorem nor_writeArray_obs (fuel a : Nat) (data : Option (Nat → Nat)) (length : Nat)
    {st : σ × List IoEvent} {l : List IoEvent} {segs : List Segment} (h : Logged st l segs) :
    ∃ new, Logged (writeArray (observed spi) fuel a data length st).state l (segs ++ new)
      ∧ AllCommands Command new := by
  unfold writeArray
  split
  · exact ⟨[], by simpa [Run.state] using h, allCommands_nil _⟩
  · split
    · exact ⟨[], by simpa [Run.state] using h, allCommands_nil _⟩
    · rename_i d _
      obtain ⟨new, hnew, hcs⟩ := nor_writeChunks_obs spi fuel a d length length 0 (by omega) h
      exact ⟨new, hnew, nor_chunkSegs_commands spi hcs⟩

theorem nor_clearBit_obs (fuel a bit : Nat) {st : σ × List IoEvent} {l : List IoEvent}
    {segs : List Segment} (h : Logged st l segs) :
    ∃ new, Logged (clearBit (observed spi) fuel a bit st).state l (segs ++ new)
      ∧ AllCommands Command new := by
  unfold clearBit
  split
  · exact ⟨[], by simpa [Run.state] using h, allCommands_nil _⟩
  · obtain ⟨n1, h1, c1⟩ := nor_readByte_obs spi a h
    obtain ⟨n2, h2, c2⟩ := nor_writeByte_obs spi fuel a
      (((readByte (observed spi) a st).1 &&& (2 ^ 32 - 1 - (1 <<< bit))) % 256) h1
    exact ⟨n1 ++ n2, by simpa [List.append_assoc] using h2, allCommands_append c1 c2⟩

theorem nor_eraseSector_obs (fuel a : Nat) {st : σ × List IoEvent} {l : List IoEvent}
    {segs : List Segment} (h : Logged st l segs) :
    ∃ new, Logged (eraseSector (observed spi) fuel a st).state l (segs ++ new)
      ∧ AllCommands Command new := by
  unfold eraseSector
  split
  · exact ⟨[], by simpa [Run.state] using h, allCommands_nil _⟩
  · obtain ⟨r, h1⟩ := nor_writeEnable_obs spi h
    have h2 := obs_release spi (obs_xfer spi ((getSectorStart a &&& 0xFF) % 256)
      (obs_xfer spi ((getSectorStart a >>> 8) % 256)
        (obs_xfer spi ((getSectorStart a >>> 16) % 256)
          (obs_xfer spi CMD_SECTOR_ERASE (obs_select spi h1)))))
    obtain ⟨polls, h3, hp⟩ := nor_wait_obs spi fuel h2
    refine ⟨_, by simpa [List.append_assoc] using h3, ?_⟩
    refine allCommands_append (allCommands_append (a := [_]) (allCommands_txn ?_)
      (allCommands_append (a := [_]) (allCommands_delay _ 1) (allCommands_txn ?_)))
      (allCommands_polls nor_command_poll hp)
    · exact Or.inl (by simp)
    · exact Or.inr (Or.inr (Or.inr (Or.inr ⟨(getSectorStart a >>> 16) % 256,
        (getSectorStart a >>> 8) % 256, (getSectorStart a &&& 0xFF) % 256, by simp⟩)))

end NOR_W25Q128
end obsnor

theorem outTransactions_append (a b : List Segment) :
    outTransactions (a ++ b) = outTransactions a ++ outTransactions b := by
  simp [outTransactions, List.filterMap_append]

section quiet
variable {σ : Type} {spi : ISpiDriver σ}

theorem pollSegs_quiet (hquiet : ∀ s, (spi.transfer 0x00 s).1 &&& 0x01 = 0) {fuel : Nat}
    {fin : Bool} {polls : List Segment} (h : PollSegs spi fuel fin polls) (hf : 0 < fuel) :
    fin = true ∧ outTransactions polls = [[0x05, 0x00]] := by
  cases h with
  | spin => omega
  | ready f r0 r _ _ => exact ⟨rfl, rfl⟩
  | busy f r0 r fin rest ha hb _ =>
    obtain ⟨s, hs⟩ := ha
    exact absurd (hs ▸ hquiet s) hb

end quiet
section chunks
variable {σ : Type} {spi : ISpiDriver σ}

namespace EEPROM_25LC040A

theorem ee_chunkAt_pos (length written : Nat) (h : written < length) :
    1 ≤ chunkAt length written ∧ chunkAt length written ≤ length - written
      ∧ chunkAt length written ≤ 16 := by
  simp only [chunkAt, PAGE_SIZE]
  split <;> omega

theorem ee_chunkOuts_done (address : Nat) (data : Nat → Nat) (length n written : Nat)
    (h : ¬ written < length) : chunkOuts address data length n written = [] := by
  cases n with
  | zero => rfl
  | succ n => simp [chunkOuts, h]

theorem ee_chunkSegs_quiet (hquiet : ∀ s, (spi.transfer 0x00 s).1 &&& 0x01 = 0)
    {fuel address : Nat} {data : Nat → Nat} {length written : Nat} {fin : Bool}
    {segs : List Segment} (hf : 0 < fuel)
    (h : ChunkSegs spi fuel address data length written fin segs) :
    fin = true ∧ ∀ n, length - written ≤ n →
      outTransactions segs = chunkOuts address data length n written := by
  induction h with
  | finish w hw => exact ⟨rfl, fun n _ => (ee_chunkOuts_done address data length n w hw).symm⟩
  | chunk w r fin xs polls rest hlt hx hp _ ih =>
    obtain ⟨hfin, hrest⟩ := ih
    refine ⟨hfin, fun n hn => ?_⟩
    obtain ⟨m, rfl⟩ : ∃ m, n = m + 1 := ⟨n - 1, by omega⟩
    have hc := ee_chunkAt_pos length w hlt
    have hpo := (pollSegs_quiet hquiet hp hf).2
    have e : outTransactions (Segment.txn [(CMD_WREN, r)] :: Segment.delay 1 ::
          Segment.txn xs :: (polls ++ rest))
        = [CMD_WREN] :: xs.map Prod.fst :: (outTransactions polls ++ outTransactions rest) := by
      rw [← outTransactions_append]; rfl
    rw [e, hx, hpo, hrest m (by omega)]
    simp [chunkOuts, hlt, CMD_RDSR]
  | stall w r xs polls hlt hx hp =>
    exact absurd (pollSegs_quiet hquiet hp hf).1 (by simp)

theorem ee_programTx_addr (address : Nat) (data : Nat → Nat) (length written : Nat)
    (hfit : address + length ≤ 512) (hlt : written < length) :
    programTx address data length written
      = 0x02 :: ((address + written) / 256) :: ((address + written) % 256)
        :: (List.range (chunkAt length written)).map (fun i => data (written + i)) := by
  have h1 : (address + written) % 2 ^ 16 = address + written :=
    Nat.mod_eq_of_lt (by norm_num; omega)
  have h2 : (address + written) &&& 0xFF = (address + written) % 256 :=
    Nat.and_pow_two_sub_one_eq_mod _ 8
  have h3 : ((address + written) >>> 8) % 256 = (address + written) / 256 := by
    rw [Nat.shiftRight_eq_div_pow]; omega
  simp only [programTx, h1, h2, h3, Nat.mod_mod, CMD_WRITE]
  rfl

end EEPROM_25LC040A

namespace NOR_W25Q128

end NOR_W25Q128
end chunks

theorem render_injective {a b : List Segment} (h : render a = render b) : a = b := by
  have h1 := segments_render a
  rw [h, segments_render b] at h1
  exact (Option.some.inj h1).symm

theorem disciplined_of_logged {σ : Type} {Cmd : List Nat → Prop} {st : σ × List IoEvent}
    {new : List Segment} (h : Logged st [] ([] ++ new)) (hc : AllCommands Cmd new) :
    Disciplined Cmd st.2 :=
  ⟨new, by simpa [Logged] using h, hc⟩

/-- C15: chip-select discipline.  For every public operation of either
driver, every argument, every transport and every poll budget (so in
particular whenever the operation returns), the trace is a sequence of delays
and of intervals `assert, exchanges, deassert`: chip-select calls alternate,
starting with an assertion and ending with a deassertion, every exchange lies
inside an interval, and the bytes shifted out in each interval are one
command of the driver (one opcode followed only by that command's address
and data bytes). -/
theorem chip_select_discipline {σ : Type} (spi : ISpiDriver σ) (s : σ)
    (fuel address value bit length : Nat) (buf : Option (Nat → Nat)) :
    Disciplined EEPROM_25LC040A.Command
      (EEPROM_25LC040A.readByte (observed spi) address (s, [])).2.2 ∧
    Disciplined EEPROM_25LC040A.Command
      (EEPROM_25LC040A.writeByte (observed spi) fuel address value (s, [])).state.2 ∧
    Disciplined EEPROM_25LC040A.Command
      (EEPROM_25LC040A.readArray (observed spi) address buf length (s, [])).2.2 ∧
    Disciplined EEPROM_25LC040A.Command
      (EEPROM_25LC040A.writeArray (observed spi) fuel address buf length (s, [])).state.2 ∧
    Disciplined EEPROM_25LC040A.Command
      (EEPROM_25LC040A.setBit (observed spi) fuel address bit (s, [])).state.2 ∧
    Disciplined EEPROM_25LC040A.Command
      (EEPROM_25LC040A.clearBit (observed spi) fuel address bit (s, [])).state.2 ∧
    Disciplined NOR_W25Q128.Command
      (NOR_W25Q128.readByte (observed spi) address (s, [])).2.2 ∧
    Disciplined NOR_W25Q128.Command
      (NOR_W25Q128.writeByte (observed spi) fuel address value (s, [])).state.2 ∧
    Disciplined NOR_W25Q128.Command
      (NOR_W25Q128.readArray (observed spi) address buf length (s, [])).2.2 ∧
    Disciplined NOR_W25Q128.Command
      (NOR_W25Q128.writeArray (observed spi) fuel address buf length (s, [])).state.2 ∧
    Disciplined NOR_W25Q128.Command
      (NOR_W25Q128.setBit (observed spi) address bit (s, [])).2 ∧
    Disciplined NOR_W25Q128.Command
      (NOR_W25Q128.clearBit (observed spi) fuel address bit (s, [])).state.2 ∧
    Disciplined NOR_W25Q128.Command
      (NOR_W25Q128.eraseSector (observed spi) fuel address (s, [])).state.2 := by
  have h0 : Logged ((s, []) : σ × List IoEvent) [] [] := logged_start s
  refine ⟨?_, ?_, ?_, ?_, ?_, ?_, ?_, ?_, ?_, ?_, ?_, ?_, ?_⟩
  · obtain ⟨new, h, c⟩ := EEPROM_25LC040A.ee_readByte_obs spi address h0
    exact disciplined_of_logged h c
  · obtain ⟨new, h, c⟩ := EEPROM_25LC040A.ee_writeByte_obs spi fuel address value h0
    exact disciplined_of_logged h c
  · obtain ⟨new, h, c⟩ := EEPROM_25LC040A.ee_readArray_obs spi address buf length h0
    exact disciplined_of_logged h c
  · obtain ⟨new, h, c⟩ := EEPROM_25LC040A.ee_writeArray_obs spi fuel address buf length h0
    exact disciplined_of_logged h c
  · obtain ⟨new, h, c⟩ := EEPROM_25LC040A.ee_setBit_obs spi fuel address bit h0
    exact disciplined_of_logged h c
  · obtain ⟨new, h, c⟩ := EEPROM_25LC040A.ee_clearBit_obs spi fuel address bit h0
    exact disciplined_of_logged h c
  · obtain ⟨new, h, c⟩ := NOR_W25Q128.nor_readByte_obs spi address h0
    exact disciplined_of_logged h c
  · obtain ⟨new, h, c⟩ := NOR_W25Q128.nor_writeByte_obs spi fuel address value h0
    exact disciplined_of_logged h c
  · obtain ⟨new, h, c⟩ := NOR_W25Q128.nor_readArray_obs spi address buf length h0
    exact disciplined_of_logged h c
  · obtain ⟨new, h, c⟩ := NOR_W25Q128.nor_writeArray_obs spi fuel address buf length h0
    exact disciplined_of_logged h c
  · refine ⟨[], ?_, allCommands_nil _⟩
    unfold NOR_W25Q128.setBit
    split <;> rfl
  · obtain ⟨new, h, c⟩ := NOR_W25Q128.nor_clearBit_obs spi fuel address bit h0
    exact disciplined_of_logged h c
  · obtain ⟨new, h, c⟩ := NOR_W25Q128.nor_eraseSector_obs spi fuel address h0
    exact disciplined_of_logged h c

/-- C14: wire format of a byte read.  For a valid address, `readByte` emits
exactly: assert chip select, exchange `0x03`, exchange the address bytes most
significant first (2 bytes for the EEPROM, 3 for the NOR flash), one exchange
of `0x00`, deassert; the address bytes decode big-endian to the address, and
the value returned is the byte the transport answered to the last
exchange. -/
theorem readByte_wire_format {σ : Type} (spi : ISpiDriver σ) (s : σ) (ae an : Nat)
    (he : ae < 512) (hn : an < 16777216) :
    (∃ r1 r2 r3,
      (EEPROM_25LC040A.readByte (observed spi) ae (s, [])).2.2
        = [IoEvent.cs true, IoEvent.xfer 0x03 r1, IoEvent.xfer (ae / 256) r2,
            IoEvent.xfer (ae % 256) r3,
            IoEvent.xfer 0x00 (EEPROM_25LC040A.readByte (observed spi) ae (s, [])).1,
            IoEvent.cs false]) ∧
    ae / 256 < 256 ∧ ae / 256 * 256 + ae % 256 = ae ∧
    (∃ r1 r2 r3 r4,
      (NOR_W25Q128.readByte (observed spi) an (s, [])).2.2
        = [IoEvent.cs true, IoEvent.xfer 0x03 r1, IoEvent.xfer (an / 65536) r2,
            IoEvent.xfer (an / 256 % 256) r3, IoEvent.xfer (an % 256) r4,
            IoEvent.xfer 0x00 (NOR_W25Q128.readByte (observed spi) an (s, [])).1,
            IoEvent.cs false]) ∧
    an / 65536 < 256 ∧ an / 65536 * 65536 + an / 256 % 256 * 256 + an % 256 = an := by
  have e1 : ae &&& 0xFF = ae % 256 := Nat.and_pow_two_sub_one_eq_mod ae 8
  have e2 : an &&& 0xFF = an % 256 := Nat.and_pow_two_sub_one_eq_mod an 8
  have e3 : (ae >>> 8) % 256 = ae / 256 := by
    rw [Nat.shiftRight_eq_div_pow]; omega
  have e4 : (an >>> 16) % 256 = an / 65536 := by
    rw [Nat.shiftRight_eq_div_pow]; omega
  have e5 : (an >>> 8) % 256 = an / 256 % 256 := by
    rw [Nat.shiftRight_eq_div_pow]
  have g1 : ¬ ae ≥ EEPROM_25LC040A.getSize := by simp only [EEPROM_25LC040A.getSize]; omega
  have g2 : ¬ an ≥ NOR_W25Q128.getSize := by simp only [NOR_W25Q128.getSize]; omega
  refine ⟨?_, by omega, by omega, ?_, by omega, by omega⟩
  · have h := obs_release spi (obs_xfer spi 0x00 (obs_xfer spi (ae % 256)
      (obs_xfer spi (ae / 256) (obs_xfer spi EEPROM_25LC040A.CMD_READ
        (obs_select spi (logged_start s))))))
    simp only [Logged, render, Segment.events, openTxn, List.nil_append, List.map_cons,
      List.map_nil, List.cons_append, List.append_nil, EEPROM_25LC040A.CMD_READ] at h
    simp only [EEPROM_25LC040A.readByte, g1, if_false, e1, e3, Nat.mod_mod,
      EEPROM_25LC040A.CMD_READ]
    exact ⟨_, _, _, h⟩
  · have h := obs_release spi (obs_xfer spi 0x00 (obs_xfer spi (an % 256)
      (obs_xfer spi (an / 256 % 256) (obs_xfer spi (an / 65536)
        (obs_xfer spi NOR_W25Q128.CMD_READ (obs_select spi (logged_start s)))))))
    simp only [Logged, render, Segment.events, openTxn, List.nil_append, List.map_cons,
      List.map_nil, List.cons_append, List.append_nil, NOR_W25Q128.CMD_READ] at h
    simp only [NOR_W25Q128.readByte, g2, if_false, e2, e4, e5, Nat.mod_mod,
      NOR_W25Q128.CMD_READ]
    exact ⟨_, _, _, _, h⟩


/-- The trace of a polling loop that sees `k` busy polls and then a ready one. -/
theorem pollTrace_unfold (k : Nat) :
    (List.replicate (k + 1)
        [Event.cs true, Event.xfer 0x05, Event.xfer 0x00, Event.cs false, Event.delay 100]).flatten
      ++ [Event.cs true, Event.xfer 0x05, Event.xfer 0x00, Event.cs false]
    = [Event.cs true, Event.xfer 0x05, Event.xfer 0x00, Event.cs false, Event.delay 100]
      ++ ((List.replicate k
        [Event.cs true, Event.xfer 0x05, Event.xfer 0x00, Event.cs false, Event.delay 100]).flatten
      ++ [Event.cs true, Event.xfer 0x05, Event.xfer 0x00, Event.cs false]) := by
  simp [List.replicate_succ]

section polling
variable {σ : Type} (spi : ISpiDriver σ)

theorem ee_wait_busyThenReady (k : Nat) : ∀ (fuel : Nat) (s : σ) (tr : List Event),
    BusyThenReady spi k s → k < fuel →
    ∃ s', EEPROM_25LC040A.waitForWriteComlete (logged spi) fuel (s, tr)
      = Run.done (s', tr ++ ((List.replicate k
          [Event.cs true, Event.xfer 0x05, Event.xfer 0x00, Event.cs false,
            Event.delay 100]).flatten
        ++ [Event.cs true, Event.xfer 0x05, Event.xfer 0x00, Event.cs false])) := by
  induction k with
  | zero =>
    intro fuel s tr hb hf
    obtain ⟨n, rfl⟩ : ∃ n, fuel = n + 1 := ⟨fuel - 1, by omega⟩
    have hz : pollStatus spi s &&& 0x01 = 0 := hb
    refine ⟨pollDone spi s, ?_⟩
    simp only [EEPROM_25LC040A.waitForWriteComlete]
    rw [if_pos (by simpa [pollStatus, logged, EEPROM_25LC040A.CMD_RDSR] using hz)]
    simp [logged, pollDone, EEPROM_25LC040A.CMD_RDSR]
  | succ k ih =>
    intro fuel s tr hb hf
    obtain ⟨n, rfl⟩ : ∃ n, fuel = n + 1 := ⟨fuel - 1, by omega⟩
    obtain ⟨hz, hrest⟩ : ¬ (pollStatus spi s &&& 0x01 = 0) ∧
      BusyThenReady spi k (spi.delayUs 100 (pollDone spi s)) := hb
    obtain ⟨s', hs'⟩ := ih n (spi.delayUs 100 (pollDone spi s))
      (tr ++ [Event.cs true, Event.xfer 0x05, Event.xfer 0x00, Event.cs false, Event.delay 100])
      hrest (by omega)
    refine ⟨s', ?_⟩
    simp only [EEPROM_25LC040A.waitForWriteComlete]
    rw [if_neg (by simpa [pollStatus, logged, EEPROM_25LC040A.CMD_RDSR] using hz)]
    rw [pollTrace_unfold, ← List.append_assoc, ← hs']
    simp [logged, pollDone, EEPROM_25LC040A.CMD_RDSR]

theorem ee_wait_finished (fuel : Nat) : ∀ (s : σ) (tr : List Event),
    (EEPROM_25LC040A.waitForWriteComlete (logged spi) fuel (s, tr)).finished = true →
    ∃ k, k < fuel ∧ BusyThenReady spi k s := by
  induction fuel with
  | zero => intro s tr h; simp [EEPROM_25LC040A.waitForWriteComlete, Run.finished] at h
  | succ n ih =>
    intro s tr h
    by_cases hz : pollStatus spi s &&& 0x01 = 0
    · exact ⟨0, by omega, hz⟩
    · simp only [EEPROM_25LC040A.waitForWriteComlete] at h
      rw [if_neg (by simpa [pollStatus, logged, EEPROM_25LC040A.CMD_RDSR] using hz)] at h
      obtain ⟨k, hk, hb⟩ := ih (spi.delayUs 100 (pollDone spi s)) _ h
      exact ⟨k + 1, by omega, hz, hb⟩

theorem nor_wait_busyThenReady (k : Nat) : ∀ (fuel : Nat) (s : σ) (tr : List Event),
    BusyThenReady spi k s → k < fuel →
    ∃ s', NOR_W25Q128.waitForReady (logged spi) fuel (s, tr)
      = Run.done (s', tr ++ ((List.replicate k
          [Event.cs true, Event.xfer 0x05, Event.xfer 0x00, Event.cs false,
            Event.delay 100]).flatten
        ++ [Event.cs true, Event.xfer 0x05, Event.xfer 0x00, Event.cs false])) := by
  induction k with
  | zero =>
    intro fuel s tr hb hf
    obtain ⟨n, rfl⟩ : ∃ n, fuel = n + 1 := ⟨fuel - 1, by omega⟩
    have hz : pollStatus spi s &&& 0x01 = 0 := hb
    refine ⟨pollDone spi s, ?_⟩
    simp only [NOR_W25Q128.waitForReady]
    rw [if_pos (by simpa [pollStatus, logged, NOR_W25Q128.CMD_RDSR1] using hz)]
    simp [logged, pollDone, NOR_W25Q128.CMD_RDSR1]
  | succ k ih =>
    intro fuel s tr hb hf
    obtain ⟨n, rfl⟩ : ∃ n, fuel = n + 1 := ⟨fuel - 1, by omega⟩
    obtain ⟨hz, hrest⟩ : ¬ (pollStatus spi s &&& 0x01 = 0) ∧
      BusyThenReady spi k (spi.delayUs 100 (pollDone spi s)) := hb
    obtain ⟨s', hs'⟩ := ih n (spi.delayUs 100 (pollDone spi s))
      (tr ++ [Event.cs true, Event.xfer 0x05, Event.xfer 0x00, Event.cs false, Event.delay 100])
      hrest (by omega)
    refine ⟨s', ?_⟩
    simp only [NOR_W25Q128.waitForReady]
    rw [if_neg (by simpa [pollStatus, logged, NOR_W25Q128.CMD_RDSR1] using hz)]
    rw [pollTrace_unfold, ← List.append_assoc, ← hs']
    simp [logged, pollDone, NOR_W25Q128.CMD_RDSR1]

theorem nor_wait_finished (fuel : Nat) : ∀ (s : σ) (tr : List Event),
    (NOR_W25Q128.waitForReady (logged spi) fuel (s, tr)).finished = true →
    ∃ k, k < fuel ∧ BusyThenReady spi k s := by
  induction fuel with
  | zero => intro s tr h; simp [NOR_W25Q128.waitForReady, Run.finished] at h
  | succ n ih =>
    intro s tr h
    by_cases hz : pollStatus spi s &&& 0x01 = 0
    · exact ⟨0, by omega, hz⟩
    · simp only [NOR_W25Q128.waitForReady] at h
      rw [if_neg (by simpa [pollStatus, logged, NOR_W25Q128.CMD_RDSR1] using hz)] at h
      obtain ⟨k, hk, hb⟩ := ih (spi.delayUs 100 (pollDone spi s)) _ h
      exact ⟨k + 1, by omega, hz, hb⟩

end polling

theorem pollTrace_counts (k : Nat) :
    List.count (Event.delay 100)
      ((List.replicate k
        [Event.cs true, Event.xfer 0x05, Event.xfer 0x00, Event.cs false,
          Event.delay 100]).flatten
      ++ [Event.cs true, Event.xfer 0x05, Event.xfer 0x00, Event.cs false]) = k ∧
    transactions
      ((List.replicate k
        [Event.cs true, Event.xfer 0x05, Event.xfer 0x00, Event.cs false,
          Event.delay 100]).flatten
      ++ [Event.cs true, Event.xfer 0x05, Event.xfer 0x00, Event.cs false])
      = List.replicate (k + 1) [0x05, 0x00] := by
  have hp : ∀ k, Event.parse ((List.replicate k
        [Event.cs true, Event.xfer 0x05, Event.xfer 0x00, Event.cs false,
          Event.delay 100]).flatten) = (List.replicate k [0x05, 0x00], none) := by
    intro k
    induction k with
    | zero => rfl
    | succ k ih =>
      rw [List.replicate_succ', List.flatten_append, parse_append, ih]
      simp [Event.step, List.replicate_succ']
  constructor
  · induction k with
    | zero => decide
    | succ k ih =>
      rw [List.replicate_succ, List.flatten_cons, List.append_assoc, List.count_append, ih]
      have : List.count (Event.delay 100) [Event.cs true, Event.xfer 0x05, Event.xfer 0x00,
          Event.cs false, Event.delay 100] = 1 := by decide
      omega
  · rw [transactions, parse_append, hp k]
    simp [Event.step, List.replicate_succ']


/-- C18: completion polling.  If from state `s` on the transport answers the
first `k` status polls with bit 0 set and poll `k + 1` with bit 0 clear, then
both polling loops, given a budget above `k`, return with exactly this trace:
`k` times `[assert, exchange 0x05, exchange 0x00, deassert, delay 100]`, then
`[assert, exchange 0x05, exchange 0x00, deassert]`; that is `k + 1` status
transactions and `k` delays of 100 microseconds, one after each busy poll.
And whenever a loop returns, the poll it returned after read bit 0 clear and
all polls before it read bit 0 set. -/
theorem completion_polling {σ : Type} (spi : ISpiDriver σ) (s : σ) (k fuel : Nat)
    (hb : BusyThenReady spi k s) (hf : k < fuel) :
    (∃ s', EEPROM_25LC040A.waitForWriteComlete (logged spi) fuel (s, [])
      = Run.done (s', (List.replicate k
          [Event.cs true, Event.xfer 0x05, Event.xfer 0x00, Event.cs false,
            Event.delay 100]).flatten
        ++ [Event.cs true, Event.xfer 0x05, Event.xfer 0x00, Event.cs false])) ∧
    (∃ s', NOR_W25Q128.waitForReady (logged spi) fuel (s, [])
      = Run.done (s', (List.replicate k
          [Event.cs true, Event.xfer 0x05, Event.xfer 0x00, Event.cs false,
            Event.delay 100]).flatten
        ++ [Event.cs true, Event.xfer 0x05, Event.xfer 0x00, Event.cs false])) ∧
    List.count (Event.delay 100)
      ((List.replicate k
        [Event.cs true, Event.xfer 0x05, Event.xfer 0x00, Event.cs false,
          Event.delay 100]).flatten
      ++ [Event.cs true, Event.xfer 0x05, Event.xfer 0x00, Event.cs false]) = k ∧
    transactions
      ((List.replicate k
        [Event.cs true, Event.xfer 0x05, Event.xfer 0x00, Event.cs false,
          Event.delay 100]).flatten
      ++ [Event.cs true, Event.xfer 0x05, Event.xfer 0x00, Event.cs false])
      = List.replicate (k + 1) [0x05, 0x00] ∧
    (∀ (budget : Nat) (s0 : σ),
      (EEPROM_25LC040A.waitForWriteComlete (logged spi) budget (s0, [])).finished = true →
      ∃ j, j < budget ∧ BusyThenReady spi j s0) ∧
    (∀ (budget : Nat) (s0 : σ),
      (NOR_W25Q128.waitForReady (logged spi) budget (s0, [])).finished = true →
      ∃ j, j < budget ∧ BusyThenReady spi j s0) := by
  refine ⟨?_, ?_, (pollTrace_counts k).1, (pollTrace_counts k).2, ?_, ?_⟩
  · simpa using ee_wait_busyThenReady spi k fuel s [] hb hf
  · simpa using nor_wait_busyThenReady spi k fuel s [] hb hf
  · intro budget s0 h; exact ee_wait_finished spi budget s0 [] h
  · intro budget s0 h; exact nor_wait_finished spi budget s0 [] h


theorem ee_chunkOuts_forty (a : Nat) (data : Nat → Nat) (hfit : a + 40 ≤ 512) :
    EEPROM_25LC040A.chunkOuts a data 40 40 0
      = [[0x06], 0x02 :: (a / 256) :: (a % 256) :: (List.range 16).map (fun i => data i),
          [0x05, 0x00],
         [0x06], 0x02 :: ((a + 16) / 256) :: ((a + 16) % 256)
            :: (List.range 16).map (fun i => data (16 + i)), [0x05, 0x00],
         [0x06], 0x02 :: ((a + 32) / 256) :: ((a + 32) % 256)
            :: (List.range 8).map (fun i => data (32 + i)), [0x05, 0x00]] := by
  have c0 : EEPROM_25LC040A.chunkAt 40 0 = 16 := by decide
  have c1 : EEPROM_25LC040A.chunkAt 40 16 = 16 := by decide
  have c2 : EEPROM_25LC040A.chunkAt 40 32 = 8 := by decide
  have p0 := EEPROM_25LC040A.ee_programTx_addr a data 40 0 hfit (by decide)
  have p1 := EEPROM_25LC040A.ee_programTx_addr a data 40 16 hfit (by decide)
  have p2 := EEPROM_25LC040A.ee_programTx_addr a data 40 32 hfit (by decide)
  rw [c0] at p0; rw [c1] at p1; rw [c2] at p2
  have e0 : EEPROM_25LC040A.chunkOuts a data 40 40 0
      = [EEPROM_25LC040A.CMD_WREN] :: EEPROM_25LC040A.programTx a data 40 0 ::
        [EEPROM_25LC040A.CMD_RDSR, 0x00] :: EEPROM_25LC040A.chunkOuts a data 40 39 16 := by
    rw [show (40 : Nat) = 39 + 1 from rfl, EEPROM_25LC040A.chunkOuts, if_pos (by decide), c0]
  have e1 : EEPROM_25LC040A.chunkOuts a data 40 39 16
      = [EEPROM_25LC040A.CMD_WREN] :: EEPROM_25LC040A.programTx a data 40 16 ::
        [EEPROM_25LC040A.CMD_RDSR, 0x00] :: EEPROM_25LC040A.chunkOuts a data 40 38 32 := by
    rw [show (39 : Nat) = 38 + 1 from rfl, EEPROM_25LC040A.chunkOuts, if_pos (by decide), c1]
  have e2 : EEPROM_25LC040A.chunkOuts a data 40 38 32
      = [EEPROM_25LC040A.CMD_WREN] :: EEPROM_25LC040A.programTx a data 40 32 ::
        [EEPROM_25LC040A.CMD_RDSR, 0x00] :: EEPROM_25LC040A.chunkOuts a data 40 37 40 := by
    rw [show (38 : Nat) = 37 + 1 from rfl, EEPROM_25LC040A.chunkOuts, if_pos (by decide), c2]
  have e3 : EEPROM_25LC040A.chunkOuts a data 40 37 40 = [] :=
    EEPROM_25LC040A.ee_chunkOuts_done a data 40 37 40 (by decide)
  rw [e0, e1, e2, e3, p0, p1, p2]
  simp [EEPROM_25LC040A.CMD_WREN, EEPROM_25LC040A.CMD_RDSR]

/-- C12: shape of a 40-byte EEPROM bulk write.  For every start address `a`
with `a + 40 ≤ 512` (mid-page or not), on a transport that answers every
status read with bit 0 clear and with a budget of at least one poll,
`writeArray(a, data, 40)` returns and emits exactly: write enable, program of
16 bytes at `a`, status poll; write enable, program of 16 bytes at `a + 16`,
status poll; write enable, program of 8 bytes at `a + 32`, status poll.  So
there are exactly 3 program transactions, each with at most 16 payload
bytes, each directly after a write enable and directly before a poll. -/
theorem eeprom_bulk_write_shape {σ : Type} (spi : ISpiDriver σ) (s : σ) (fuel a : Nat)
    (data : Nat → Nat) (hfit : a + 40 ≤ 512) (hfuel : 0 < fuel)
    (hquiet : ∀ s, (spi.transfer 0x00 s).1 &&& 0x01 = 0) :
    (EEPROM_25LC040A.writeArray (observed spi) fuel a (some data) 40 (s, [])).finished = true ∧
    ∃ segs,
      (EEPROM_25LC040A.writeArray (observed spi) fuel a (some data) 40 (s, [])).state.2
        = render segs ∧
      outTransactions segs
        = [[0x06], 0x02 :: (a / 256) :: (a % 256) :: (List.range 16).map (fun i => data i),
            [0x05, 0x00],
           [0x06], 0x02 :: ((a + 16) / 256) :: ((a + 16) % 256)
              :: (List.range 16).map (fun i => data (16 + i)), [0x05, 0x00],
           [0x06], 0x02 :: ((a + 32) / 256) :: ((a + 32) % 256)
              :: (List.range 8).map (fun i => data (32 + i)), [0x05, 0x00]] ∧
      (programs segs).length = 3 ∧
      ∀ p ∈ programs segs, p.length - 3 ≤ 16 := by
  have hg : ¬ (a + 40) % 2 ^ SIZE_BITS > EEPROM_25LC040A.getSize := by
    rw [Nat.mod_eq_of_lt (by simp only [SIZE_BITS]; norm_num; omega)]
    simp only [EEPROM_25LC040A.getSize]; omega
  simp only [EEPROM_25LC040A.writeArray, hg, if_false]
  obtain ⟨new, hnew, hcs⟩ := EEPROM_25LC040A.ee_writeChunks_obs spi fuel a data 40 40 0
    (by omega) (logged_start s)
  obtain ⟨hfin, hout⟩ := EEPROM_25LC040A.ee_chunkSegs_quiet hquiet hfuel hcs
  have hout' := hout 40 (by omega)
  rw [ee_chunkOuts_forty a data hfit] at hout'
  refine ⟨hfin, new, by simpa [Logged] using hnew, hout', ?_, ?_⟩
  · simp [programs, hout']
  · intro p hp
    simp [programs, hout'] at hp
    rcases hp with h | h | h <;> subst h <;> simp

theorem eeprom_bulk_write_shape_witness :
    (8 + 40 ≤ 512 ∧ 0 < 1 ∧ ∀ s, ((scripted (fun _ => 0)).transfer 0x00 s).1 &&& 0x01 = 0) ∧
    (EEPROM_25LC040A.writeArray (observed (scripted (fun _ => 0))) 1 8 (some (fun i => i + 1))
      40 (0, [])).finished = true ∧
    ∃ segs,
      (EEPROM_25LC040A.writeArray (observed (scripted (fun _ => 0))) 1 8
        (some (fun i => i + 1)) 40 (0, [])).state.2 = render segs ∧
      outTransactions segs
        = [[0x06], 0x02 :: (8 / 256) :: (8 % 256) :: (List.range 16).map (fun i => i + 1),
            [0x05, 0x00],
           [0x06], 0x02 :: ((8 + 16) / 256) :: ((8 + 16) % 256)
              :: (List.range 16).map (fun i => (16 + i) + 1), [0x05, 0x00],
           [0x06], 0x02 :: ((8 + 32) / 256) :: ((8 + 32) % 256)
              :: (List.range 8).map (fun i => (32 + i) + 1), [0x05, 0x00]] ∧
      (programs segs).length = 3 ∧
      ∀ p ∈ programs segs, p.length - 3 ≤ 16 :=
  ⟨⟨by decide, by decide, fun _ => by simp [scripted]⟩,
    eeprom_bulk_write_shape (scripted (fun _ => 0)) 0 1 8 (fun i => i + 1) (by decide)
      (by decide) (fun _ => by simp [scripted])⟩

theorem readByte_wire_format_witness :
    (291 < 512 ∧ 1193046 < 16777216) ∧
    (∃ r1 r2 r3,
      (EEPROM_25LC040A.readByte (observed (scripted (fun k => k + 10))) 291 (0, [])).2.2
        = [IoEvent.cs true, IoEvent.xfer 0x03 r1, IoEvent.xfer (291 / 256) r2,
            IoEvent.xfer (291 % 256) r3,
            IoEvent.xfer 0x00
              (EEPROM_25LC040A.readByte (observed (scripted (fun k => k + 10))) 291 (0, [])).1,
            IoEvent.cs false]) ∧
    (EEPROM_25LC040A.readByte (observed (scripted (fun k => k + 10))) 291 (0, [])).1 = 13 :=
  ⟨by decide, (readByte_wire_format (scripted (fun k => k + 10)) 0 291 1193046 (by decide)
    (by decide)).1, by decide⟩

theorem completion_polling_witness :
    (BusyThenReady (scripted (fun j => if j < 4 then 1 else 0)) 2 0 ∧ 2 < 5) ∧
    ∃ s', EEPROM_25LC040A.waitForWriteComlete
        (logged (scripted (fun j => if j < 4 then 1 else 0))) 5 (0, [])
      = Run.done (s', (List.replicate 2
          [Event.cs true, Event.xfer 0x05, Event.xfer 0x00, Event.cs false,
            Event.delay 100]).flatten
        ++ [Event.cs true, Event.xfer 0x05, Event.xfer 0x00, Event.cs false]) :=
  ⟨⟨by simp [BusyThenReady, pollStatus, pollDone, scripted], by decide⟩,
    (completion_polling (scripted (fun j => if j < 4 then 1 else 0)) 0 2 5
      (by simp [BusyThenReady, pollStatus, pollDone, scripted]) (by decide)).1⟩

end MemoryDriver

/-! # Theorems about the pool allocator -/

namespace PoolAllocator

theorem findLoop_spec : ∀ (n inv bit : Nat), inv ≠ 0 → inv < 2 ^ n →
    ∃ k, findLoop n inv bit = bit + k ∧ k < n ∧ inv.testBit k = true ∧
      ∀ j, j < k → inv.testBit j = false := by
  intro n
  induction n with
  | zero => intro inv bit h0 hlt; simp at hlt; exact absurd hlt h0
  | succ n ih =>
    intro inv bit h0 hlt
    rw [findLoop]
    by_cases h : inv &&& 1 = 0
    · rw [if_pos h]
      rw [Nat.and_one_is_mod] at h
      have h1 : inv >>> 1 = inv / 2 := by simp [Nat.shiftRight_eq_div_pow]
      rw [h1]
      have h2 : inv / 2 ≠ 0 := by omega
      have h3 : inv / 2 < 2 ^ n := by rw [pow_succ] at hlt; omega
      obtain ⟨k, e, hk, ht, hl⟩ := ih (inv / 2) (bit + 1) h2 h3
      refine ⟨k + 1, by rw [e]; omega, by omega, ?_, ?_⟩
      · rw [Nat.testBit_succ]; exact ht
      · intro j hj
        cases j with
        | zero => rw [Nat.testBit_zero]; simp [h]
        | succ j => rw [Nat.testBit_succ]; exact hl j (by omega)
    · rw [if_neg h]
      rw [Nat.and_one_is_mod] at h
      refine ⟨0, rfl, by omega, ?_, ?_⟩
      · rw [Nat.testBit_zero]; simp; omega
      · intro j hj; omega

theorem testBit_complement (word j : Nat) (hw : word < 2 ^ 32) :
    (2 ^ 32 - 1 - word).testBit j = (decide (j < 32) && !word.testBit j) := by
  have e : 2 ^ 32 - 1 - word = 2 ^ 32 - (word + 1) := by omega
  rw [e, Nat.testBit_two_pow_sub_succ hw]

theorem find_free_bit_full : find_free_bit 0xFFFFFFFF = -1 := by decide

theorem find_free_bit_spec (word : Nat) (hw : word < 2 ^ 32) (hne : word ≠ 0xFFFFFFFF) :
    ∃ b : Nat, b < 32 ∧ find_free_bit word = (b : Int) ∧ word.testBit b = false ∧
      ∀ j : Nat, j < b → word.testBit j = true := by
  have h0 : 2 ^ 32 - 1 - word ≠ 0 := by omega
  have hlt : 2 ^ 32 - 1 - word < 2 ^ 32 := by omega
  obtain ⟨k, e, hk, ht, hl⟩ := findLoop_spec 32 _ 0 h0 hlt
  refine ⟨k, hk, ?_, ?_, ?_⟩
  · simp only [find_free_bit]
    rw [if_neg h0, e]; simp
  · rw [testBit_complement _ _ hw] at ht
    simpa [hk] using ht
  · intro j hj
    have := hl j hj
    rw [testBit_complement _ _ hw] at this
    have hj32 : j < 32 := by omega
    simpa [hj32] using this

theorem testBit_mark (word b j : Nat) (hw : word < 2 ^ 32) (hb : b < 32) :
    ((word ||| (1 <<< b)) % 2 ^ 32).testBit j = (word.testBit j || decide (j = b)) := by
  rw [Nat.testBit_mod_two_pow, Nat.testBit_or, Nat.one_shiftLeft, Nat.testBit_two_pow]
  by_cases hj : j < 32
  · simp [hj, eq_comm]
  · have h1 : word.testBit j = false :=
      Nat.testBit_lt_two_pow (lt_of_lt_of_le hw (Nat.pow_le_pow_right (by omega) (by omega)))
    have h2 : j ≠ b := by omega
    simp [hj, h1, h2]

theorem mark_lt (word b : Nat) : (word ||| (1 <<< b)) % 2 ^ 32 < 2 ^ 32 :=
  Nat.mod_lt _ (by norm_num)

theorem testBit_unmark (word b j : Nat) (hw : word < 2 ^ 32) (hb : b < 32) :
    (word &&& (2 ^ 32 - 1 - (1 <<< b))).testBit j = (word.testBit j && !decide (j = b)) := by
  have hp : 2 ^ b < 2 ^ 32 := Nat.pow_lt_pow_right (by omega) hb
  rw [Nat.testBit_and, Nat.one_shiftLeft, testBit_complement _ _ hp, Nat.testBit_two_pow]
  by_cases hj : j < 32
  · simp [hj, eq_comm]
  · have h1 : word.testBit j = false :=
      Nat.testBit_lt_two_pow (lt_of_lt_of_le hw (Nat.pow_le_pow_right (by omega) (by omega)))
    simp [h1]

theorem unmark_lt (word m : Nat) (hw : word < 2 ^ 32) : word &&& m < 2 ^ 32 :=
  lt_of_le_of_lt Nat.and_le_left hw

theorem used_setWord (bm : Nat → Nat) (i v index : Nat) :
    used (setWord bm i v) index =
      if index / 32 = i then v.testBit (index % 32) else used bm index := by
  simp only [used, setWord]
  split <;> rfl

theorem testBit_full (j : Nat) (hj : j < 32) : Nat.testBit 0xFFFFFFFF j = true := by
  have h := testBit_complement 0 j (by norm_num)
  simp only [Nat.sub_zero, Nat.zero_testBit, Bool.not_false, Bool.and_true] at h
  have e : (0xFFFFFFFF : Nat) = 2 ^ 32 - 1 := by norm_num
  rw [e, h]; simp [hj]

theorem scan_step_full (max : Nat) (bm : Nat → Nat) (n i : Nat) (h : bm i = 0xFFFFFFFF) :
    scan max bm (n + 1) i = scan max bm n (i + 1) := by
  rw [scan]; simp [h]

theorem scan_step_free (max : Nat) (bm : Nat → Nat) (n i b : Nat) (h : bm i ≠ 0xFFFFFFFF)
    (hb : find_free_bit (bm i) = (b : Int)) :
    scan max bm (n + 1) i =
      if i * 32 + b < max then
        some (i * 32 + b, setWord bm i ((bm i ||| (1 <<< b)) % 2 ^ 32))
      else scan max bm n (i + 1) := by
  rw [scan]; simp [h, hb]

theorem scan_some (max : Nat) (bm : Nat → Nat) : ∀ (n i0 index : Nat) (bm' : Nat → Nat),
    (∀ i, i < i0 + n → bm i < 2 ^ 32) →
    scan max bm n i0 = some (index, bm') →
    index < max ∧ i0 * 32 ≤ index ∧ index < (i0 + n) * 32 ∧ used bm index = false ∧
      bm' = setWord bm (index / 32)
        ((bm (index / 32) ||| (1 <<< (index % 32))) % 2 ^ 32) := by
  intro n
  induction n with
  | zero => intro i0 index bm' _ h; simp [scan] at h
  | succ n ih =>
    intro i0 index bm' hw h
    have rec : scan max bm n (i0 + 1) = some (index, bm') →
        index < max ∧ i0 * 32 ≤ index ∧ index < (i0 + (n + 1)) * 32 ∧ used bm index = false ∧
        bm' = setWord bm (index / 32)
          ((bm (index / 32) ||| (1 <<< (index % 32))) % 2 ^ 32) := by
      intro h'
      obtain ⟨a, b, c, d, e⟩ := ih (i0 + 1) index bm' (fun i hi => hw i (by omega)) h'
      exact ⟨a, by omega, by omega, d, e⟩
    by_cases hf : bm i0 = 0xFFFFFFFF
    · rw [scan_step_full _ _ _ _ hf] at h
      exact rec h
    · obtain ⟨b, hb, e, hz, _⟩ := find_free_bit_spec (bm i0) (hw i0 (by omega)) hf
      rw [scan_step_free _ _ _ _ b hf e] at h
      by_cases hm : i0 * 32 + b < max
      · rw [if_pos hm] at h
        simp only [Option.some.injEq, Prod.mk.injEq] at h
        obtain ⟨h1, h2⟩ := h
        subst h1
        have d1 : (i0 * 32 + b) / 32 = i0 := by omega
        have d2 : (i0 * 32 + b) % 32 = b := by omega
        refine ⟨hm, by omega, by omega, ?_, ?_⟩
        · simp only [used, d1, d2]; exact hz
        · rw [d1, d2]; exact h2.symm
      · rw [if_neg hm] at h
        exact rec h

theorem scan_none (max : Nat) (bm : Nat → Nat) : ∀ (n i0 : Nat),
    (∀ i, i < i0 + n → bm i < 2 ^ 32) →
    scan max bm n i0 = none →
    ∀ index, i0 * 32 ≤ index → index < (i0 + n) * 32 → index < max →
      used bm index = true := by
  intro n
  induction n with
  | zero => intro i0 _ _ index h1 h2 _; omega
  | succ n ih =>
    intro i0 hw h index h1 h2 h3
    by_cases hf : bm i0 = 0xFFFFFFFF
    · rw [scan_step_full _ _ _ _ hf] at h
      by_cases hi : index < (i0 + 1) * 32
      · have d1 : index / 32 = i0 := by omega
        simp only [used, d1, hf]
        exact testBit_full _ (Nat.mod_lt _ (by norm_num))
      · exact ih (i0 + 1) (fun i hi => hw i (by omega)) h index (by omega) (by omega) h3
    · obtain ⟨b, hb, e, _, hl⟩ := find_free_bit_spec (bm i0) (hw i0 (by omega)) hf
      rw [scan_step_free _ _ _ _ b hf e] at h
      by_cases hm : i0 * 32 + b < max
      · rw [if_pos hm] at h; simp at h
      · rw [if_neg hm] at h
        by_cases hi : index < (i0 + 1) * 32
        · have d1 : index / 32 = i0 := by omega
          simp only [used, d1]
          exact hl _ (by omega)
        · exact ih (i0 + 1) (fun i hi => hw i (by omega)) h index (by omega) (by omega) h3

/-- What a successful scan does to the bitmap. -/
theorem scan_effect (max : Nat) (bm : Nat → Nat) (n index : Nat) (bm' : Nat → Nat)
    (hw : ∀ i, i < n → bm i < 2 ^ 32) (h : scan max bm n 0 = some (index, bm')) :
    index < max ∧ index < n * 32 ∧ used bm index = false ∧ used bm' index = true ∧
      (∀ j, j ≠ index → used bm' j = used bm j) ∧ (∀ i, i < n → bm' i < 2 ^ 32) := by
  obtain ⟨a, _, c, d, e⟩ := scan_some max bm n 0 index bm' (by simpa using hw) h
  have hi : index / 32 < n := by omega
  have hb : index % 32 < 32 := Nat.mod_lt _ (by norm_num)
  refine ⟨a, by omega, d, ?_, ?_, ?_⟩
  · rw [e, used_setWord, if_pos rfl, testBit_mark _ _ _ (hw _ hi) hb]; simp
  · intro j hj
    rw [e, used_setWord]
    by_cases hji : j / 32 = index / 32
    · rw [if_pos hji, testBit_mark _ _ _ (hw _ hi) hb]
      have : j % 32 ≠ index % 32 := by omega
      simp [used, hji, this]
    · rw [if_neg hji]
  · intro i hi'
    rw [e]
    simp only [setWord]
    split
    · exact mark_lt _ _
    · exact hw i hi'

theorem SMALL_ALIGNED_eq : SMALL_ALIGNED = 16 := by decide
theorem LARGE_ALIGNED_eq : LARGE_ALIGNED = 184 := by decide
theorem MAX_SMALL_eq : MAX_SMALL = 1000 := rfl
theorem MAX_LARGE_eq : MAX_LARGE = 500 := rfl
theorem SMALL_SIZE_eq : SMALL_SIZE = 15 := rfl
theorem LARGE_SIZE_eq : LARGE_SIZE = 180 := rfl

theorem malloc_zero (L : Layout) (st : Pools) : malloc L st 0 = (0, st) := by
  simp [malloc]

theorem malloc_too_large (L : Layout) (st : Pools) (size : Nat) (h : 180 < size) :
    malloc L st size = (0, st) := by
  have h0 : size ≠ 0 := by omega
  have h1 : ¬ size ≤ SMALL_SIZE := by rw [SMALL_SIZE_eq]; omega
  have h2 : ¬ size ≤ LARGE_SIZE := by rw [LARGE_SIZE_eq]; omega
  simp [malloc, h0, h1, h2]

theorem malloc_small (L : Layout) (st : Pools) (size : Nat) (h1 : 1 ≤ size) (h2 : size ≤ 15)
    (hw : ∀ i, i < (MAX_SMALL + 31) / 32 → st.small_bitmap i < 2 ^ 32) :
    (malloc L st size = (0, st) ∧ ∀ index, index < MAX_SMALL → used st.small_bitmap index = true) ∨
    (∃ index bm, index < MAX_SMALL ∧
      malloc L st size = (L.small_pool + index * SMALL_ALIGNED, { st with small_bitmap := bm }) ∧
      used st.small_bitmap index = false ∧ used bm index = true ∧
      (∀ j, j ≠ index → used bm j = used st.small_bitmap j) ∧
      (∀ i, i < (MAX_SMALL + 31) / 32 → bm i < 2 ^ 32)) := by
  have h0 : size ≠ 0 := by omega
  have h3 : size ≤ SMALL_SIZE := by rw [SMALL_SIZE_eq]; exact h2
  cases hs : scan MAX_SMALL st.small_bitmap ((MAX_SMALL + 31) / 32) 0 with
  | none =>
    left
    refine ⟨by simp [malloc, h0, h3, hs], ?_⟩
    intro index hi
    refine scan_none _ _ _ 0 (by simpa using hw) hs index (by omega) ?_ hi
    rw [MAX_SMALL_eq] at hi ⊢; omega
  | some r =>
    obtain ⟨index, bm⟩ := r
    right
    obtain ⟨a, _, c, d, e, f⟩ := scan_effect _ _ _ _ _ hw hs
    exact ⟨index, bm, a, by simp [malloc, h0, h3, hs], c, d, e, f⟩

theorem malloc_large (L : Layout) (st : Pools) (size : Nat) (h1 : 16 ≤ size) (h2 : size ≤ 180)
    (hw : ∀ i, i < (MAX_LARGE + 31) / 32 → st.large_bitmap i < 2 ^ 32) :
    (malloc L st size = (0, st) ∧ ∀ index, index < MAX_LARGE → used st.large_bitmap index = true) ∨
    (∃ index bm, index < MAX_LARGE ∧
      malloc L st size = (L.large_pool + index * LARGE_ALIGNED, { st with large_bitmap := bm }) ∧
      used st.large_bitmap index = false ∧ used bm index = true ∧
      (∀ j, j ≠ index → used bm j = used st.large_bitmap j) ∧
      (∀ i, i < (MAX_LARGE + 31) / 32 → bm i < 2 ^ 32)) := by
  have h0 : size ≠ 0 := by omega
  have h3 : ¬ size ≤ SMALL_SIZE := by rw [SMALL_SIZE_eq]; omega
  have h4 : size ≤ LARGE_SIZE := by rw [LARGE_SIZE_eq]; exact h2
  cases hs : scan MAX_LARGE st.large_bitmap ((MAX_LARGE + 31) / 32) 0 with
  | none =>
    left
    refine ⟨by simp [malloc, h0, h3, h4, hs], ?_⟩
    intro index hi
    refine scan_none _ _ _ 0 (by simpa using hw) hs index (by omega) ?_ hi
    rw [MAX_LARGE_eq] at hi ⊢; omega
  | some r =>
    obtain ⟨index, bm⟩ := r
    right
    obtain ⟨a, _, c, d, e, f⟩ := scan_effect _ _ _ _ _ hw hs
    exact ⟨index, bm, a, by simp [malloc, h0, h3, h4, hs], c, d, e, f⟩

theorem unmark_effect (bm : Nat → Nat) (n index : Nat) (hw : ∀ i, i < n → bm i < 2 ^ 32)
    (hi : index / 32 < n) :
    used (setWord bm (index / 32) (bm (index / 32) &&& (2 ^ 32 - 1 - (1 <<< (index % 32)))))
        index = false ∧
    (∀ j, j ≠ index →
      used (setWord bm (index / 32) (bm (index / 32) &&& (2 ^ 32 - 1 - (1 <<< (index % 32)))))
        j = used bm j) ∧
    (∀ i, i < n →
      setWord bm (index / 32) (bm (index / 32) &&& (2 ^ 32 - 1 - (1 <<< (index % 32)))) i
        < 2 ^ 32) := by
  have hb : index % 32 < 32 := Nat.mod_lt _ (by norm_num)
  refine ⟨?_, ?_, ?_⟩
  · rw [used_setWord, if_pos rfl, testBit_unmark _ _ _ (hw _ hi) hb]; simp
  · intro j hj
    rw [used_setWord]
    by_cases hji : j / 32 = index / 32
    · rw [if_pos hji, testBit_unmark _ _ _ (hw _ hi) hb]
      have : j % 32 ≠ index % 32 := by omega
      simp [used, hji, this]
    · rw [if_neg hji]
  · intro i hi'
    simp only [setWord]
    split
    · exact unmark_lt _ _ (hw _ hi)
    · exact hw i hi'

theorem free_null (L : Layout) (st : Pools) : free L st 0 = st := by
  simp [free]

theorem free_small (L : Layout) (st : Pools) (index : Nat) (hL : L.WellFormed)
    (hi : index < MAX_SMALL) :
    free L st (L.small_pool + index * SMALL_ALIGNED) =
      { st with small_bitmap := (setWord st.small_bitmap (index / 32)
          (st.small_bitmap (index / 32) &&& (2 ^ 32 - 1 - (1 <<< (index % 32))))) } := by
  obtain ⟨hs, _, _⟩ := hL
  rw [MAX_SMALL_eq] at hi
  have h0 : L.small_pool + index * 16 ≠ 0 := by omega
  have h1 : L.small_pool + index * 16 < L.small_pool + 1000 * 16 := by omega
  have h2 : (L.small_pool + index * 16 - L.small_pool) / 16 = index := by omega
  simp only [free, SMALL_ALIGNED_eq, MAX_SMALL_eq, if_neg h0, h2]
  rw [if_pos ⟨by omega, h1⟩]

theorem free_large (L : Layout) (st : Pools) (index : Nat) (hL : L.WellFormed)
    (hi : index < MAX_LARGE) :
    free L st (L.large_pool + index * LARGE_ALIGNED) =
      { st with large_bitmap := (setWord st.large_bitmap (index / 32)
          (st.large_bitmap (index / 32) &&& (2 ^ 32 - 1 - (1 <<< (index % 32))))) } := by
  obtain ⟨_, hl, hd⟩ := hL
  rw [MAX_LARGE_eq] at hi
  simp only [MAX_SMALL_eq, MAX_LARGE_eq, SMALL_ALIGNED_eq, LARGE_ALIGNED_eq] at hd
  have h0 : L.large_pool + index * 184 ≠ 0 := by omega
  have h1 : L.large_pool + index * 184 < L.large_pool + 500 * 184 := by omega
  have h2 : (L.large_pool + index * 184 - L.large_pool) / 184 = index := by omega
  have h3 : ¬ (L.large_pool + index * 184 ≥ L.small_pool ∧
      L.large_pool + index * 184 < L.small_pool + 1000 * 16) := by omega
  simp only [free, SMALL_ALIGNED_eq, MAX_SMALL_eq, LARGE_ALIGNED_eq, MAX_LARGE_eq, if_neg h0,
    if_neg h3, h2]
  rw [if_pos ⟨by omega, h1⟩]

theorem start_inv (L : Layout) (st : Pools) : (start st).Inv L := by
  refine ⟨?_, ?_, ?_, ?_, ?_⟩
  · intro i hi; simp [start, init_allocator, hi]
  · intro i hi; simp [start, init_allocator, hi]
  · intro p hp; simp [start] at hp
  · intro p hp; simp [start] at hp
  · simp [start]

theorem start_unused (st : Pools) :
    (∀ index, index < MAX_SMALL → used (start st).pools.small_bitmap index = false) ∧
    (∀ index, index < MAX_LARGE → used (start st).pools.large_bitmap index = false) := by
  constructor
  · intro index hi
    rw [MAX_SMALL_eq] at hi
    have h : index / 32 < (MAX_SMALL + 31) / 32 := by rw [MAX_SMALL_eq]; omega
    simp [used, start, init_allocator, h]
  · intro index hi
    rw [MAX_LARGE_eq] at hi
    have h : index / 32 < (MAX_LARGE + 31) / 32 := by rw [MAX_LARGE_eq]; omega
    simp [used, start, init_allocator, h]

theorem inv_malloc_null (L : Layout) (g : Session) (size : Nat) (hI : g.Inv L)
    (h : malloc L g.pools size = (0, g.pools)) : (step L g (Call.malloc size)).Inv L := by
  obtain ⟨w1, w2, r, lv, n⟩ := hI
  simp only [step, h]
  refine ⟨w1, w2, ?_, lv, n⟩
  intro p hp
  rcases List.mem_cons.1 hp with e | hp
  · exact Or.inl e
  · exact r p hp

theorem inv_malloc_small (L : Layout) (hL : L.WellFormed) (g : Session) (size index : Nat)
    (bm : Nat → Nat) (hI : g.Inv L) (hi : index < MAX_SMALL)
    (h : malloc L g.pools size =
      (L.small_pool + index * SMALL_ALIGNED, { g.pools with small_bitmap := bm }))
    (hf : used g.pools.small_bitmap index = false) (ht : used bm index = true)
    (ho : ∀ j, j ≠ index → used bm j = used g.pools.small_bitmap j)
    (hw : ∀ i, i < (MAX_SMALL + 31) / 32 → bm i < 2 ^ 32) :
    L.small_pool + index * SMALL_ALIGNED ∉ g.live ∧ (step L g (Call.malloc size)).Inv L := by
  obtain ⟨w1, w2, r, lv, n⟩ := hI
  obtain ⟨hs, hl, hd⟩ := hL
  have hfresh : L.small_pool + index * SMALL_ALIGNED ∉ g.live := by
    intro hm
    rcases lv _ hm with ⟨k, hk, e, u⟩ | ⟨k, hk, e, _⟩
    · have : k = index := by rw [SMALL_ALIGNED_eq] at e; omega
      rw [this, hf] at u; exact Bool.noConfusion u
    · simp only [MAX_SMALL_eq, MAX_LARGE_eq, SMALL_ALIGNED_eq, LARGE_ALIGNED_eq] at *
      omega
  refine ⟨hfresh, ?_⟩
  have hne : L.small_pool + index * SMALL_ALIGNED ≠ 0 := by omega
  simp only [step, h, if_neg hne]
  refine ⟨hw, w2, ?_, ?_, List.nodup_cons.2 ⟨hfresh, n⟩⟩
  · intro p hp
    rcases List.mem_cons.1 hp with e | hp
    · exact Or.inr (Or.inl ⟨index, hi, e⟩)
    · exact r p hp
  · intro p hp
    rcases List.mem_cons.1 hp with e | hp
    · exact Or.inl ⟨index, hi, e, ht⟩
    · rcases lv p hp with ⟨k, hk, e, u⟩ | hlarge
      · have hki : k ≠ index := by
          intro hki; rw [hki, hf] at u; exact Bool.noConfusion u
        exact Or.inl ⟨k, hk, e, by rw [ho k hki]; exact u⟩
      · exact Or.inr hlarge

theorem inv_malloc_large (L : Layout) (hL : L.WellFormed) (g : Session) (size index : Nat)
    (bm : Nat → Nat) (hI : g.Inv L) (hi : index < MAX_LARGE)
    (h : malloc L g.pools size =
      (L.large_pool + index * LARGE_ALIGNED, { g.pools with large_bitmap := bm }))
    (hf : used g.pools.large_bitmap index = false) (ht : used bm index = true)
    (ho : ∀ j, j ≠ index → used bm j = used g.pools.large_bitmap j)
    (hw : ∀ i, i < (MAX_LARGE + 31) / 32 → bm i < 2 ^ 32) :
    L.large_pool + index * LARGE_ALIGNED ∉ g.live ∧ (step L g (Call.malloc size)).Inv L := by
  obtain ⟨w1, w2, r, lv, n⟩ := hI
  obtain ⟨hs, hl, hd⟩ := hL
  have hfresh : L.large_pool + index * LARGE_ALIGNED ∉ g.live := by
    intro hm
    rcases lv _ hm with ⟨k, hk, e, _⟩ | ⟨k, hk, e, u⟩
    · simp only [MAX_SMALL_eq, MAX_LARGE_eq, SMALL_ALIGNED_eq, LARGE_ALIGNED_eq] at *
      omega
    · have : k = index := by rw [LARGE_ALIGNED_eq] at e; omega
      rw [this, hf] at u; exact Bool.noConfusion u
  refine ⟨hfresh, ?_⟩
  have hne : L.large_pool + index * LARGE_ALIGNED ≠ 0 := by omega
  simp only [step, h, if_neg hne]
  refine ⟨w1, hw, ?_, ?_, List.nodup_cons.2 ⟨hfresh, n⟩⟩
  · intro p hp
    rcases List.mem_cons.1 hp with e | hp
    · exact Or.inr (Or.inr ⟨index, hi, e⟩)
    · exact r p hp
  · intro p hp
    rcases List.mem_cons.1 hp with e | hp
    · exact Or.inr ⟨index, hi, e, ht⟩
    · rcases lv p hp with hsmall | ⟨k, hk, e, u⟩
      · exact Or.inl hsmall
      · have hki : k ≠ index := by
          intro hki; rw [hki, hf] at u; exact Bool.noConfusion u
        exact Or.inr ⟨k, hk, e, by rw [ho k hki]; exact u⟩

theorem step_malloc_inv (L : Layout) (hL : L.WellFormed) (g : Session) (size : Nat)
    (hI : g.Inv L) : (step L g (Call.malloc size)).Inv L := by
  by_cases h0 : size = 0
  · subst h0; exact inv_malloc_null L g 0 hI (malloc_zero L g.pools)
  by_cases h1 : size ≤ 15
  · rcases malloc_small L g.pools size (by omega) h1 hI.1 with ⟨e, _⟩ | ⟨k, bm, hk, e, a, b, c, d⟩
    · exact inv_malloc_null L g size hI e
    · exact (inv_malloc_small L hL g size k bm hI hk e a b c d).2
  by_cases h2 : size ≤ 180
  · rcases malloc_large L g.pools size (by omega) h2 hI.2.1 with
      ⟨e, _⟩ | ⟨k, bm, hk, e, a, b, c, d⟩
    · exact inv_malloc_null L g size hI e
    · exact (inv_malloc_large L hL g size k bm hI hk e a b c d).2
  · exact inv_malloc_null L g size hI (malloc_too_large L g.pools size (by omega))

theorem step_free_inv (L : Layout) (hL : L.WellFormed) (g : Session) (ptr : Nat)
    (hI : g.Inv L) (hp : ptr ∈ g.returned) : (step L g (Call.free ptr)).Inv L := by
  obtain ⟨w1, w2, r, lv, n⟩ := hI
  have hd := hL.2.2
  have hn : (g.live.filter (fun p => p ≠ ptr)).Nodup := n.filter _
  rcases r ptr hp with e | ⟨k, hk, e⟩ | ⟨k, hk, e⟩
  · subst e
    simp only [step, free_null]
    refine ⟨w1, w2, r, ?_, hn⟩
    intro p hp
    exact lv p (List.mem_of_mem_filter hp)
  · subst e
    have hk32 : k / 32 < (MAX_SMALL + 31) / 32 := by rw [MAX_SMALL_eq] at hk ⊢; omega
    obtain ⟨_, ho, hw⟩ := unmark_effect g.pools.small_bitmap _ k w1 hk32
    simp only [step, free_small L g.pools k hL hk]
    refine ⟨hw, w2, r, ?_, hn⟩
    intro p hp
    have hne : p ≠ L.small_pool + k * SMALL_ALIGNED := by
      simpa using (List.mem_filter.1 hp).2
    rcases lv p (List.mem_of_mem_filter hp) with ⟨j, hj, e, u⟩ | hlarge
    · have hjk : j ≠ k := by intro hjk; rw [hjk] at e; exact hne e
      exact Or.inl ⟨j, hj, e, by rw [ho j hjk]; exact u⟩
    · exact Or.inr hlarge
  · subst e
    have hk32 : k / 32 < (MAX_LARGE + 31) / 32 := by rw [MAX_LARGE_eq] at hk ⊢; omega
    obtain ⟨_, ho, hw⟩ := unmark_effect g.pools.large_bitmap _ k w2 hk32
    simp only [step, free_large L g.pools k hL hk]
    refine ⟨w1, hw, r, ?_, hn⟩
    intro p hp
    have hne : p ≠ L.large_pool + k * LARGE_ALIGNED := by
      simpa using (List.mem_filter.1 hp).2
    rcases lv p (List.mem_of_mem_filter hp) with hsmall | ⟨j, hj, e, u⟩
    · exact Or.inl hsmall
    · have hjk : j ≠ k := by intro hjk; rw [hjk] at e; exact hne e
      exact Or.inr ⟨j, hj, e, by rw [ho j hjk]; exact u⟩

theorem run_inv (L : Layout) (hL : L.WellFormed) : ∀ (calls : List Call) (g : Session),
    g.Inv L → Valid L g calls → (run L g calls).Inv L := by
  intro calls
  induction calls with
  | nil => intro g hI _; exact hI
  | cons c rest ih =>
    intro g hI hv
    cases c with
    | malloc size =>
      exact ih _ (step_malloc_inv L hL g size hI) hv
    | free ptr =>
      exact ih _ (step_free_inv L hL g ptr hI hv.1) hv.2

/-- C20: after `init_allocator` every block of both pools is marked free, and
in the session reached by any call sequence that frees only pointers returned
earlier by `malloc`, a non-NULL result of `malloc size` is the address of a
block with index below 1000 of the small pool (for `1 ≤ size ≤ 15`) or with
index below 500 of the large pool (for `16 ≤ size ≤ 180`) whose bitmap bit
was 0 before the call and is 1 after it; the result is not among the live
pointers, each live pointer is the address of a block whose bit is set, and
no pointer is live twice.  `malloc` returns NULL for size 0 and for sizes
above 180, and for a size in range it returns NULL exactly when every block
of the matching pool is marked allocated. -/
theorem pool_never_hands_out_live_block (L : Layout) (hL : L.WellFormed) (st0 : Pools)
    (calls : List Call) (hv : Valid L (start st0) calls) (size : Nat) :
    ((∀ index, index < 1000 → used (start st0).pools.small_bitmap index = false) ∧
      (∀ index, index < 500 → used (start st0).pools.large_bitmap index = false)) ∧
    ((malloc L (run L (start st0) calls).pools size).1 ≠ 0 →
      (1 ≤ size ∧ size ≤ 15 ∧ ∃ index, index < 1000 ∧
        (malloc L (run L (start st0) calls).pools size).1
          = L.small_pool + index * SMALL_ALIGNED ∧
        used (run L (start st0) calls).pools.small_bitmap index = false ∧
        used (malloc L (run L (start st0) calls).pools size).2.small_bitmap index = true) ∨
      (16 ≤ size ∧ size ≤ 180 ∧ ∃ index, index < 500 ∧
        (malloc L (run L (start st0) calls).pools size).1
          = L.large_pool + index * LARGE_ALIGNED ∧
        used (run L (start st0) calls).pools.large_bitmap index = false ∧
        used (malloc L (run L (start st0) calls).pools size).2.large_bitmap index = true)) ∧
    ((malloc L (run L (start st0) calls).pools size).1 ≠ 0 →
      (malloc L (run L (start st0) calls).pools size).1 ∉ (run L (start st0) calls).live) ∧
    (∀ p, p ∈ (run L (start st0) calls).live →
      (∃ index, index < 1000 ∧ p = L.small_pool + index * SMALL_ALIGNED ∧
        used (run L (start st0) calls).pools.small_bitmap index = true) ∨
      (∃ index, index < 500 ∧ p = L.large_pool + index * LARGE_ALIGNED ∧
        used (run L (start st0) calls).pools.large_bitmap index = true)) ∧
    (run L (start st0) calls).live.Nodup ∧
    (size = 0 ∨ 180 < size → (malloc L (run L (start st0) calls).pools size).1 = 0) ∧
    (1 ≤ size → size ≤ 15 →
      ((malloc L (run L (start st0) calls).pools size).1 = 0 ↔
        ∀ index, index < 1000 →
          used (run L (start st0) calls).pools.small_bitmap index = true)) ∧
    (16 ≤ size → size ≤ 180 →
      ((malloc L (run L (start st0) calls).pools size).1 = 0 ↔
        ∀ index, index < 500 →
          used (run L (start st0) calls).pools.large_bitmap index = true)) := by
  have hI := run_inv L hL calls (start st0) (start_inv L st0) hv
  generalize run L (start st0) calls = g at hI
  have hs := hL.1
  have hl := hL.2.1
  have hzero : size = 0 ∨ 180 < size → (malloc L g.pools size).1 = 0 := by
    rintro (h | h)
    · rw [h, malloc_zero]
    · rw [malloc_too_large L g.pools size h]
  refine ⟨start_unused st0, ?_, ?_, hI.2.2.2.1, hI.2.2.2.2, hzero, ?_, ?_⟩
  · intro hne
    by_cases h0 : size = 0
    · exact absurd (hzero (Or.inl h0)) hne
    by_cases h1 : size ≤ 15
    · rcases malloc_small L g.pools size (by omega) h1 hI.1 with ⟨e, _⟩ | ⟨k, bm, hk, e, a, b, _⟩
      · rw [e] at hne; exact absurd rfl hne
      · exact Or.inl ⟨by omega, h1, k, hk, by rw [e], a, by rw [e]; exact b⟩
    by_cases h2 : size ≤ 180
    · rcases malloc_large L g.pools size (by omega) h2 hI.2.1 with
        ⟨e, _⟩ | ⟨k, bm, hk, e, a, b, _⟩
      · rw [e] at hne; exact absurd rfl hne
      · exact Or.inr ⟨by omega, h2, k, hk, by rw [e], a, by rw [e]; exact b⟩
    · exact absurd (hzero (Or.inr (by omega))) hne
  · intro hne
    by_cases h0 : size = 0
    · exact absurd (hzero (Or.inl h0)) hne
    by_cases h1 : size ≤ 15
    · rcases malloc_small L g.pools size (by omega) h1 hI.1 with
        ⟨e, _⟩ | ⟨k, bm, hk, e, a, b, c, d⟩
      · rw [e] at hne; exact absurd rfl hne
      · rw [e]; exact (inv_malloc_small L hL g size k bm hI hk e a b c d).1
    by_cases h2 : size ≤ 180
    · rcases malloc_large L g.pools size (by omega) h2 hI.2.1 with
        ⟨e, _⟩ | ⟨k, bm, hk, e, a, b, c, d⟩
      · rw [e] at hne; exact absurd rfl hne
      · rw [e]; exact (inv_malloc_large L hL g size k bm hI hk e a b c d).1
    · exact absurd (hzero (Or.inr (by omega))) hne
  · intro h1 h2
    rcases malloc_small L g.pools size h1 h2 hI.1 with ⟨e, hfull⟩ | ⟨k, bm, hk, e, a, _⟩
    · rw [e]; exact ⟨fun _ => hfull, fun _ => rfl⟩
    · rw [e]
      constructor
      · intro h; rw [SMALL_ALIGNED_eq] at h; omega
      · intro h; rw [h k hk] at a; exact Bool.noConfusion a
  · intro h1 h2
    rcases malloc_large L g.pools size h1 h2 hI.2.1 with ⟨e, hfull⟩ | ⟨k, bm, hk, e, a, _⟩
    · rw [e]; exact ⟨fun _ => hfull, fun _ => rfl⟩
    · rw [e]
      constructor
      · intro h; rw [LARGE_ALIGNED_eq] at h; omega
      · intro h; rw [h k hk] at a; exact Bool.noConfusion a

theorem pool_never_hands_out_live_block_witness :
    Layout.WellFormed ⟨4096, 65536⟩ ∧
    Valid ⟨4096, 65536⟩ (start ⟨fun _ => 7, fun _ => 7⟩)
      [Call.malloc 8, Call.malloc 100, Call.malloc 8, Call.free 4096, Call.free 4096] ∧
    (run ⟨4096, 65536⟩ (start ⟨fun _ => 7, fun _ => 7⟩)
      [Call.malloc 8, Call.malloc 100, Call.malloc 8, Call.free 4096, Call.free 4096]).live
      = [4112, 65536] ∧
    (malloc ⟨4096, 65536⟩ (run ⟨4096, 65536⟩ (start ⟨fun _ => 7, fun _ => 7⟩)
      [Call.malloc 8, Call.malloc 100, Call.malloc 8, Call.free 4096, Call.free 4096]).pools
        8).1 = 4096 ∧
    (malloc ⟨4096, 65536⟩ (run ⟨4096, 65536⟩ (start ⟨fun _ => 7, fun _ => 7⟩)
      [Call.malloc 8, Call.malloc 100, Call.malloc 8, Call.free 4096, Call.free 4096]).pools
        8).1 ∉
      (run ⟨4096, 65536⟩ (start ⟨fun _ => 7, fun _ => 7⟩)
        [Call.malloc 8, Call.malloc 100, Call.malloc 8, Call.free 4096, Call.free 4096]).live :=
  ⟨⟨by decide, by decide, Or.inl (by decide)⟩, ⟨by decide, by decide, trivial⟩, by decide,
    by decide,
    (pool_never_hands_out_live_block ⟨4096, 65536⟩
      ⟨by decide, by decide, Or.inl (by decide)⟩ ⟨fun _ => 7, fun _ => 7⟩
      [Call.malloc 8, Call.malloc 100, Call.malloc 8, Call.free 4096, Call.free 4096]
      ⟨by decide, by decide, trivial⟩ 8).2.2.1 (by decide)⟩

end PoolAllocator
